import Mathlib

/-! Verification of `cmd/integration/commands/refetence_db.go`.

A shallow embedding of the three engines of the file:

* `compareBuckets` : the sorted-merge comparison of two cursors, and its caller
  `compareStates`,
* `kv2kv`          : the store-to-store bulk copy,
* `fToMdbx`        : the flat-file loader.

Go values are embedded as follows.

* `[]byte` and `string` are `List Nat` (one entry per byte).  A key that may be the
  `nil` slice is an `Option Bytes`, `none` being `nil`; a value is a plain `Bytes`
  (the program only passes values to `bytes.Equal`, `%x` and the append calls, none of
  which tells `nil` from the empty slice).
* `error` is the type `Error`; a `nil` error is `none`.
* A cursor is the finite script of what its successive positioning calls return
  (`First`, then each `Next`); once the script is used up every call returns
  `(nil, nil, nil)`, the natural end of the table.
* Standard output is the list of lines printed, one constructor of `Report` per
  `Printf` format of the source.
* The Go `int` variable `count` is a `Nat`: it counts the passes of a loop of which
  every pass uses up a cursor result, so it stays far below `2^63`.
* The storage layer (`ethdb`), `common.FromHex` and the clock are not part of the
  file.  Source cursors are scripts, the destination store is the model `Dst` with
  an oracle for the calls that fail, the hex decoder is a parameter, and the case a
  `select` statement takes is given by a schedule.
* A `BeginRw` that fails gives a `nil` transaction: where the program has assigned it
  to `dstTx`, the deferred `dstTx.Rollback()` panics (`Panic.nilDereference`).
* The file `fToMdbx` reads is either given as the scanner delivers it (`FileInput`:
  the lines yielded and the final error), or by its lines (`fileOf`), the scanner of
  `bufio.NewScanner` stopping at the first line of 64 KiB or more.
-/

namespace ReferenceDb

/-! ## Bytes, errors, cursors -/

/-- A Go byte slice or string, one number per byte. -/
abbrev Bytes := List Nat

/-- A stored record: key and value. -/
abbrev Record := Bytes × Bytes

/-- Go `error` values met by the program: the two errors `ctx.Err()` can
return, the errors of the storage layer (told apart by a code), and the error
`bufio.ErrTooLong` of a scanner. -/
inductive Error where
  | canceled
  | deadlineExceeded
  | storage (code : Nat)
  | tokenTooLong
  deriving DecidableEq

/-- Go `bytes.Compare(a, b)`: lexicographic comparison, `0` if `a == b`, `-1` if
`a < b`, `+1` if `a > b` (standard library, documented behaviour). -/
def bytesCompare : Bytes → Bytes → Int
  | [], [] => 0
  | [], _ :: _ => -1
  | _ :: _, [] => 1
  | a :: as, b :: bs =>
    if a < b then -1 else if b < a then 1 else bytesCompare as bs

/-- Go `bytes.Equal(a, b)`. -/
def bytesEqual (a b : Bytes) : Bool := decide (a = b)

/-- What one call of `First` or `Next` returns: `(k, v, err)`. -/
structure Step where
  k : Option Bytes
  v : Bytes
  err : Option Error
  deriving DecidableEq

/-- A cursor: the results its successive calls will return. -/
abbrev Cursor := List Step

/-- The result `(nil, nil, nil)` of a call at the natural end of the table. -/
def Step.eof : Step := ⟨none, [], none⟩

/-- One positioning call (`First` for the first call, `Next` afterwards): the
result, and the cursor after the call. -/
def Cursor.next : Cursor → Step × Cursor
  | [] => (Step.eof, [])
  | s :: rest => (s, rest)

/-- The cursor of a table holding the records `rs`, in cursor order, when no
call fails. -/
def tableCursor (rs : List Record) : Cursor :=
  rs.map (fun r => ⟨some r.1, r.2, none⟩)

/-- A read transaction: `tx.Cursor(bucket)` gives a cursor or fails. -/
abbrev Tx := Bytes → Except Error Cursor

/-- The cancellation signal as `compareBuckets` sees it: `done n` tells whether
`ctx.Done()` is closed when the loop polls it in iteration `n`, and `err` is what
`ctx.Err()` then returns. -/
structure Context where
  done : Nat → Bool
  err : Error

/-! ## `compareBuckets` -/

/-- The lines `compareBuckets` prints, one constructor per format string. -/
inductive Report where
  /-- Line `Missing in db: %x [%x]`. -/
  | missingInDb (refK refV : Bytes)
  /-- Line `Missing refDB: %x [%x]`. -/
  | missingRefDB (k v : Bytes)
  /-- Line `Different values for %x. db: [%x], refDB: [%x]`. -/
  | differentValues (k v refV : Bytes)
  /-- Line `Compared %d records`. -/
  | compared (count : Nat)
  /-- Line `Unexpected result of bytes.Compare: %d`. -/
  | unexpected (n : Int)
  deriving DecidableEq

/-- How a run ended: `return nil`, `return err`, or the iteration
budget of the model was used up before the loop ended. -/
inductive Ret where
  | nil
  | err (e : Error)
  | outOfFuel
  deriving DecidableEq

/-- A run of `compareBuckets`: the lines printed, in order, the returned value,
and the value of the variable `count` at the return, which is the number of
passes through the loop body that were started. -/
structure Run where
  out : List Report
  ret : Ret
  count : Nat
  deriving DecidableEq

/-- The variables of the loop of `compareBuckets`. -/
structure LoopState where
  k : Option Bytes
  v : Bytes
  c : Cursor
  refK : Option Bytes
  refV : Bytes
  refC : Cursor
  count : Nat
  deriving DecidableEq

/-- Outcome of one pass through the loop body. -/
inductive Iter where
  /-- The body ran to its end: lines printed, new state. -/
  | next (out : List Report) (st : LoopState)
  /-- The body returned: lines printed, value returned. -/
  | stop (out : List Report) (e : Error)
  deriving DecidableEq

/-- Lines 208-211, 216-219, 230-233: `k, v, e = c.Next()`, returning `e` when it
is not `nil`. -/
def advanceLeft (out : List Report) (st : LoopState) : Iter :=
  let (s, c) := st.c.next
  match s.err with
  | some e => .stop out e
  | none => .next out { st with k := s.k, v := s.v, c := c }

/-- Lines 202-205, 222-225, 234-237: `refK, refV, revErr = refC.Next()`, returning
`revErr` when it is not `nil`. -/
def advanceRight (out : List Report) (st : LoopState) : Iter :=
  let (s, refC) := st.refC.next
  match s.err with
  | some e => .stop out e
  | none => .next out { st with refK := s.k, refV := s.v, refC := refC }

/-- Lines 200-241: the classification of the current pair of records, `st.count`
being already incremented. -/
def classify (st : LoopState) : Iter :=
  match st.k, st.refK with
  | none, refK =>
    advanceRight [.missingInDb (refK.getD []) st.refV] st
  | some k, none =>
    advanceLeft [.missingRefDB k st.v] st
  | some k, some refK =>
    let cmp := bytesCompare k refK
    if cmp = -1 then
      advanceLeft [.missingRefDB k st.v] st
    else if cmp = 1 then
      advanceRight [.missingInDb refK st.refV] st
    else if cmp = 0 then
      let out := if !bytesEqual st.v st.refV then [.differentValues k st.v st.refV] else []
      match advanceLeft out st with
      | .stop o e => .stop o e
      | .next o st1 => advanceRight o st1
    else
      .next [.unexpected cmp] st

/-- Lines 191-241: one pass through the body of the loop. -/
def loopBody (ctx : Context) (st : LoopState) : Iter :=
  let st := { st with count := st.count + 1 }
  if st.count % 10000000 = 0 then
    if ctx.done st.count then
      .stop [] ctx.err
    else
      match classify st with
      | .next o st1 => .next (.compared st.count :: o) st1
      | .stop o e => .stop (.compared st.count :: o) e
  else
    classify st

/-- Lines 190-243: `for k != nil || refK != nil { ... }; return nil`, run for at
most `fuel` passes. -/
def compareLoop (ctx : Context) : Nat → LoopState → Run
  | 0, st =>
    if st.k.isSome || st.refK.isSome then ⟨[], .outOfFuel, st.count⟩ else ⟨[], .nil, st.count⟩
  | fuel + 1, st =>
    if st.k.isSome || st.refK.isSome then
      match loopBody ctx st with
      | .stop o e => ⟨o, .err e, st.count + 1⟩
      | .next o st1 =>
        let run := compareLoop ctx fuel st1
        { run with out := o ++ run.out }
    else
      ⟨[], .nil, st.count⟩

/-- The function `compareBuckets(ctx, tx, b, refTx, refB)`.  The loop is given
one pass per result the two cursors can return: every pass that does not return
uses up at least one of them. -/
def compareBuckets (ctx : Context) (tx : Tx) (b : Bytes) (refTx : Tx) (refB : Bytes) : Run :=
  match tx b with
  | .error err => ⟨[], .err err, 0⟩
  | .ok c0 =>
    let (s, c) := c0.next
    match s.err with
    | some e => ⟨[], .err e, 0⟩
    | none =>
      match refTx refB with
      | .error err => ⟨[], .err err, 0⟩
      | .ok refC0 =>
        let (r, refC) := refC0.next
        match r.err with
        | some revErr => ⟨[], .err revErr, 0⟩
        | none =>
          compareLoop ctx (c0.length + refC0.length)
            ⟨s.k, s.v, c, r.k, r.v, refC, 0⟩

/-- The divergence lines among the printed lines: everything but the progress
notice `Compared n records`. -/
def Report.isDivergence : Report → Bool
  | .compared _ => false
  | _ => true

/-- The divergence reports of a run, in the order printed. -/
def divergences (out : List Report) : List Report := out.filter Report.isDivergence

/-- A transaction in which every bucket holds the records `rs` and every cursor
call succeeds. -/
def tableTx (rs : List Record) : Tx := fun _ => .ok (tableCursor rs)

/-- The bytes of an ASCII string literal. -/
def str (s : String) : Bytes := s.toList.map Char.toNat

/-- The current record of a cursor standing on the records `rs`: the first of
them, or `nil` at the end. -/
def headKey : List Record → Option Bytes
  | [] => none
  | r :: _ => some r.1

/-- The current value of a cursor standing on the records `rs`. -/
def headVal : List Record → Bytes
  | [] => []
  | r :: _ => r.2

/-- The loop state in which the left cursor still has the records `as` to yield
(the first being the current one) and the right cursor the records `bs`. -/
def stateOf (as bs : List Record) (count : Nat) : LoopState :=
  ⟨headKey as, headVal as, tableCursor as.tail, headKey bs, headVal bs, tableCursor bs.tail, count⟩

/-- The divergence reports of a merge of the record lists `as` and `bs`, written
by recursion on the lists: what the loop prints, as `compareLoop_table` shows. -/
def mergeReports : List Record → List Record → List Report
  | [], [] => []
  | [], b :: bs => .missingInDb b.1 b.2 :: mergeReports [] bs
  | a :: as, [] => .missingRefDB a.1 a.2 :: mergeReports as []
  | a :: as, b :: bs =>
    if bytesCompare a.1 b.1 = -1 then
      .missingRefDB a.1 a.2 :: mergeReports as (b :: bs)
    else if bytesCompare a.1 b.1 = 1 then
      .missingInDb b.1 b.2 :: mergeReports (a :: as) bs
    else if a.2 = b.2 then
      mergeReports as bs
    else
      .differentValues a.1 a.2 b.2 :: mergeReports as bs
termination_by as bs => as.length + bs.length

/-- The key a divergence line is about. -/
def Report.key : Report → Option Bytes
  | .missingInDb k _ => some k
  | .missingRefDB k _ => some k
  | .differentValues k _ _ => some k
  | .compared _ => none
  | .unexpected _ => none

/-- Unique keys in ascending order: the key of every record is below (for
`bytes.Compare`) the key of every later record. -/
def Ascending (rs : List Record) : Prop :=
  rs.Pairwise (fun a b => bytesCompare a.1 b.1 = -1)

instance (rs : List Record) : Decidable (Ascending rs) := by
  unfold Ascending; infer_instance

/-- The value stored under key `k` in the record list `rs` (the first one). -/
def valueAt (k : Bytes) : List Record → Option Bytes
  | [] => none
  | r :: rs => if r.1 = k then some r.2 else valueAt k rs

/-- What a merge prints about a key, from the values the two sides hold. -/
def reportFor (k : Bytes) : Option Bytes → Option Bytes → List Report
  | some v, none => [.missingRefDB k v]
  | none, some w => [.missingInDb k w]
  | some v, some w => if v = w then [] else [.differentValues k v w]
  | none, none => []

/-- Line `r` is about a key below the key line `s` is about. -/
def Report.keyLt (r s : Report) : Prop :=
  ∃ k l, r.key = some k ∧ s.key = some l ∧ bytesCompare k l = -1

/-! ## The destination store and the copy engines -/

/-- The contents of a store: the records of each table, in cursor order. -/
abbrev Store := Bytes → List Record

/-- The store with no record in any table. -/
def Store.empty : Store := fun _ => []

/-- The store `s` with the record `(k, v)` put at the end of table `name`. -/
def Store.append (s : Store) (name k v : Bytes) : Store :=
  fun n => if n = name then s n ++ [(k, v)] else s n

/-- The calls the engines make on the destination store. -/
inductive Call where
  | beginRw
  | rwCursor (name : Bytes)
  | append (name k v : Bytes)
  | appendDup (name k v : Bytes)
  | commit
  deriving DecidableEq

/-- What the engines do to the outside, in order: a call on the destination with
the error it returned (`none` for success), the calls on the source, a receive from
`ctx.Done()`, and the `Progress` log line of a timer tick. -/
inductive Event where
  | dst (c : Call) (err : Option Error)
  | srcBeginRo
  | srcCursor (name : Bytes)
  | ctxDone
  | progress (bucket k : Bytes)
  deriving DecidableEq

/-- Which case a `select` statement of a copy loop takes: the receive from
`ctx.Done()`, the receive from the ticker `commitEvery.C`, or `default`. -/
inductive Sel where
  | done
  | tick
  | idle
  deriving DecidableEq

/-- The signals a copy engine sees: `sel n` is the case taken by the `select`
executed after the `n`-th record written (counting from 0 over the whole run),
and `err` is what `ctx.Err()` returns once `ctx.Done()` is closed. -/
structure Signals where
  sel : Nat → Sel
  err : Error

/-- Modelled from the spec: the destination store (`ethdb.RwKV`), whose code is
not in the source file.  `contents` are its durable tables before the run,
`dupsort name` tells whether table `name` is a multi-value table, so that its
writing cursor has the order-preserving per-key append, and `fault n` is the
error, if any, with which the `n`-th call made on the store fails. -/
structure Dst where
  contents : Store
  dupsort : Bytes → Bool
  fault : Nat → Option Error

/-- A table of `src.AllBuckets()`: of `dbutils.BucketConfigItem` only the field
`IsDeprecated` is read. -/
structure BucketConfigItem where
  IsDeprecated : Bool
  deriving DecidableEq

/-- The source store as `kv2kv` uses it: the error of `src.BeginRo`, if it
fails; the tables of `src.AllBuckets()` in the order the `range` over the map
enumerates them; and `srcTx.Cursor(name)`. -/
structure Src where
  beginRo : Option Error
  allBuckets : List (Bytes × BucketConfigItem)
  cursor : Tx

/-- A Go panic: `panic(err)`, `panic("bucket not parse")`, the run-time panics
of `parts[1]` and `k[1:]`, or the run-time panic of the deferred
`dstTx.Rollback()` when `dstTx` is `nil`. -/
inductive Panic where
  | error (e : Error)
  | bucketNotParse
  | indexOutOfRange
  | sliceBounds
  | nilDereference
  deriving DecidableEq

/-- How a copy engine ends: `return nil`, `return err`, a panic, or the
iteration budget of the model used up. -/
inductive Exit where
  | nil
  | err (e : Error)
  | panic (p : Panic)
  | outOfFuel
  deriving DecidableEq

/-- The state of a copy engine: the durable contents of the destination, the
contents seen by the open write transaction `dstTx`, the number of calls made on
the destination, the number of `select` statements executed, and the events so
far. -/
structure St where
  durable : Store
  pending : Store
  calls : Nat
  selects : Nat
  trace : List Event

/-- Record an event. -/
def St.log (st : St) (e : Event) : St := { st with trace := st.trace ++ [e] }

/-- Record a call on the destination and the error it returns. -/
def St.call (st : St) (c : Call) (err : Option Error) : St :=
  { st with calls := st.calls + 1, trace := st.trace ++ [.dst c err] }

/-- Modelled from the spec: `dst.BeginRw(ctx)`.  A new write transaction starts
from the durable contents; a call that fails gives no transaction (`nil`) with
its error. -/
def beginRw (dst : Dst) (st : St) : Option Error × St :=
  match dst.fault st.calls with
  | some e => (some e, st.call .beginRw (some e))
  | none => (none, { st.call .beginRw none with pending := st.durable })

/-- Modelled from the spec: `dstTx.RwCursor(name)`. -/
def rwCursor (dst : Dst) (name : Bytes) (st : St) : Option Error × St :=
  (dst.fault st.calls, st.call (.rwCursor name) (dst.fault st.calls))

/-- Modelled from the spec: `c.Append(k, v)` (`isDupsort = false`) and
`casted.AppendDup(k, v)` (`isDupsort = true`) on the cursor of table `name`: an
append that succeeds puts the record at the end of the table, inside the open
transaction. -/
def appendRecord (dst : Dst) (isDupsort : Bool) (name k v : Bytes) (st : St) :
    Option Error × St :=
  let c := if isDupsort then Call.appendDup name k v else Call.append name k v
  match dst.fault st.calls with
  | some e => (some e, st.call c (some e))
  | none => (none, { st.call c none with pending := st.pending.append name k v })

/-- Modelled from the spec: `dstTx.Commit()`.  A commit that succeeds makes the
writes of the transaction durable; one that fails leaves the durable contents
as they were. -/
def commit (dst : Dst) (st : St) : Option Error × St :=
  match dst.fault st.calls with
  | some e => (some e, st.call .commit (some e))
  | none => (none, { st.call .commit none with durable := st.pending })

/-- Where control goes after a loop: on to the next statement, or out of the
function. -/
inductive Flow where
  | next (st : St)
  | exit (ret : Exit) (st : St)

/-- A run of a copy engine: how it ended, the durable contents of the destination
afterwards (the deferred `dstTx.Rollback()` discards what the open transaction
holds), and the events. -/
structure CopyRun where
  ret : Exit
  durable : Store
  trace : List Event

/-- The function returns (or panics): the deferred rollback runs. -/
def finish (ret : Exit) (st : St) : CopyRun := ⟨ret, st.durable, st.trace⟩

/-- Lines 395-429 of `kv2kv`: the loop over the records of one source table.
The argument is the source cursor, whose next result is that of `First` or of
the `Next` of the post statement.  Modelled from the spec for the store: a
`BeginRw` that fails gives no transaction, so that line 418,
`dstTx, err = dst.BeginRw(ctx)`, leaves `nil` in `dstTx`; the `return err` of
line 420 then runs the deferred `dstTx.Rollback()` of lines 373-375 on it, and
the function ends in the run-time panic of a call on `nil` instead of returning
`err`. -/
def copyLoop (sig : Signals) (dst : Dst) (name : Bytes) : Bool → Cursor → St → Flow
  | _, [], st => .next st
  | isDupsort, s :: rest, st =>
    match s.k with
    | none => .next st
    | some k =>
      match s.err with
      | some err => .exit (.err err) st
      | none =>
        match appendRecord dst isDupsort name k s.v st with
        | (some err, st) => .exit (.panic (.error err)) st
        | (none, st) =>
          let st1 := { st with selects := st.selects + 1 }
          match sig.sel st.selects with
          | .done => .exit (.err sig.err) (st1.log .ctxDone)
          | .idle => copyLoop sig dst name isDupsort rest st1
          | .tick =>
            match commit dst (st1.log (.progress name k)) with
            | (some err2, st) => .exit (.err err2) st
            | (none, st) =>
              match beginRw dst st with
              | (some _, st) => .exit (.panic .nilDereference) st
              | (none, st) =>
                match rwCursor dst name st with
                | (some err, st) => .exit (.err err) st
                | (none, st) => copyLoop sig dst name (dst.dupsort name) rest st

/-- Lines 380-440 of `kv2kv`: the loop over the tables of the source. -/
def copyBuckets (sig : Signals) (src : Src) (dst : Dst) :
    List (Bytes × BucketConfigItem) → St → Flow
  | [], st => .next st
  | (name, b) :: rest, st =>
    if b.IsDeprecated then
      copyBuckets sig src dst rest st
    else
      match rwCursor dst name st with
      | (some err, st) => .exit (.err err) st
      | (none, st) =>
        match src.cursor name with
        | .error err => .exit (.err err) (st.log (.srcCursor name))
        | .ok srcC =>
          match copyLoop sig dst name (dst.dupsort name) srcC (st.log (.srcCursor name)) with
          | .exit ret st => .exit ret st
          | .next st => copyBuckets sig src dst rest st

/-- Lines 441-455 of `kv2kv` and 340-353 of `fToMdbx`: commit, one more
begin/commit cycle, `return nil`.  When the `BeginRw` of lines 344 and 445
fails, `dstTx` has been assigned `nil`, and the `return err` that follows ends
in the run-time panic of the deferred `dstTx.Rollback()`, as in `copyLoop`. -/
def commitAndReturn (dst : Dst) (st : St) : CopyRun :=
  match commit dst st with
  | (some err, st) => finish (.err err) st
  | (none, st) =>
    match beginRw dst st with
    | (some _, st) => finish (.panic .nilDereference) st
    | (none, st) =>
      match commit dst st with
      | (some err, st) => finish (.err err) st
      | (none, st) => finish .nil st

/-- The function `kv2kv(ctx, src, dst)`. -/
def kv2kv (sig : Signals) (src : Src) (dst : Dst) : CopyRun :=
  let st : St := ⟨dst.contents, dst.contents, 0, 0, [.srcBeginRo]⟩
  match src.beginRo with
  | some err1 => finish (.err err1) st
  | none =>
    match beginRw dst st with
    | (some err1, st) => finish (.err err1) st
    | (none, st) =>
      match copyBuckets sig src dst src.allBuckets st with
      | .exit ret st => finish ret st
      | .next st => commitAndReturn dst st

/-- The records `kv2kv` copies into table `n` when it goes through the tables
`bs` and reads `tables` from the source: those of every entry of `bs` named `n`
that is not deprecated. -/
def copied (tables : Bytes → List Record) : List (Bytes × BucketConfigItem) → Bytes → List Record
  | [], _ => []
  | (name, b) :: rest, n =>
    (if b.IsDeprecated = false ∧ n = name then tables name else []) ++ copied tables rest n

/-- The record a successful append event puts into table `n`. -/
def Event.written (n : Bytes) : Event → Option Record
  | .dst (.append name k v) none => if name = n then some (k, v) else none
  | .dst (.appendDup name k v) none => if name = n then some (k, v) else none
  | _ => none

/-- The records the events of `tr` put into table `n`, in order. -/
def written (n : Bytes) (tr : List Event) : List Record := tr.filterMap (Event.written n)

/-- Whether the event is a commit that succeeded. -/
def Event.isCommit : Event → Bool
  | .dst .commit none => true
  | _ => false

/-- The events up to the last successful commit, that one included. -/
def uptoLastCommit : List Event → List Event
  | [] => []
  | e :: es => if e.isCommit || es.any Event.isCommit then e :: uptoLastCommit es else []

/-- The records a source cursor yields to the loop of `kv2kv`: those before the
first result with a `nil` key or an error. -/
def yielded : Cursor → List Record
  | [] => []
  | s :: rest =>
    match s.k, s.err with
    | some k, none => (k, s.v) :: yielded rest
    | _, _ => []

/-- The records the loop of `kv2kv` gets from `srcTx.Cursor(name)`. -/
def yieldedBy : Except Error Cursor → List Record
  | .error _ => []
  | .ok c => yielded c

/-- The state agrees with its trace: the durable contents are the initial
contents followed by the records written up to the last successful commit, and
the open transaction sees all the records written. -/
def Tracked (c : Store) (st : St) : Prop :=
  (∀ n, st.durable n = c n ++ written n (uptoLastCommit st.trace)) ∧
  (∀ n, st.pending n = c n ++ written n st.trace)

/-- What a loop of `kv2kv` that copies the records `recs` into table `name`
guarantees, started in state `st`: if it ends normally the state agrees with its
trace, no cancellation was received and exactly `recs` were written; if it
leaves the function, the durable contents agree with the trace, a prefix of
`recs` was written, and a cancellation received is the last event and makes the
function return `ctx.Err()`. -/
def FlowOk (sig : Signals) (c : Store) (name : Bytes) (recs : List Record) (st : St) :
    Flow → Prop
  | .next st1 => Tracked c st1 ∧ Event.ctxDone ∉ st1.trace ∧
      ∀ n, written n st1.trace = written n st.trace ++ if n = name then recs else []
  | .exit ret st1 => (∀ n, st1.durable n = c n ++ written n (uptoLastCommit st1.trace)) ∧
      (∃ p, p <+: recs ∧
        ∀ n, written n st1.trace = written n st.trace ++ if n = name then p else []) ∧
      (Event.ctxDone ∈ st1.trace → ret = .err sig.err ∧ st1.trace.getLast? = some .ctxDone)

/-- State `st1` comes after `st`, the events in between having written the
records `ws` into table `name` and received no cancellation, and its durable
contents agree with its trace. -/
structure Adv (c : Store) (st st1 : St) (name : Bytes) (ws : List Record) : Prop where
  durable : ∀ n, st1.durable n = c n ++ written n (uptoLastCommit st1.trace)
  wrote : ∀ n, written n st1.trace = written n st.trace ++ if n = name then ws else []
  quiet : Event.ctxDone ∉ st1.trace

/-- The records `kv2kv` reads for table `n` when it goes through the tables
`bs` of the source: what the source cursor yields, for every entry of `bs` named
`n` that is not deprecated. -/
def readFrom (src : Src) : List (Bytes × BucketConfigItem) → Bytes → List Record
  | [], _ => []
  | (name, b) :: rest, n =>
    (if b.IsDeprecated = false ∧ n = name then yieldedBy (src.cursor name) else [])
      ++ readFrom src rest n

/-- What the loop over the tables guarantees: as `FlowOk`, for all tables. -/
def BucketsOk (sig : Signals) (c : Store) (recs : Bytes → List Record) (st : St) :
    Flow → Prop
  | .next st1 => Tracked c st1 ∧ Event.ctxDone ∉ st1.trace ∧
      ∀ n, written n st1.trace = written n st.trace ++ recs n
  | .exit ret st1 => (∀ n, st1.durable n = c n ++ written n (uptoLastCommit st1.trace)) ∧
      (∀ n, ∃ p, p <+: recs n ∧ written n st1.trace = written n st.trace ++ p) ∧
      (Event.ctxDone ∈ st1.trace → ret = .err sig.err ∧ st1.trace.getLast? = some .ctxDone)

/-! ## `fToMdbx` -/

/-- The file `fToMdbx` reads, as `os.Open` and `bufio.Scanner` deliver it: the
error of `os.Open`, if it fails; the lines `Scan` yields, without their line
ends; and the error, if any, that stops the scanner after these lines (`none`
when it stops at end-of-input), which `fileScanner.Err()` returns once `Scan` has
returned `false`. -/
structure FileInput where
  openErr : Option Error
  lines : List Bytes
  scanErr : Option Error

/-- The line `DATA=END`. -/
def endData : Bytes := str "DATA=END"

/-- The line `HEADER=END`. -/
def endHeader : Bytes := str "HEADER=END"

/-- The header field name `database`. -/
def database : Bytes := str "database"

/-- Go `strings.Split(s, sep)` for a one-byte separator. -/
def split (sep : Nat) : Bytes → List Bytes
  | [] => [[]]
  | c :: cs =>
    if c = sep then [] :: split sep cs
    else
      match split sep cs with
      | [] => [[c]]
      | p :: ps => (c :: p) :: ps

/-- How the header loop ends: `Scan` returned `false`, the line `HEADER=END`
was read (the lines after it remain), or `parts[1]` panicked. -/
inductive HeaderEnd where
  | eof (bucket : Bytes)
  | endHeader (bucket : Bytes) (rest : List Bytes)
  | panic (p : Panic)
  deriving DecidableEq

/-- Lines 271-285: the header loop, on the lines the scanner still holds and the
value of `bucket`. -/
def headerLoop : List Bytes → Bytes → HeaderEnd
  | [], bucket => .eof bucket
  | kk :: rest, bucket =>
    if bytesEqual kk endHeader then .endHeader bucket rest
    else
      match split 61 kk with
      | k :: v :: _ => headerLoop rest (if k = database then v else bucket)
      | _ => .panic .indexOutOfRange

/-- How the data loop ends: `break MainLoop`, `break` on the line `DATA=END`
(the lines after it remain), or leaving the function. -/
inductive DataEnd where
  | breakMain (st : St)
  | endData (rest : List Bytes) (st : St)
  | exit (ret : Exit) (st : St)

/-- Lines 303-334: the data loop on table `bucket`, whose cursor is a dupsort
cursor iff `isDupsort`.  `fromHex` is `common.FromHex`. -/
def dataLoop (sig : Signals) (fromHex : Bytes → Bytes) (dst : Dst) (bucket : Bytes)
    (isDupsort : Bool) : List Bytes → St → DataEnd
  | [], st => .breakMain st
  | k :: rest, st =>
    if bytesEqual k endData then .endData rest st
    else
      match k with
      | [] => .exit (.panic .sliceBounds) st
      | _ :: kHex =>
        match rest with
        | [] => .breakMain st
        | v :: rest2 =>
          match v with
          | [] => .exit (.panic .sliceBounds) st
          | _ :: vHex =>
            match appendRecord dst isDupsort bucket (fromHex kHex) (fromHex vHex) st with
            | (some err, st) => .exit (.panic (.error err)) st
            | (none, st) =>
              let st1 := { st with selects := st.selects + 1 }
              match sig.sel st.selects with
              | .idle => dataLoop sig fromHex dst bucket isDupsort rest2 st1
              | .done => .exit (.err sig.err) (st1.log .ctxDone)
              | .tick =>
                dataLoop sig fromHex dst bucket isDupsort rest2
                  (st1.log (.progress bucket (fromHex kHex)))

/-- Lines 294-338: after the header loop and the check of the error of the scanner:
the check of `bucket`, the cursor, the data loop.  `next` is the following pass
of `MainLoop`. -/
def loadTable (sig : Signals) (fromHex : Bytes → Bytes) (dst : Dst)
    (next : List Bytes → St → CopyRun) (bucket : Bytes) (rest : List Bytes) (st : St) :
    CopyRun :=
  if bucket = [] then
    finish (.panic .bucketNotParse) st
  else
    match rwCursor dst bucket st with
    | (some err, st) => finish (.err err) st
    | (none, st) =>
      match dataLoop sig fromHex dst bucket (dst.dupsort bucket) rest st with
      | .exit ret st => finish ret st
      | .breakMain st => commitAndReturn dst st
      | .endData rest st => next rest st

/-- Lines 268-353: `MainLoop`, run for at most `fuel` passes, and what follows
it. -/
def mainLoop (sig : Signals) (fromHex : Bytes → Bytes) (dst : Dst) (scanErr : Option Error) :
    Nat → List Bytes → St → CopyRun
  | 0, _, st => finish .outOfFuel st
  | fuel + 1, lines, st =>
    match headerLoop lines [] with
    | .panic p => finish (.panic p) st
    | .eof bucket =>
      match scanErr with
      | some err => finish (.panic (.error err)) st
      | none => loadTable sig fromHex dst (mainLoop sig fromHex dst scanErr fuel) bucket [] st
    | .endHeader bucket rest =>
      loadTable sig fromHex dst (mainLoop sig fromHex dst scanErr fuel) bucket rest st

/-- The function `fToMdbx(ctx, to)`, reading `file`; `dst` is the store opened at
`to`.  Every pass of `MainLoop` but the last reads at least one line, so one pass
per line and one more are enough for it to end. -/
def fToMdbx (sig : Signals) (fromHex : Bytes → Bytes) (file : FileInput) (dst : Dst) :
    CopyRun :=
  let st : St := ⟨dst.contents, dst.contents, 0, 0, []⟩
  match file.openErr with
  | some err => finish (.panic (.error err)) st
  | none =>
    match beginRw dst st with
    | (some err1, st) => finish (.err err1) st
    | (none, st) =>
      mainLoop sig fromHex dst file.scanErr (file.lines.length + 1) file.lines st

/-- The value of a hexadecimal digit. -/
def hexVal (c : Nat) : Option Nat :=
  if 48 ≤ c ∧ c ≤ 57 then some (c - 48)
  else if 97 ≤ c ∧ c ≤ 102 then some (c - 87)
  else if 65 ≤ c ∧ c ≤ 70 then some (c - 55)
  else none

/-- Modelled from the spec: `common.FromHex` is not in the source file; the spec
says that the rest of the line is hex-decoded into raw bytes.  Two digits give
one byte.  The engine takes the decoder as a parameter; this one instantiates it
on concrete streams. -/
def hexDecode : Bytes → Bytes
  | a :: b :: rest =>
    match hexVal a, hexVal b with
    | some x, some y => (16 * x + y) :: hexDecode rest
    | _, _ => []
  | _ => []

/-! ## Export streams -/

/-- The table name the header loop takes from the header lines `hs`, starting
from `bucket`: the value of the last `database=` line. -/
def headerBucket : List Bytes → Bytes → Bytes
  | [], bucket => bucket
  | kk :: rest, bucket =>
    match split 61 kk with
    | k :: v :: _ => headerBucket rest (if k = database then v else bucket)
    | _ => headerBucket rest bucket

/-- A table section of an export stream: the header lines before `HEADER=END`
and the pairs of key line and value line of the data block. -/
structure TableSection where
  header : List Bytes
  pairs : List (Bytes × Bytes)

/-- The table a section names. -/
def TableSection.bucket (s : TableSection) : Bytes := headerBucket s.header []

/-- A well-formed section: every header line is a `name=value` line other than
`HEADER=END`, a `database=` line gives a non-empty table name, and every key
line and value line has its tag character, no key line being `DATA=END`. -/
def TableSection.WellFormed (s : TableSection) : Prop :=
  (∀ l ∈ s.header, l ≠ endHeader ∧ 2 ≤ (split 61 l).length) ∧
  s.bucket ≠ [] ∧
  (∀ p ∈ s.pairs, p.1 ≠ endData ∧ p.1 ≠ [] ∧ p.2 ≠ [])

instance (s : TableSection) : Decidable s.WellFormed := by
  unfold TableSection.WellFormed; infer_instance

/-- The lines of a data block: key line, value line, key line, ... -/
def pairLines : List (Bytes × Bytes) → List Bytes
  | [] => []
  | p :: ps => p.1 :: p.2 :: pairLines ps

/-- The lines of a section up to its last value line. -/
def TableSection.openLines (s : TableSection) : List Bytes :=
  s.header ++ endHeader :: pairLines s.pairs

/-- The lines of a section closed by `DATA=END`. -/
def TableSection.lines (s : TableSection) : List Bytes :=
  s.header ++ endHeader :: (pairLines s.pairs ++ [endData])

/-- The lines of a sequence of closed sections. -/
def streamLines : List TableSection → List Bytes
  | [] => []
  | s :: ss => s.lines ++ streamLines ss

/-- The records of a data block: each line without its first character,
decoded. -/
def decodePairs (fromHex : Bytes → Bytes) (ps : List (Bytes × Bytes)) : List Record :=
  ps.map (fun p => (fromHex p.1.tail, fromHex p.2.tail))

/-- The records the sections `ss` hold for table `n`, in stream order. -/
def loaded (fromHex : Bytes → Bytes) : List TableSection → Bytes → List Record
  | [], _ => []
  | s :: ss, n => (if n = s.bucket then decodePairs fromHex s.pairs else []) ++ loaded fromHex ss n

/-! ## Events of a run -/

/-- Whether the event is a call of `Commit`, successful or not. -/
def Event.isCommitCall : Event → Bool
  | .dst .commit _ => true
  | _ => false

/-- Whether the event is a call of `BeginRw` or of `Commit`. -/
def Event.isTxCall : Event → Bool
  | .dst .commit _ => true
  | .dst .beginRw _ => true
  | _ => false

/-- The table an event is about, if it is about one: the table of a cursor
that is opened, of an append call or of a progress notice. -/
def Event.table : Event → Option Bytes
  | .dst (.rwCursor n) _ => some n
  | .dst (.append n _ _) _ => some n
  | .dst (.appendDup n _ _) _ => some n
  | .srcCursor n => some n
  | .progress n _ => some n
  | _ => none

/-- The append call an event is, if it is one: the table, whether the call is
`AppendDup` (`true`) or `Append` (`false`), the key and the value. -/
def Event.appendCall : Event → Option (Bytes × Bool × Bytes × Bytes)
  | .dst (.append n k v) _ => some (n, false, k, v)
  | .dst (.appendDup n k v) _ => some (n, true, k, v)
  | _ => none

/-- The append calls made on table `n`, in order: for each the kind of the call
(`true` for `AppendDup`), the key and the value. -/
def appendCalls (n : Bytes) (tr : List Event) : List (Bool × Bytes × Bytes) :=
  tr.filterMap (fun e =>
    match e.appendCall with
    | some (m, d, k, v) => if m = n then some (d, k, v) else none
    | none => none)

/-- The tables on which the events open a destination cursor, in order. -/
def cursorsOpened (tr : List Event) : List Bytes :=
  tr.filterMap (fun e =>
    match e with
    | .dst (.rwCursor n) _ => some n
    | _ => none)

/-- The events a record loop adds for the records of table `name` of the
destination `dst`: append calls on `name`, of the kind the cursor of the table
calls for (`AppendDup` iff the table is dupsort) and with the outcome the store
gives, progress notices about `name`, and the receive of the cancellation. -/
def Event.ofRecord (dst : Dst) (name : Bytes) : Event → Prop
  | .dst (.append n _ _) x => n = name ∧ dst.dupsort name = false ∧ ∃ i, x = dst.fault i
  | .dst (.appendDup n _ _) x => n = name ∧ dst.dupsort name = true ∧ ∃ i, x = dst.fault i
  | .progress n _ => n = name
  | .ctxDone => True
  | _ => False

/-- The calls on the destination that are not about one table: `BeginRw` and
`Commit`, with the outcome the store gives. -/
def Event.ofTx (dst : Dst) (e : Event) : Prop :=
  (∃ i, e = .dst .commit (dst.fault i)) ∨ (∃ i, e = .dst .beginRw (dst.fault i))

/-- The events a copy engine adds while it works on table `name`: those of the
record loop, the opening of the cursors of the table, and the calls of a
transaction rotation. -/
def Event.ofTable (dst : Dst) (name : Bytes) (e : Event) : Prop :=
  e.ofRecord dst name ∨ e = .srcCursor name ∨
    (∃ i, e = .dst (.rwCursor name) (dst.fault i)) ∨ e.ofTx dst

/-- The events a run of `kv2kv` can hold: the opening of the source
transaction, calls of `BeginRw` and `Commit`, and events of a table of the
source that is not deprecated. -/
def Event.ofKv2kv (src : Src) (dst : Dst) (e : Event) : Prop :=
  e = .srcBeginRo ∨ e.ofTx dst ∨
    ∃ name b, (name, b) ∈ src.allBuckets ∧ b.IsDeprecated = false ∧ e.ofTable dst name

/-- The events a run of `fToMdbx` can hold: calls of `BeginRw` and `Commit`, and
for a table with a non-empty name the opening of its cursor and the events of
its records. -/
def Event.ofFToMdbx (dst : Dst) (e : Event) : Prop :=
  e.ofTx dst ∨ ∃ name, name ≠ [] ∧
    (e.ofRecord dst name ∨ ∃ i, e = .dst (.rwCursor name) (dst.fault i))

/-- State `st1` has the trace of `st` followed by events that satisfy `Q`. -/
def Extends (Q : Event → Prop) (st st1 : St) : Prop :=
  ∃ new, st1.trace = st.trace ++ new ∧ ∀ e ∈ new, Q e

/-- The state a loop leaves the function or goes on with. -/
def Flow.state : Flow → St
  | .next st => st
  | .exit _ st => st

/-- The state the data loop of `fToMdbx` ends in. -/
def DataEnd.state : DataEnd → St
  | .breakMain st => st
  | .endData _ st => st
  | .exit _ st => st

/-- The loading phase of `fToMdbx`: the state agrees with its trace, no
cancellation was received, `Commit` was never called, and the events are those
`fToMdbx` can produce. -/
def Loading (dst : Dst) (st : St) : Prop :=
  Tracked dst.contents st ∧ Event.ctxDone ∉ st.trace ∧
  (∀ e ∈ st.trace, e.isCommitCall = false) ∧ (∀ e ∈ st.trace, e.ofFToMdbx dst)

/-- A run of `fToMdbx` that ended before its `Commit`: the destination durably
holds what it held, `Commit` was never called, the run did not return `nil`,
and a cancellation received is the last event and makes it return
`ctx.Err()`. -/
def Unloaded (sig : Signals) (dst : Dst) (run : CopyRun) : Prop :=
  (∀ n, run.durable n = dst.contents n) ∧ (∀ e ∈ run.trace, e.isCommitCall = false) ∧
  (∀ e ∈ run.trace, e.ofFToMdbx dst) ∧ run.ret ≠ .nil ∧
  (Event.ctxDone ∈ run.trace → run.ret = .err sig.err ∧ run.trace.getLast? = some .ctxDone)

/-- How a run of `fToMdbx` ends: before its `Commit`, or by the commit sequence
of lines 340-353 started in a state of the loading phase. -/
def LoadEnd (sig : Signals) (dst : Dst) (run : CopyRun) : Prop :=
  Unloaded sig dst run ∨ ∃ st, Loading dst st ∧ run = commitAndReturn dst st

/-- What the data loop of `fToMdbx` guarantees when it starts in the loading
phase: it ends in the loading phase, or it leaves the function with nothing
durable. -/
def DataOk (sig : Signals) (dst : Dst) : DataEnd → Prop
  | .breakMain st1 => Loading dst st1
  | .endData _ st1 => Loading dst st1
  | .exit ret st1 => Unloaded sig dst (finish ret st1)

/-- The state after a stream of closed well-formed sections, as far as the
claims need it: nothing durable, the records of the sections pending, one
cursor opened per section and one append call per pair, of the kind of the
table. -/
def AfterSections (fromHex : Bytes → Bytes) (dst : Dst) (ss : List TableSection) (st st1 : St) :
    Prop :=
  st1.durable = st.durable ∧
  (∀ n, st1.pending n = st.pending n ++ loaded fromHex ss n) ∧
  cursorsOpened st1.trace = cursorsOpened st.trace ++ ss.map TableSection.bucket ∧
  ∀ n, appendCalls n st1.trace = appendCalls n st.trace ++
    (loaded fromHex ss n).map (fun r => (dst.dupsort n, r.1, r.2))

/-- Whether the header line `l` is a `database=` line that gives a non-empty
table name. -/
def setsTableName (l : Bytes) : Bool :=
  match split 61 l with
  | k :: v :: _ => decide (k = database) && decide (v ≠ [])
  | _ => false

/-- No `database=` line among the header lines `hs` gives a non-empty table
name. -/
def NoTableName (hs : List Bytes) : Prop := ∀ l ∈ hs, setsTableName l = false

instance (hs : List Bytes) : Decidable (NoTableName hs) := by
  unfold NoTableName; infer_instance

/-! ## Measures and prefixes of cursor scripts -/

/-- The results the two cursors of a loop state can still hand to the loop: the
current keys that are not `nil`, and the results not yet fetched. -/
def LoopState.remaining (st : LoopState) : Nat :=
  st.c.length + st.k.isSome.toNat + (st.refC.length + st.refK.isSome.toNat)

/-- The results of a cursor up to and including the first call that fails. -/
def uptoFirstFailure : Cursor → Cursor
  | [] => []
  | s :: rest => if s.err.isSome then [s] else s :: uptoFirstFailure rest

/-- The error of the first call of a cursor that fails, if one does. -/
def firstFailure : Cursor → Option Error
  | [] => none
  | s :: rest =>
    match s.err with
    | some e => some e
    | none => firstFailure rest

/-- The results of a cursor up to and including the first one that ends the use
of the cursor in `compareBuckets`: a failure, or a `nil` key. -/
def uptoStop : Cursor → Cursor
  | [] => []
  | s :: rest => if s.err.isSome || s.k.isNone then [s] else s :: uptoStop rest

/-- A transaction in which every table is read through the cursor `c`. -/
def cursorTx (c : Cursor) : Tx := fun _ => .ok c

/-- Pass `st` of the loop of `compareBuckets` is one at which the cancellation
signal is polled: the count, once incremented, is a multiple of 10,000,000. -/
def LoopState.polls (st : LoopState) : Bool := (st.count + 1) % 10000000 = 0

/-- Lines 230-237: the two calls of `case 0`, `c.Next()` and then, unless it
failed, `refC.Next()`. -/
def advanceBoth (out : List Report) (st : LoopState) : Iter :=
  match advanceLeft out st with
  | .stop o e => .stop o e
  | .next o st1 => advanceRight o st1

/-- A line that reports a divergence between the tables: one of the three
formats `Missing in db`, `Missing refDB`, `Different values`. -/
def Report.isFinding : Report → Bool
  | .missingInDb _ _ => true
  | .missingRefDB _ _ => true
  | .differentValues _ _ _ => true
  | _ => false

/-- The records the left cursor of a loop state has still to yield, the current
one first: those before the first `nil` key or failure. -/
def LoopState.leftStream (st : LoopState) : List Record :=
  match st.k with
  | none => []
  | some k => (k, st.v) :: yielded st.c

/-- The records the right cursor of a loop state has still to yield. -/
def LoopState.rightStream (st : LoopState) : List Record :=
  match st.refK with
  | none => []
  | some k => (k, st.refV) :: yielded st.refC

/-- Two loop states that differ at most in what their cursors hold after the
first result that ends the use of the cursor: the variables agree, and each
cursor of the second state is the other cut there, unless its key is already
`nil` (the cursor is then not called again). -/
def StSim (st st2 : LoopState) : Prop :=
  st2.k = st.k ∧ st2.v = st.v ∧ st2.refK = st.refK ∧ st2.refV = st.refV ∧
  st2.count = st.count ∧
  (st.k = none ∨ st2.c = uptoStop st.c) ∧ (st.refK = none ∨ st2.refC = uptoStop st.refC)

/-- Two outcomes of a pass that agree up to `StSim`. -/
def IterSim : Iter → Iter → Prop
  | .stop o e, .stop o2 e2 => o = o2 ∧ e = e2
  | .next o st, .next o2 st2 => o = o2 ∧ StSim st st2
  | _, _ => False

/-! ## `compareStates` -/

/-- Modelled from the spec: a store opened by `kv.MustOpen` and read through
`db.RwKV().View(ctx, f)`, whose code is not in the source file.  `View` begins a
read-only transaction, a consistent snapshot of the store, and hands it to `f`,
or fails with an error without calling `f`. -/
abbrev View := Except Error Tx

/-- The lines `compareStates` prints: its header line for each table, and the
lines of `compareBuckets`. -/
inductive Line where
  /-- Line `Bucket: %s`, between two line feeds. -/
  | bucket (name : Bytes)
  /-- A line printed by `compareBuckets`. -/
  | report (r : Report)
  deriving DecidableEq

/-- A run of `compareStates`: the lines printed, and the returned value. -/
structure StatesRun where
  out : List Line
  ret : Ret
  deriving DecidableEq

/-- Lines 137-142: the loop `for _, bucket := range stateBuckets`, from the table
of index `i` on.  The signal `ctx i` is the context as the call for the table of
index `i` sees it. -/
def compareTables (ctx : Nat → Context) (tx refTx : Tx) : Nat → List Bytes → StatesRun
  | _, [] => ⟨[], .nil⟩
  | i, bucket :: rest =>
    let run := compareBuckets (ctx i) tx bucket refTx bucket
    match run.ret with
    | .nil =>
      let r := compareTables ctx tx refTx (i + 1) rest
      ⟨.bucket bucket :: run.out.map .report ++ r.out, r.ret⟩
    | ret => ⟨.bucket bucket :: run.out.map .report, ret⟩

/-- The function `compareStates(ctx, chaindata, referenceChaindata)`, on the two
opened stores.  The list `stateBuckets` (lines 22-38) is a parameter: its
fifteen entries are constants of package `dbutils`, whose values are not in the
source file. -/
def compareStates (stateBuckets : List Bytes) (ctx : Nat → Context) (db refDB : View) :
    StatesRun :=
  match db with
  | .error err => ⟨[], .err err⟩
  | .ok tx =>
    match refDB with
    | .error err => ⟨[], .err err⟩
    | .ok refTx => compareTables ctx tx refTx 0 stateBuckets

/-- The table a header line names. -/
def Line.header : Line → Option Bytes
  | .bucket name => some name
  | .report _ => none

/-- The divergence report a line carries. -/
def Line.divergence : Line → Option Report
  | .bucket _ => none
  | .report r => if r.isDivergence then some r else none

/-! ## The transaction and the cursor behind the events -/

/-- What the events so far leave of the write transaction `dstTx` and of the
writing cursor `c`: no transaction is open, or one is open, with the table of
the cursor opened in it last, if one was. -/
inductive TxView where
  | closed
  | opened (cursor : Option Bytes)
  deriving DecidableEq

/-- The view after one more event, or `none` when the event is a call the view
does not allow.  `BeginRw` needs that no transaction is open and opens one when
it succeeds; `RwCursor` needs an open transaction, and when it succeeds its
cursor replaces the one before; an append needs that the cursor at hand is the
cursor of its table, opened in the open transaction; `Commit` needs an open
transaction and ends it, with its cursors.  The other events change nothing. -/
def TxView.step (s : TxView) : Event → Option TxView
  | .dst .beginRw err =>
    match s with
    | .closed => some (if err.isNone then .opened none else .closed)
    | .opened _ => none
  | .dst (.rwCursor n) err =>
    match s with
    | .closed => none
    | .opened c => some (if err.isNone then .opened (some n) else .opened c)
  | .dst (.append n _ _) _ => if s = .opened (some n) then some s else none
  | .dst (.appendDup n _ _) _ => if s = .opened (some n) then some s else none
  | .dst .commit _ =>
    match s with
    | .closed => none
    | .opened _ => some .closed
  | _ => some s

/-- The view after the events `tr`, from the view `s`: `none` when one of the
calls was not allowed. -/
def viewAfter : List Event → TxView → Option TxView
  | [], s => some s
  | e :: es, s =>
    match s.step e with
    | none => none
    | some s1 => viewAfter es s1

/-- The view a state of a copy engine is in, no transaction being open when the
engine starts. -/
def St.view (st : St) : Option TxView := viewAfter st.trace .closed

/-- The view of the destination during a run of `kv2kv`: the view of the
transaction and the cursor, or one of the stages of a rotation of lines
413-426 on table `name`: the progress notice is logged and `Commit` is due,
`Commit` has succeeded and `BeginRw` is due, `BeginRw` has succeeded and
`RwCursor(name)` is due. -/
inductive RotView where
  | view (s : TxView)
  | ticked (name : Bytes)
  | committed (name : Bytes)
  | begun (name : Bytes)
  deriving DecidableEq

/-- The view after one more event of a run of `kv2kv`, or `none` when the event
is not the one the view allows.  A progress notice on the table of the cursor at
hand starts a rotation, whose three calls have to follow in order, each as long
as the one before succeeded; outside a rotation the calls are those `TxView.step`
allows. -/
def RotView.step : RotView → Event → Option RotView
  | .view s, .progress m _ => if s = .opened (some m) then some (.ticked m) else none
  | .view s, e => (s.step e).map .view
  | .ticked n, .dst .commit err => some (if err.isNone then .committed n else .view .closed)
  | .committed n, .dst .beginRw err => some (if err.isNone then .begun n else .view .closed)
  | .begun n, .dst (.rwCursor m) err =>
    if m = n then some (.view (if err.isNone then .opened (some n) else .opened none))
    else none
  | _, _ => none

/-- The error of the first call of `Next` that fails in the pass the loop makes
from state `st`, if one does, read off the branches of lines 200-241: the pass
calls `refC.Next()` when `k` is `nil` or above `refK`, `c.Next()` when `refK` is
`nil` or above `k`, and when the keys are equal `c.Next()` and then, unless it
failed, `refC.Next()`; the default branch of the switch calls neither. -/
def passFailure (st : LoopState) : Option Error :=
  match st.k, st.refK with
  | none, _ => st.refC.next.1.err
  | some _, none => st.c.next.1.err
  | some k, some refK =>
    if bytesCompare k refK = -1 then st.c.next.1.err
    else if bytesCompare k refK = 1 then st.refC.next.1.err
    else if bytesCompare k refK = 0 then
      match st.c.next.1.err with
      | some e => some e
      | none => st.refC.next.1.err
    else none

/-- The lines a pass from state `st` prints before its first call of `Next`,
read off the branches of lines 200-241. -/
def passReport (st : LoopState) : List Report :=
  match st.k, st.refK with
  | none, refK => [.missingInDb (refK.getD []) st.refV]
  | some k, none => [.missingRefDB k st.v]
  | some k, some refK =>
    if bytesCompare k refK = -1 then [.missingRefDB k st.v]
    else if bytesCompare k refK = 1 then [.missingInDb refK st.refV]
    else if bytesCompare k refK = 0 then
      (if !bytesEqual st.v st.refV then [.differentValues k st.v st.refV] else [])
    else [.unexpected (bytesCompare k refK)]

/-! ## The scanner of `fToMdbx` -/

/-- Go `bufio.MaxScanTokenSize`, the size of the buffer of a scanner made by
`bufio.NewScanner`: 64 KiB. -/
def maxScanTokenSize : Nat := 64 * 1024

/-- Go `bufio.NewScanner(file)` (line 264) with its default split function
`bufio.ScanLines` and its default buffer (standard library, documented
behaviour), on a file that is read without error.  The argument is the file cut
at its line feeds.  `Scan` yields the lines one by one; it stops at end-of-input,
or, with the error `bufio.ErrTooLong`, at the first line that does not fit the
buffer together with its line feed.  The result is the lines yielded and the
error `Err()` returns once `Scan` has returned `false`.  A carriage return before
a line feed, which `ScanLines` drops, is not modelled: lines are taken without
one. -/
def scanLines : List Bytes → List Bytes × Option Error
  | [] => ([], none)
  | l :: rest =>
    if maxScanTokenSize ≤ l.length then ([], some .tokenTooLong)
    else (l :: (scanLines rest).1, (scanLines rest).2)

/-- The file `fToMdbx` reads when `os.Open` succeeds on a file that holds the
lines `content`. -/
def fileOf (content : List Bytes) : FileInput :=
  ⟨none, (scanLines content).1, (scanLines content).2⟩

/-- A value line of 64 KiB and one byte: the tag character and 65,536 times the
hex digit `a`. -/
def longValueLine : Bytes := 32 :: List.replicate 65536 97

/-- A section of table `T` with the one pair ` 01`, ` aa`. -/
def sectionT : TableSection := ⟨[str "database=T"], [(str " 01", str " aa")]⟩

/-! # Theorems -/

/-! ## Facts about `bytes.Compare` -/

theorem bytesCompare_cases (a b : Bytes) :
    bytesCompare a b = -1 ∨ bytesCompare a b = 0 ∨ bytesCompare a b = 1 := by
  induction a generalizing b with
  | nil => cases b <;> simp [bytesCompare]
  | cons x xs ih =>
    cases b with
    | nil => simp [bytesCompare]
    | cons y ys =>
      simp only [bytesCompare]
      split
      · simp
      · split
        · simp
        · exact ih ys

theorem bytesCompare_eq_zero {a b : Bytes} : bytesCompare a b = 0 ↔ a = b := by
  induction a generalizing b with
  | nil => cases b <;> simp [bytesCompare]
  | cons x xs ih =>
    cases b with
    | nil => simp [bytesCompare]
    | cons y ys =>
      simp only [bytesCompare]
      split
      · simp; omega
      · split
        · simp; omega
        · rw [ih]; simp; omega

theorem bytesCompare_self (a : Bytes) : bytesCompare a a = 0 :=
  bytesCompare_eq_zero.mpr rfl

theorem bytesCompare_swap {a b : Bytes} : bytesCompare a b = 1 ↔ bytesCompare b a = -1 := by
  induction a generalizing b with
  | nil => cases b <;> simp [bytesCompare]
  | cons x xs ih =>
    cases b with
    | nil => simp [bytesCompare]
    | cons y ys =>
      simp only [bytesCompare]
      by_cases h1 : x < y
      · have h2 : ¬ y < x := by omega
        simp [h1, h2]
      · by_cases h2 : y < x
        · simp [h1, h2]
        · simp [h1, h2, ih]

theorem bytesCompare_trans {a b c : Bytes} (h1 : bytesCompare a b = -1)
    (h2 : bytesCompare b c = -1) : bytesCompare a c = -1 := by
  induction a generalizing b c with
  | nil =>
    cases b with
    | nil => simp [bytesCompare] at h1
    | cons y ys =>
      cases c with
      | nil => simp [bytesCompare] at h2
      | cons z zs => simp [bytesCompare]
  | cons x xs ih =>
    cases b with
    | nil => simp [bytesCompare] at h1
    | cons y ys =>
      cases c with
      | nil => simp [bytesCompare] at h2
      | cons z zs =>
        simp only [bytesCompare] at h1 h2 ⊢
        by_cases hxy : x < y
        · by_cases hyz : y < z
          · have : x < z := by omega
            simp [this]
          · by_cases hzy : z < y
            · simp [hyz, hzy] at h2
            · have : x < z := by omega
              simp [this]
        · by_cases hyx : y < x
          · simp [hxy, hyx] at h1
          · simp only [hxy, hyx, if_false] at h1
            by_cases hyz : y < z
            · have : x < z := by omega
              simp [this]
            · by_cases hzy : z < y
              · simp [hyz, hzy] at h2
              · simp only [hyz, hzy, if_false] at h2
                have e1 : ¬ x < z := by omega
                have e2 : ¬ z < x := by omega
                simp only [e1, e2, if_false]
                exact ih h1 h2

theorem bytesCompare_ne_of_lt {a b : Bytes} (h : bytesCompare a b = -1) : a ≠ b := by
  intro e
  rw [bytesCompare_eq_zero.mpr e] at h
  omega

/-! ## The comparison of two error-free cursors is a sorted merge -/

theorem next_tableCursor (rs : List Record) :
    (tableCursor rs).next = (⟨headKey rs, headVal rs, none⟩, tableCursor rs.tail) := by
  cases rs <;> rfl

theorem advanceLeft_stateOf (o : List Report) (a : Record) (as bs : List Record) (n : Nat) :
    advanceLeft o (stateOf (a :: as) bs n) = .next o (stateOf as bs n) := by
  simp [advanceLeft, stateOf, next_tableCursor]

theorem advanceRight_stateOf (o : List Report) (as : List Record) (b : Record)
    (bs : List Record) (n : Nat) :
    advanceRight o (stateOf as (b :: bs) n) = .next o (stateOf as bs n) := by
  simp [advanceRight, stateOf, next_tableCursor]

theorem classify_cons_cons (a : Record) (as : List Record) (b : Record) (bs : List Record)
    (n : Nat) :
    classify (stateOf (a :: as) (b :: bs) n) =
      if bytesCompare a.1 b.1 = -1 then
        advanceLeft [.missingRefDB a.1 a.2] (stateOf (a :: as) (b :: bs) n)
      else if bytesCompare a.1 b.1 = 1 then
        advanceRight [.missingInDb b.1 b.2] (stateOf (a :: as) (b :: bs) n)
      else if bytesCompare a.1 b.1 = 0 then
        match advanceLeft (if !bytesEqual a.2 b.2 then [.differentValues a.1 a.2 b.2] else [])
            (stateOf (a :: as) (b :: bs) n) with
        | .stop o e => .stop o e
        | .next o st1 => advanceRight o st1
      else
        .next [.unexpected (bytesCompare a.1 b.1)] (stateOf (a :: as) (b :: bs) n) := rfl

/-- One classification step on error-free cursors: it prints the head of the
merge and leaves the cursors on the rest. -/
theorem classify_stateOf (as bs : List Record) (n : Nat) (h : as ≠ [] ∨ bs ≠ []) :
    ∃ o as1 bs1, classify (stateOf as bs n) = .next o (stateOf as1 bs1 n) ∧
      as1.length + bs1.length < as.length + bs.length ∧
      mergeReports as bs = o ++ mergeReports as1 bs1 ∧
      divergences o = o := by
  cases as with
  | nil =>
    cases bs with
    | nil => simp at h
    | cons b bs =>
      exact ⟨[.missingInDb b.1 b.2], [], bs, advanceRight_stateOf _ [] b bs n, by simp,
        by simp [mergeReports], rfl⟩
  | cons a as =>
    cases bs with
    | nil =>
      exact ⟨[.missingRefDB a.1 a.2], as, [], advanceLeft_stateOf _ a as [] n, by simp,
        by simp [mergeReports], rfl⟩
    | cons b bs =>
      rw [classify_cons_cons]
      rcases bytesCompare_cases a.1 b.1 with hc | hc | hc
      · refine ⟨[.missingRefDB a.1 a.2], as, b :: bs, ?_, by simp, by simp [mergeReports, hc], rfl⟩
        simp [hc, advanceLeft_stateOf]
      · by_cases hv : a.2 = b.2
        · refine ⟨[], as, bs, ?_, by simp; omega, by simp [mergeReports, hc, hv], rfl⟩
          simp [hc, hv, bytesEqual, advanceLeft_stateOf, advanceRight_stateOf]
        · refine ⟨[.differentValues a.1 a.2 b.2], as, bs, ?_, by simp; omega,
            by simp [mergeReports, hc, hv], rfl⟩
          simp [hc, hv, bytesEqual, advanceLeft_stateOf, advanceRight_stateOf]
      · refine ⟨[.missingInDb b.1 b.2], a :: as, bs, ?_, by simp, by simp [mergeReports, hc], rfl⟩
        simp [hc, advanceRight_stateOf]

/-- On error-free cursors and without cancellation the loop ends with
`return nil`, having printed the merge of the two record lists (and progress
notices). -/
theorem compareLoop_table (ctx : Context) (hctx : ∀ n, ctx.done n = false) (fuel : Nat) :
    ∀ (as bs : List Record) (n : Nat), as.length + bs.length ≤ fuel →
      (compareLoop ctx fuel (stateOf as bs n)).ret = .nil ∧
      divergences (compareLoop ctx fuel (stateOf as bs n)).out = mergeReports as bs := by
  induction fuel with
  | zero =>
    intro as bs n h
    have ha : as = [] := List.length_eq_zero.mp (by omega)
    have hb : bs = [] := List.length_eq_zero.mp (by omega)
    subst ha hb
    simp [compareLoop, stateOf, headKey, mergeReports, divergences]
  | succ fuel ih =>
    intro as bs n h
    by_cases hne : as ≠ [] ∨ bs ≠ []
    · obtain ⟨o, as1, bs1, hcl, hlen, hm, hd⟩ := classify_stateOf as bs (n + 1) hne
      have hcond : ((stateOf as bs n).k.isSome || (stateOf as bs n).refK.isSome) = true := by
        rcases hne with h1 | h1
        · cases as with
          | nil => exact absurd rfl h1
          | cons a as => simp [stateOf, headKey]
        · cases bs with
          | nil => exact absurd rfl h1
          | cons b bs => simp [stateOf, headKey]
      have hst : ({ stateOf as bs n with count := (stateOf as bs n).count + 1 } : LoopState)
          = stateOf as bs (n + 1) := rfl
      obtain ⟨hr, ho⟩ := ih as1 bs1 (n + 1) (by omega)
      by_cases hmod : (n + 1) % 10000000 = 0
      · have hb : loopBody ctx (stateOf as bs n)
            = .next (.compared (n + 1) :: o) (stateOf as1 bs1 (n + 1)) := by
          simp only [loopBody, hst, hcl]
          simp [stateOf, hmod, hctx]
        simp only [compareLoop, hcond, if_true, hb]
        refine ⟨hr, ?_⟩
        simp only [divergences, List.filter_append, List.filter_cons] at ho hd ⊢
        simp [Report.isDivergence, ho, hd, hm]
      · have hb : loopBody ctx (stateOf as bs n) = .next o (stateOf as1 bs1 (n + 1)) := by
          simp only [loopBody, hst, hcl]
          simp [stateOf, hmod]
        simp only [compareLoop, hcond, if_true, hb]
        refine ⟨hr, ?_⟩
        simp only [divergences, List.filter_append] at ho hd ⊢
        simp [ho, hd, hm]
    · have ha : as = [] := by
        by_contra hc; exact hne (Or.inl hc)
      have hb : bs = [] := by
        by_contra hc; exact hne (Or.inr hc)
      subst ha hb
      simp [compareLoop, stateOf, headKey, mergeReports, divergences]

/-- The comparison of two tables read without error and without cancellation
returns `nil` and prints the merge of the two record lists. -/
theorem compareBuckets_table (ctx : Context) (hctx : ∀ n, ctx.done n = false)
    (tx refTx : Tx) (b refB : Bytes) (as bs : List Record)
    (htx : tx b = .ok (tableCursor as)) (href : refTx refB = .ok (tableCursor bs)) :
    (compareBuckets ctx tx b refTx refB).ret = .nil ∧
    divergences (compareBuckets ctx tx b refTx refB).out = mergeReports as bs := by
  have h : compareBuckets ctx tx b refTx refB
      = compareLoop ctx (as.length + bs.length) (stateOf as bs 0) := by
    simp only [compareBuckets, htx, href, next_tableCursor, stateOf]
    simp [tableCursor]
  rw [h]
  exact compareLoop_table ctx hctx _ as bs 0 (le_refl _)

theorem mergeReports_self (rs : List Record) : mergeReports rs rs = [] := by
  induction rs with
  | nil => simp [mergeReports]
  | cons a as ih => simp [mergeReports, bytesCompare_self, ih]

theorem mergeReports_nil_left (rs : List Record) :
    mergeReports [] rs = rs.map (fun r => Report.missingInDb r.1 r.2) := by
  induction rs with
  | nil => simp [mergeReports]
  | cons a as ih => simp [mergeReports, ih]

theorem mergeReports_nil_right (rs : List Record) :
    mergeReports rs [] = rs.map (fun r => Report.missingRefDB r.1 r.2) := by
  induction rs with
  | nil => simp [mergeReports]
  | cons a as ih => simp [mergeReports, ih]

theorem valueAt_eq_none {k : Bytes} {rs : List Record} (h : ∀ r ∈ rs, r.1 ≠ k) :
    valueAt k rs = none := by
  induction rs with
  | nil => rfl
  | cons r rs ih =>
    have h1 : r.1 ≠ k := h r (List.mem_cons_self _ _)
    simp only [valueAt, h1, if_false]
    exact ih (fun x hx => h x (List.mem_cons_of_mem _ hx))

theorem valueAt_of_mem {k v : Bytes} {rs : List Record} (hs : Ascending rs)
    (h : (k, v) ∈ rs) : valueAt k rs = some v := by
  induction rs with
  | nil => simp at h
  | cons r rs ih =>
    rcases List.mem_cons.mp h with h1 | h1
    · subst h1; simp [valueAt]
    · have hlt := (List.pairwise_cons.mp hs).1 (k, v) h1
      have hne : r.1 ≠ k := bytesCompare_ne_of_lt hlt
      simp only [valueAt, hne, if_false]
      exact ih (List.pairwise_cons.mp hs).2 h1

theorem Ascending.head_ne {a : Record} {as : List Record} (h : Ascending (a :: as)) :
    ∀ r ∈ as, r.1 ≠ a.1 := fun r hr e =>
  bytesCompare_ne_of_lt ((List.pairwise_cons.mp h).1 r hr) e.symm

theorem Ascending.tail {a : Record} {as : List Record} (h : Ascending (a :: as)) :
    Ascending as := (List.pairwise_cons.mp h).2

/-- Every key of `b :: bs` is above a key that is below the key of `b`. -/
theorem Ascending.lt_all {k : Bytes} {b : Record} {bs : List Record}
    (h : Ascending (b :: bs)) (hk : bytesCompare k b.1 = -1) :
    ∀ r ∈ b :: bs, bytesCompare k r.1 = -1 := by
  intro r hr
  rcases List.mem_cons.mp hr with h1 | h1
  · subst h1; exact hk
  · exact bytesCompare_trans hk ((List.pairwise_cons.mp h).1 r h1)

theorem mergeReports_lt {a b : Record} (as bs : List Record)
    (hc : bytesCompare a.1 b.1 = -1) :
    mergeReports (a :: as) (b :: bs) = .missingRefDB a.1 a.2 :: mergeReports as (b :: bs) := by
  simp [mergeReports, hc]

theorem mergeReports_gt {a b : Record} (as bs : List Record)
    (hc : bytesCompare a.1 b.1 = 1) :
    mergeReports (a :: as) (b :: bs) = .missingInDb b.1 b.2 :: mergeReports (a :: as) bs := by
  simp [mergeReports, hc]

theorem mergeReports_same {a b : Record} (as bs : List Record)
    (hc : bytesCompare a.1 b.1 = 0) (hv : a.2 = b.2) :
    mergeReports (a :: as) (b :: bs) = mergeReports as bs := by
  simp [mergeReports, hc, hv]

theorem mergeReports_diff {a b : Record} (as bs : List Record)
    (hc : bytesCompare a.1 b.1 = 0) (hv : a.2 ≠ b.2) :
    mergeReports (a :: as) (b :: bs) = .differentValues a.1 a.2 b.2 :: mergeReports as bs := by
  simp [mergeReports, hc, hv]

theorem bytesCompare_zero_of_not {a b : Bytes} (h1 : ¬ bytesCompare a b = -1)
    (h2 : ¬ bytesCompare a b = 1) : bytesCompare a b = 0 := by
  rcases bytesCompare_cases a b with h | h | h
  · exact absurd h h1
  · exact h
  · exact absurd h h2

/-- The reports of a merge are about keys of one of the two lists. -/
theorem key_of_mem_mergeReports (as bs : List Record) :
    ∀ r ∈ mergeReports as bs, ∃ k, r.key = some k ∧
      ((∃ x ∈ as, x.1 = k) ∨ (∃ x ∈ bs, x.1 = k)) := by
  induction as, bs using mergeReports.induct with
  | case1 => simp [mergeReports]
  | case2 b bs ih =>
    intro r hr
    simp only [mergeReports, List.mem_cons] at hr
    rcases hr with hr | hr
    · subst hr; exact ⟨b.1, rfl, Or.inr ⟨b, by simp, rfl⟩⟩
    · obtain ⟨k, hk, h | ⟨x, hx, e⟩⟩ := ih r hr
      · exact ⟨k, hk, Or.inl h⟩
      · exact ⟨k, hk, Or.inr ⟨x, List.mem_cons_of_mem _ hx, e⟩⟩
  | case3 a as ih =>
    intro r hr
    simp only [mergeReports, List.mem_cons] at hr
    rcases hr with hr | hr
    · subst hr; exact ⟨a.1, rfl, Or.inl ⟨a, by simp, rfl⟩⟩
    · obtain ⟨k, hk, ⟨x, hx, e⟩ | h⟩ := ih r hr
      · exact ⟨k, hk, Or.inl ⟨x, List.mem_cons_of_mem _ hx, e⟩⟩
      · exact ⟨k, hk, Or.inr h⟩
  | case4 a as b bs hc ih =>
    intro r hr
    rw [mergeReports_lt as bs hc, List.mem_cons] at hr
    rcases hr with hr | hr
    · subst hr; exact ⟨a.1, rfl, Or.inl ⟨a, by simp, rfl⟩⟩
    · obtain ⟨k, hk, ⟨x, hx, e⟩ | h⟩ := ih r hr
      · exact ⟨k, hk, Or.inl ⟨x, List.mem_cons_of_mem _ hx, e⟩⟩
      · exact ⟨k, hk, Or.inr h⟩
  | case5 a as b bs hc1 hc ih =>
    intro r hr
    rw [mergeReports_gt as bs hc, List.mem_cons] at hr
    rcases hr with hr | hr
    · subst hr; exact ⟨b.1, rfl, Or.inr ⟨b, by simp, rfl⟩⟩
    · obtain ⟨k, hk, h | ⟨x, hx, e⟩⟩ := ih r hr
      · exact ⟨k, hk, Or.inl h⟩
      · exact ⟨k, hk, Or.inr ⟨x, List.mem_cons_of_mem _ hx, e⟩⟩
  | case6 a as b bs hc1 hc2 hv ih =>
    intro r hr
    rw [mergeReports_same as bs (bytesCompare_zero_of_not hc1 hc2) hv] at hr
    obtain ⟨k, hk, ⟨x, hx, e⟩ | ⟨x, hx, e⟩⟩ := ih r hr
    · exact ⟨k, hk, Or.inl ⟨x, List.mem_cons_of_mem _ hx, e⟩⟩
    · exact ⟨k, hk, Or.inr ⟨x, List.mem_cons_of_mem _ hx, e⟩⟩
  | case7 a as b bs hc1 hc2 hv ih =>
    intro r hr
    rw [mergeReports_diff as bs (bytesCompare_zero_of_not hc1 hc2) hv, List.mem_cons] at hr
    rcases hr with hr | hr
    · subst hr; exact ⟨a.1, rfl, Or.inl ⟨a, by simp, rfl⟩⟩
    · obtain ⟨k, hk, ⟨x, hx, e⟩ | ⟨x, hx, e⟩⟩ := ih r hr
      · exact ⟨k, hk, Or.inl ⟨x, List.mem_cons_of_mem _ hx, e⟩⟩
      · exact ⟨k, hk, Or.inr ⟨x, List.mem_cons_of_mem _ hx, e⟩⟩

/-- What the merge of two ascending lists prints about a key `k`. -/
theorem filter_key_mergeReports (k : Bytes) (as bs : List Record) :
    Ascending as → Ascending bs →
    (mergeReports as bs).filter (fun r => decide (r.key = some k))
      = reportFor k (valueAt k as) (valueAt k bs) := by
  induction as, bs using mergeReports.induct with
  | case1 => intro _ _; simp [mergeReports, valueAt, reportFor]
  | case2 b bs ih =>
    intro ha hb
    have ih := ih ha hb.tail
    simp only [mergeReports, List.filter_cons]
    by_cases hk : b.1 = k
    · have hn : valueAt k bs = none :=
        valueAt_eq_none (fun r hr => by rw [← hk]; exact hb.head_ne r hr)
      rw [ih, hn]
      simp [hk, reportFor, valueAt, Report.key]
    · rw [ih]; simp [hk, valueAt, Report.key]
  | case3 a as ih =>
    intro ha hb
    have ih := ih ha.tail hb
    simp only [mergeReports, List.filter_cons]
    by_cases hk : a.1 = k
    · have hn : valueAt k as = none :=
        valueAt_eq_none (fun r hr => by rw [← hk]; exact ha.head_ne r hr)
      rw [ih, hn]
      simp [hk, reportFor, valueAt, Report.key]
    · rw [ih]; simp [hk, valueAt, Report.key]
  | case4 a as b bs hc ih =>
    intro ha hb
    have ih := ih ha.tail hb
    rw [mergeReports_lt as bs hc, List.filter_cons]
    by_cases hk : a.1 = k
    · have hn : valueAt k as = none :=
        valueAt_eq_none (fun r hr => by rw [← hk]; exact ha.head_ne r hr)
      have hn2 : valueAt k (b :: bs) = none :=
        valueAt_eq_none (fun r hr => by
          rw [← hk]; exact fun e => bytesCompare_ne_of_lt (hb.lt_all hc r hr) e.symm)
      have hv : valueAt k (a :: as) = some a.2 := by simp [valueAt, hk]
      rw [ih, hn, hn2, hv]
      simp [hk, reportFor, Report.key]
    · have hv : valueAt k (a :: as) = valueAt k as := by simp [valueAt, hk]
      rw [ih, hv]; simp [hk, Report.key]
  | case5 a as b bs hc1 hc ih =>
    intro ha hb
    have ih := ih ha hb.tail
    have hc' : bytesCompare b.1 a.1 = -1 := bytesCompare_swap.mp hc
    rw [mergeReports_gt as bs hc, List.filter_cons]
    by_cases hk : b.1 = k
    · have hn : valueAt k bs = none :=
        valueAt_eq_none (fun r hr => by rw [← hk]; exact hb.head_ne r hr)
      have hn2 : valueAt k (a :: as) = none :=
        valueAt_eq_none (fun r hr => by
          rw [← hk]; exact fun e => bytesCompare_ne_of_lt (ha.lt_all hc' r hr) e.symm)
      have hv : valueAt k (b :: bs) = some b.2 := by simp [valueAt, hk]
      rw [ih, hn, hn2, hv]
      simp [hk, reportFor, Report.key]
    · have hv : valueAt k (b :: bs) = valueAt k bs := by simp [valueAt, hk]
      rw [ih, hv]; simp [hk, Report.key]
  | case6 a as b bs hc1 hc2 hv ih =>
    intro ha hb
    have ih := ih ha.tail hb.tail
    have hab : a.1 = b.1 := by
      rcases bytesCompare_cases a.1 b.1 with h | h | h
      · exact absurd h hc1
      · exact bytesCompare_eq_zero.mp h
      · exact absurd h hc2
    rw [mergeReports_same as bs (bytesCompare_zero_of_not hc1 hc2) hv, ih]
    by_cases hk : a.1 = k
    · have hn : valueAt k as = none :=
        valueAt_eq_none (fun r hr => by rw [← hk]; exact ha.head_ne r hr)
      have hn2 : valueAt k bs = none :=
        valueAt_eq_none (fun r hr => by rw [← hk, hab]; exact hb.head_ne r hr)
      have hk2 : b.1 = k := by rw [← hab]; exact hk
      have hva : valueAt k (a :: as) = some a.2 := by simp [valueAt, hk]
      have hvb : valueAt k (b :: bs) = some b.2 := by simp [valueAt, hk2]
      rw [hn, hn2, hva, hvb]
      simp [reportFor, hv]
    · have hk2 : b.1 ≠ k := by rw [← hab]; exact hk
      have hva : valueAt k (a :: as) = valueAt k as := by simp [valueAt, hk]
      have hvb : valueAt k (b :: bs) = valueAt k bs := by simp [valueAt, hk2]
      rw [hva, hvb]
  | case7 a as b bs hc1 hc2 hv ih =>
    intro ha hb
    have ih := ih ha.tail hb.tail
    have hab : a.1 = b.1 := by
      rcases bytesCompare_cases a.1 b.1 with h | h | h
      · exact absurd h hc1
      · exact bytesCompare_eq_zero.mp h
      · exact absurd h hc2
    rw [mergeReports_diff as bs (bytesCompare_zero_of_not hc1 hc2) hv, List.filter_cons]
    by_cases hk : a.1 = k
    · have hn : valueAt k as = none :=
        valueAt_eq_none (fun r hr => by rw [← hk]; exact ha.head_ne r hr)
      have hn2 : valueAt k bs = none :=
        valueAt_eq_none (fun r hr => by rw [← hk, hab]; exact hb.head_ne r hr)
      have hk2 : b.1 = k := by rw [← hab]; exact hk
      have hva : valueAt k (a :: as) = some a.2 := by simp [valueAt, hk]
      have hvb : valueAt k (b :: bs) = some b.2 := by simp [valueAt, hk2]
      rw [ih, hn, hn2, hva, hvb]
      simp [reportFor, hv, hk, Report.key]
    · have hk2 : b.1 ≠ k := by rw [← hab]; exact hk
      have hva : valueAt k (a :: as) = valueAt k as := by simp [valueAt, hk]
      have hvb : valueAt k (b :: bs) = valueAt k bs := by simp [valueAt, hk2]
      rw [ih, hva, hvb]; simp [hk, Report.key]

/-- The merge of two ascending lists reports keys in strictly ascending order. -/
theorem mergeReports_pairwise (as bs : List Record) :
    Ascending as → Ascending bs → (mergeReports as bs).Pairwise Report.keyLt := by
  induction as, bs using mergeReports.induct with
  | case1 => intro _ _; simp [mergeReports]
  | case2 b bs ih =>
    intro ha hb
    simp only [mergeReports]
    refine List.pairwise_cons.mpr ⟨?_, ih ha hb.tail⟩
    intro r hr
    obtain ⟨k, hk, ⟨x, hx, _⟩ | ⟨x, hx, e⟩⟩ := key_of_mem_mergeReports _ _ r hr
    · simp at hx
    · exact ⟨b.1, k, rfl, hk, e ▸ (List.pairwise_cons.mp hb).1 x hx⟩
  | case3 a as ih =>
    intro ha hb
    simp only [mergeReports]
    refine List.pairwise_cons.mpr ⟨?_, ih ha.tail hb⟩
    intro r hr
    obtain ⟨k, hk, ⟨x, hx, e⟩ | ⟨x, hx, _⟩⟩ := key_of_mem_mergeReports _ _ r hr
    · exact ⟨a.1, k, rfl, hk, e ▸ (List.pairwise_cons.mp ha).1 x hx⟩
    · simp at hx
  | case4 a as b bs hc ih =>
    intro ha hb
    rw [mergeReports_lt as bs hc]
    refine List.pairwise_cons.mpr ⟨?_, ih ha.tail hb⟩
    intro r hr
    obtain ⟨k, hk, ⟨x, hx, e⟩ | ⟨x, hx, e⟩⟩ := key_of_mem_mergeReports _ _ r hr
    · exact ⟨a.1, k, rfl, hk, e ▸ (List.pairwise_cons.mp ha).1 x hx⟩
    · exact ⟨a.1, k, rfl, hk, e ▸ hb.lt_all hc x hx⟩
  | case5 a as b bs hc1 hc ih =>
    intro ha hb
    rw [mergeReports_gt as bs hc]
    refine List.pairwise_cons.mpr ⟨?_, ih ha hb.tail⟩
    intro r hr
    obtain ⟨k, hk, ⟨x, hx, e⟩ | ⟨x, hx, e⟩⟩ := key_of_mem_mergeReports _ _ r hr
    · exact ⟨b.1, k, rfl, hk, e ▸ ha.lt_all (bytesCompare_swap.mp hc) x hx⟩
    · exact ⟨b.1, k, rfl, hk, e ▸ (List.pairwise_cons.mp hb).1 x hx⟩
  | case6 a as b bs hc1 hc2 hv ih =>
    intro ha hb
    rw [mergeReports_same as bs (bytesCompare_zero_of_not hc1 hc2) hv]
    exact ih ha.tail hb.tail
  | case7 a as b bs hc1 hc2 hv ih =>
    intro ha hb
    have hab : a.1 = b.1 := bytesCompare_eq_zero.mp (bytesCompare_zero_of_not hc1 hc2)
    rw [mergeReports_diff as bs (bytesCompare_zero_of_not hc1 hc2) hv]
    refine List.pairwise_cons.mpr ⟨?_, ih ha.tail hb.tail⟩
    intro r hr
    obtain ⟨k, hk, ⟨x, hx, e⟩ | ⟨x, hx, e⟩⟩ := key_of_mem_mergeReports _ _ r hr
    · exact ⟨a.1, k, rfl, hk, e ▸ (List.pairwise_cons.mp ha).1 x hx⟩
    · exact ⟨a.1, k, rfl, hk, e ▸ hab ▸ (List.pairwise_cons.mp hb).1 x hx⟩

/-! ## Claims about `compareBuckets` -/

/-- C1: when both cursors yield the same records (any finite list, ascending or not),
no cursor call fails and cancellation is not observed, `compareBuckets` prints no
`Missing in db`, `Missing refDB` or `Different values` line and returns `nil`. -/
theorem compareBuckets_identical (ctx : Context) (hctx : ∀ n, ctx.done n = false)
    (tx refTx : Tx) (b refB : Bytes) (rs : List Record)
    (htx : tx b = .ok (tableCursor rs)) (href : refTx refB = .ok (tableCursor rs)) :
    divergences (compareBuckets ctx tx b refTx refB).out = [] ∧
    (compareBuckets ctx tx b refTx refB).ret = .nil := by
  obtain ⟨hr, ho⟩ := compareBuckets_table ctx hctx tx refTx b refB rs rs htx href
  exact ⟨by rw [ho, mergeReports_self], hr⟩

theorem compareBuckets_identical_witness :
    (∀ n, (⟨fun _ => false, .canceled⟩ : Context).done n = false) ∧
    divergences (compareBuckets ⟨fun _ => false, .canceled⟩
      (tableTx [([1], [0xAA]), ([2], [0xBB])]) (str "T")
      (tableTx [([1], [0xAA]), ([2], [0xBB])]) (str "T")).out = [] ∧
    (compareBuckets ⟨fun _ => false, .canceled⟩
      (tableTx [([1], [0xAA]), ([2], [0xBB])]) (str "T")
      (tableTx [([1], [0xAA]), ([2], [0xBB])]) (str "T")).ret = .nil :=
  ⟨fun _ => rfl,
   compareBuckets_identical ⟨fun _ => false, .canceled⟩ (fun _ => rfl) _ _ _ _
    [([1], [0xAA]), ([2], [0xBB])] rfl rfl⟩

/-- C2: for tables with unique keys in ascending order, read without error and
without cancellation, a key `k` held with value `v` by the left table (db) only
is reported by exactly one line, `Missing refDB: k [v]`, and by no other
divergence line; a key held by the right table (refDB) only is reported by
exactly one line, `Missing in db: k [v]`, carrying the right value. -/
theorem compareBuckets_one_sided (ctx : Context) (hctx : ∀ n, ctx.done n = false)
    (tx refTx : Tx) (b refB : Bytes) (as bs : List Record)
    (htx : tx b = .ok (tableCursor as)) (href : refTx refB = .ok (tableCursor bs))
    (ha : Ascending as) (hb : Ascending bs) (k v : Bytes) :
    ((k, v) ∈ as → (∀ w, (k, w) ∉ bs) →
      (divergences (compareBuckets ctx tx b refTx refB).out).filter
        (fun r => decide (r.key = some k)) = [.missingRefDB k v]) ∧
    ((k, v) ∈ bs → (∀ w, (k, w) ∉ as) →
      (divergences (compareBuckets ctx tx b refTx refB).out).filter
        (fun r => decide (r.key = some k)) = [.missingInDb k v]) := by
  obtain ⟨_, ho⟩ := compareBuckets_table ctx hctx tx refTx b refB as bs htx href
  rw [ho, filter_key_mergeReports k as bs ha hb]
  constructor
  · intro hm hn
    rw [valueAt_of_mem ha hm, valueAt_eq_none (fun r hr e => hn r.2 (by rw [← e]; exact hr))]
    rfl
  · intro hm hn
    rw [valueAt_of_mem hb hm, valueAt_eq_none (fun r hr e => hn r.2 (by rw [← e]; exact hr))]
    rfl

theorem compareBuckets_one_sided_witness :
    Ascending [([1], [0xAA]), ([3], [0xCC])] ∧ Ascending [([2], [0xBB]), ([3], [0xDD])] ∧
    (divergences (compareBuckets ⟨fun _ => false, .canceled⟩
      (tableTx [([1], [0xAA]), ([3], [0xCC])]) (str "T")
      (tableTx [([2], [0xBB]), ([3], [0xDD])]) (str "T")).out).filter
        (fun r => decide (r.key = some [1])) = [.missingRefDB [1] [0xAA]] :=
  ⟨by decide, by decide,
   (compareBuckets_one_sided ⟨fun _ => false, .canceled⟩ (fun _ => rfl) _ _ _ _
      [([1], [0xAA]), ([3], [0xCC])] [([2], [0xBB]), ([3], [0xDD])] rfl rfl
      (by decide) (by decide) [1] [0xAA]).1 (by decide) (by intro w h; simp at h)⟩

/-- C3: for tables with unique keys in ascending order, read without error and
without cancellation, a key `k` held with value `v` on the left and `w` on the
right is reported, when `v ≠ w`, by exactly one line
`Different values for k. db: [v], refDB: [w]` and by no one-sided line; when
`v = w` no line is about `k`. -/
theorem compareBuckets_both_sides (ctx : Context) (hctx : ∀ n, ctx.done n = false)
    (tx refTx : Tx) (b refB : Bytes) (as bs : List Record)
    (htx : tx b = .ok (tableCursor as)) (href : refTx refB = .ok (tableCursor bs))
    (ha : Ascending as) (hb : Ascending bs) (k v w : Bytes)
    (hv : (k, v) ∈ as) (hw : (k, w) ∈ bs) :
    (divergences (compareBuckets ctx tx b refTx refB).out).filter
        (fun r => decide (r.key = some k))
      = if v = w then [] else [.differentValues k v w] := by
  obtain ⟨_, ho⟩ := compareBuckets_table ctx hctx tx refTx b refB as bs htx href
  rw [ho, filter_key_mergeReports k as bs ha hb, valueAt_of_mem ha hv, valueAt_of_mem hb hw]
  rfl

theorem compareBuckets_both_sides_witness :
    Ascending [([1], [0xAA]), ([3], [0xCC])] ∧ Ascending [([2], [0xBB]), ([3], [0xDD])] ∧
    (divergences (compareBuckets ⟨fun _ => false, .canceled⟩
      (tableTx [([1], [0xAA]), ([3], [0xCC])]) (str "T")
      (tableTx [([2], [0xBB]), ([3], [0xDD])]) (str "T")).out).filter
        (fun r => decide (r.key = some [3]))
      = if [0xCC] = [0xDD] then [] else [.differentValues [3] [0xCC] [0xDD]] :=
  ⟨by decide, by decide,
   compareBuckets_both_sides ⟨fun _ => false, .canceled⟩ (fun _ => rfl) _ _ _ _
      [([1], [0xAA]), ([3], [0xCC])] [([2], [0xBB]), ([3], [0xDD])] rfl rfl
      (by decide) (by decide) [3] [0xCC] [0xDD] (by decide) (by decide)⟩

/-- C4: for tables with unique keys in ascending order, read without error and
without cancellation, the divergence lines come out in strictly ascending order
of the key they are about (so no two lines are about the same key); and on left
`{(01,AA),(03,CC)}`, right `{(02,BB),(03,DD)}` the output is exactly
`Missing refDB: 01 [aa]`, `Missing in db: 02 [bb]`,
`Different values for 03. db: [cc], refDB: [dd]`, in that order. -/
theorem compareBuckets_ascending_reports :
    (∀ (ctx : Context) (tx refTx : Tx) (b refB : Bytes) (as bs : List Record),
      (∀ n, ctx.done n = false) →
      tx b = .ok (tableCursor as) → refTx refB = .ok (tableCursor bs) →
      Ascending as → Ascending bs →
      (divergences (compareBuckets ctx tx b refTx refB).out).Pairwise Report.keyLt) ∧
    compareBuckets ⟨fun _ => false, .canceled⟩
      (tableTx [([1], [0xAA]), ([3], [0xCC])]) (str "T")
      (tableTx [([2], [0xBB]), ([3], [0xDD])]) (str "T")
      = ⟨[.missingRefDB [1] [0xAA], .missingInDb [2] [0xBB],
          .differentValues [3] [0xCC] [0xDD]], .nil, 3⟩ := by
  refine ⟨?_, by decide⟩
  intro ctx tx refTx b refB as bs hctx htx href ha hb
  obtain ⟨_, ho⟩ := compareBuckets_table ctx hctx tx refTx b refB as bs htx href
  rw [ho]
  exact mergeReports_pairwise as bs ha hb

theorem compareBuckets_ascending_reports_witness :
    Ascending [([1], [0xAA]), ([3], [0xCC])] ∧ Ascending [([2], [0xBB]), ([3], [0xDD])] ∧
    (divergences (compareBuckets ⟨fun _ => false, .canceled⟩
      (tableTx [([1], [0xAA]), ([3], [0xCC])]) (str "T")
      (tableTx [([2], [0xBB]), ([3], [0xDD])]) (str "T")).out).Pairwise Report.keyLt :=
  ⟨by decide, by decide,
   compareBuckets_ascending_reports.1 ⟨fun _ => false, .canceled⟩ _ _ _ _
      [([1], [0xAA]), ([3], [0xCC])] [([2], [0xBB]), ([3], [0xDD])] (fun _ => rfl) rfl rfl
      (by decide) (by decide)⟩

/-- C5: when one side of `compareBuckets` is an empty table and the other holds
the records `rs`, all read without error and without cancellation, the
divergence lines are exactly one one-sided line per record of `rs`, in cursor
order, each with the key and value of that record: `Missing in db` when the left
side is the empty one, `Missing refDB` when the right side is; there is no
`Different values` line. -/
theorem compareBuckets_one_side_empty (ctx : Context) (hctx : ∀ n, ctx.done n = false)
    (tx refTx : Tx) (b refB : Bytes) (rs : List Record) :
    (tx b = .ok (tableCursor []) → refTx refB = .ok (tableCursor rs) →
      divergences (compareBuckets ctx tx b refTx refB).out
        = rs.map (fun r => Report.missingInDb r.1 r.2)) ∧
    (tx b = .ok (tableCursor rs) → refTx refB = .ok (tableCursor []) →
      divergences (compareBuckets ctx tx b refTx refB).out
        = rs.map (fun r => Report.missingRefDB r.1 r.2)) := by
  constructor
  · intro htx href
    rw [(compareBuckets_table ctx hctx tx refTx b refB [] rs htx href).2,
      mergeReports_nil_left]
  · intro htx href
    rw [(compareBuckets_table ctx hctx tx refTx b refB rs [] htx href).2,
      mergeReports_nil_right]

theorem compareBuckets_one_side_empty_witness :
    divergences (compareBuckets ⟨fun _ => false, .canceled⟩
      (tableTx []) (str "T") (tableTx [([2], [0xBB]), ([3], [0xDD])]) (str "T")).out
      = [.missingInDb [2] [0xBB], .missingInDb [3] [0xDD]] :=
  (compareBuckets_one_side_empty ⟨fun _ => false, .canceled⟩ (fun _ => rfl)
    (tableTx []) (tableTx [([2], [0xBB]), ([3], [0xDD])]) (str "T") (str "T")
    [([2], [0xBB]), ([3], [0xDD])]).1 rfl rfl

/-! ## `kv2kv` without failure and without cancellation -/

theorem tableCursor_cons (r : Record) (rs : List Record) :
    tableCursor (r :: rs) = ⟨some r.1, r.2, none⟩ :: tableCursor rs := rfl

theorem copyLoop_ok (sig : Signals) (dst : Dst) (name : Bytes)
    (hf : ∀ n, dst.fault n = none) (hs : ∀ n, sig.sel n ≠ .done) (rs : List Record) :
    ∀ (d : Bool) (st : St), ∃ st1, copyLoop sig dst name d (tableCursor rs) st = .next st1 ∧
      ∀ n, st1.pending n = st.pending n ++ (if n = name then rs else []) := by
  induction rs with
  | nil => intro d st; exact ⟨st, rfl, by simp⟩
  | cons r rs ih =>
    intro d st
    rw [tableCursor_cons]
    have hsel := hs st.selects
    cases hc : sig.sel st.selects with
    | done => exact absurd hc hsel
    | idle =>
      simp only [copyLoop, appendRecord, hf, hc, St.call]
      obtain ⟨st1, h1, h2⟩ := ih d
        { durable := st.durable, pending := st.pending.append name r.1 r.2,
          calls := st.calls + 1, selects := st.selects + 1,
          trace := st.trace ++ [.dst (if d = true then .appendDup name r.1 r.2
            else .append name r.1 r.2) none] }
      refine ⟨st1, h1, ?_⟩
      intro n
      rw [h2 n]
      by_cases hn : n = name <;> simp [Store.append, hn]
    | tick =>
      simp only [copyLoop, appendRecord, hc, St.call, St.log, commit, beginRw, rwCursor, hf]
      obtain ⟨st1, h1, h2⟩ := ih (dst.dupsort name)
        { durable := st.pending.append name r.1 r.2, pending := st.pending.append name r.1 r.2,
          calls := st.calls + 1 + 1 + 1 + 1, selects := st.selects + 1,
          trace := st.trace ++ [.dst (if d = true then .appendDup name r.1 r.2
            else .append name r.1 r.2) none] ++ [.progress name r.1] ++ [.dst .commit none]
            ++ [.dst .beginRw none] ++ [.dst (.rwCursor name) none] }
      refine ⟨st1, h1, ?_⟩
      intro n
      rw [h2 n]
      by_cases hn : n = name <;> simp [Store.append, hn]

theorem copyBuckets_ok (sig : Signals) (src : Src) (dst : Dst) (tables : Bytes → List Record)
    (hf : ∀ n, dst.fault n = none) (hs : ∀ n, sig.sel n ≠ .done)
    (hc : ∀ name, src.cursor name = .ok (tableCursor (tables name)))
    (bs : List (Bytes × BucketConfigItem)) :
    ∀ st : St, ∃ st1, copyBuckets sig src dst bs st = .next st1 ∧
      ∀ n, st1.pending n = st.pending n ++ copied tables bs n := by
  induction bs with
  | nil => intro st; exact ⟨st, rfl, by simp [copied]⟩
  | cons e bs ih =>
    intro st
    obtain ⟨name, b⟩ := e
    by_cases hd : b.IsDeprecated = true
    · obtain ⟨st1, h1, h2⟩ := ih st
      refine ⟨st1, by simp [copyBuckets, hd, h1], ?_⟩
      intro n; simp [h2 n, copied, hd]
    · have hd : b.IsDeprecated = false := by simpa using hd
      simp only [copyBuckets, hd, rwCursor, hf, hc]
      obtain ⟨st1, h1, h2⟩ := copyLoop_ok sig dst name hf hs (tables name) (dst.dupsort name)
        ((st.call (.rwCursor name) none).log (.srcCursor name))
      obtain ⟨st2, h3, h4⟩ := ih st1
      refine ⟨st2, by simp [h1, h3], ?_⟩
      intro n
      rw [h4 n, h2 n]
      by_cases hn : n = name <;> simp [copied, hd, hn, St.call, St.log]

theorem copied_of_mem (tables : Bytes → List Record) (bs : List (Bytes × BucketConfigItem))
    (hn : (bs.map Prod.fst).Nodup) (name : Bytes) (b : BucketConfigItem)
    (hm : (name, b) ∈ bs) (hd : b.IsDeprecated = false) : copied tables bs name = tables name := by
  induction bs with
  | nil => simp at hm
  | cons e bs ih =>
    obtain ⟨name1, b1⟩ := e
    simp only [List.map_cons, List.nodup_cons] at hn
    have hnot : ∀ c, (name1, c) ∉ bs := fun c hc => hn.1 (List.mem_map.mpr ⟨(name1, c), hc, rfl⟩)
    have hzero : ∀ l : List (Bytes × BucketConfigItem), (∀ c, (name1, c) ∉ l) →
        copied tables l name1 = [] := by
      intro l
      induction l with
      | nil => intro _; rfl
      | cons x l ihl =>
        intro hx
        obtain ⟨n2, b2⟩ := x
        have hne : name1 ≠ n2 := fun e => hx b2 (by rw [e]; exact List.mem_cons_self _ _)
        simp only [copied, hne, and_false, if_false, List.nil_append]
        exact ihl (fun c hc => hx c (List.mem_cons_of_mem _ hc))
    rcases List.mem_cons.mp hm with h | h
    · cases h
      simp [copied, hd, hzero bs hnot]
    · have hne : name ≠ name1 := fun e => hnot b (e ▸ h)
      simp only [copied, hne, and_false, if_false, List.nil_append]
      exact ih hn.2 h

/-- Without failure and without cancellation `kv2kv` returns `nil`, and every
table of the destination durably holds what it held, followed by the copied
records. -/
theorem kv2kv_ok (sig : Signals) (src : Src) (dst : Dst) (tables : Bytes → List Record)
    (hb : src.beginRo = none) (hf : ∀ n, dst.fault n = none) (hs : ∀ n, sig.sel n ≠ .done)
    (hc : ∀ name, src.cursor name = .ok (tableCursor (tables name))) :
    (kv2kv sig src dst).ret = .nil ∧
    ∀ n, (kv2kv sig src dst).durable n = dst.contents n ++ copied tables src.allBuckets n := by
  obtain ⟨st1, h1, h2⟩ := copyBuckets_ok sig src dst tables hf hs hc src.allBuckets
    { durable := dst.contents, pending := dst.contents, calls := 1, selects := 0,
      trace := [.srcBeginRo] ++ [.dst .beginRw none] }
  have e : kv2kv sig src dst = ⟨.nil, st1.pending, st1.trace ++ [.dst .commit none]
      ++ [.dst .beginRw none] ++ [.dst .commit none]⟩ := by
    simp only [kv2kv, hb, beginRw, hf, St.call, h1, commitAndReturn, commit, finish]
  rw [e]
  exact ⟨rfl, fun n => by simpa using h2 n⟩

/-! ## The trace determines the destination -/

theorem written_append (n : Bytes) (tr : List Event) (e : Event) :
    written n (tr ++ [e]) = written n tr ++ (e.written n).toList := by
  simp only [written, List.filterMap_append]
  cases h : e.written n <;> simp [List.filterMap, h]

theorem uptoLastCommit_of_none (tr : List Event) (h : tr.any Event.isCommit = false) :
    uptoLastCommit tr = [] := by
  cases tr with
  | nil => rfl
  | cons e es =>
    simp only [List.any_cons, Bool.or_eq_false_iff] at h
    simp [uptoLastCommit, h.1, h.2]

theorem uptoLastCommit_append (tr : List Event) (e : Event) :
    uptoLastCommit (tr ++ [e]) = if e.isCommit then tr ++ [e] else uptoLastCommit tr := by
  induction tr with
  | nil => cases h : e.isCommit <;> simp [uptoLastCommit, h]
  | cons x xs ih =>
    have hx : uptoLastCommit (x :: (xs ++ [e]))
        = if x.isCommit || (xs ++ [e]).any Event.isCommit then x :: uptoLastCommit (xs ++ [e])
          else [] := rfl
    have hy : uptoLastCommit (x :: xs)
        = if x.isCommit || xs.any Event.isCommit then x :: uptoLastCommit xs else [] := rfl
    rw [List.cons_append, hx, hy, ih]
    cases h : e.isCommit <;> simp [h]

theorem written_committed_le (n : Bytes) (tr : List Event) :
    written n (uptoLastCommit tr) <+: written n tr := by
  induction tr with
  | nil => simp [uptoLastCommit, written]
  | cons e es ih =>
    simp only [uptoLastCommit]
    split
    · simp only [written, List.filterMap_cons] at ih ⊢
      cases h : e.written n with
      | none => simpa using ih
      | some r => simpa using (List.prefix_cons_inj r).mpr ih
    · exact List.nil_prefix

theorem FlowOk.cons {sig : Signals} {c : Store} {name : Bytes} {recs : List Record}
    {st st2 : St} {f : Flow} (r : Record)
    (hw : ∀ n, written n st2.trace = written n st.trace ++ if n = name then [r] else [])
    (h : FlowOk sig c name recs st2 f) : FlowOk sig c name (r :: recs) st f := by
  cases f with
  | next st1 =>
    obtain ⟨h1, h2, h3⟩ := h
    refine ⟨h1, h2, fun n => ?_⟩
    rw [h3 n, hw n]
    by_cases hn : n = name <;> simp [hn]
  | exit ret st1 =>
    obtain ⟨h1, ⟨p, hp, h3⟩, h4⟩ := h
    refine ⟨h1, ⟨r :: p, (List.prefix_cons_inj r).mpr hp, fun n => ?_⟩, h4⟩
    rw [h3 n, hw n]
    by_cases hn : n = name <;> simp [hn]

theorem Adv.trans {c : Store} {st st1 st2 : St} {name : Bytes} {ws1 ws2 : List Record}
    (h1 : Adv c st st1 name ws1) (h2 : Adv c st1 st2 name ws2) :
    Adv c st st2 name (ws1 ++ ws2) where
  durable := h2.durable
  wrote := fun n => by
    rw [h2.wrote n, h1.wrote n]
    by_cases hn : n = name <;> simp [hn]
  quiet := h2.quiet

theorem appendRecord_spec (dst : Dst) (c : Store) (d : Bool) (name k v : Bytes) (st : St)
    (ht : Tracked c st) (hq : Event.ctxDone ∉ st.trace) :
    Adv c st (appendRecord dst d name k v st).2 name
      (if (appendRecord dst d name k v st).1 = none then [(k, v)] else []) ∧
    ((appendRecord dst d name k v st).1 = none →
      Tracked c (appendRecord dst d name k v st).2) := by
  unfold appendRecord
  cases hf : dst.fault st.calls with
  | some e =>
    refine ⟨⟨fun n => ?_, fun n => ?_, ?_⟩, fun h => by simp at h⟩
    · simp [St.call, uptoLastCommit_append, Event.isCommit, ht.1 n]
    · cases d <;> simp [St.call, written_append, Event.written]
    · simp [St.call, hq]
  | none =>
    have hw : ∀ n, written n (st.trace ++ [Event.dst
        (if d = true then Call.appendDup name k v else Call.append name k v) none])
        = written n st.trace ++ if n = name then [(k, v)] else [] := by
      intro n
      by_cases hn : name = n
      · cases d <;> simp [written_append, Event.written, hn]
      · have hn2 : ¬ n = name := fun e => hn e.symm
        cases d <;> simp [written_append, Event.written, hn, hn2]
    have hu : uptoLastCommit (st.trace ++ [Event.dst
        (if d = true then Call.appendDup name k v else Call.append name k v) none])
        = uptoLastCommit st.trace := by
      cases d <;> simp [uptoLastCommit_append, Event.isCommit]
    have hd : ∀ n, st.durable n = c n ++ written n (uptoLastCommit (st.trace ++ [Event.dst
        (if d = true then Call.appendDup name k v else Call.append name k v) none])) := by
      intro n; rw [hu]; exact ht.1 n
    refine ⟨⟨hd, fun n => by simpa [St.call] using hw n, by simp [St.call, hq]⟩, fun _ => ⟨hd, ?_⟩⟩
    intro n
    simp only [St.call, Store.append]
    rw [hw n, ht.2 n]
    by_cases hn : n = name <;> simp [hn]

theorem commit_spec (dst : Dst) (c : Store) (name : Bytes) (st : St)
    (ht : Tracked c st) (hq : Event.ctxDone ∉ st.trace) :
    Adv c st (commit dst st).2 name [] ∧
    ((commit dst st).1 = none → Tracked c (commit dst st).2 ∧
      ∀ n, (commit dst st).2.durable n = (commit dst st).2.pending n) := by
  unfold commit
  cases hf : dst.fault st.calls with
  | some e =>
    refine ⟨⟨fun n => ?_, fun n => ?_, ?_⟩, fun h => by simp at h⟩
    · simp [St.call, uptoLastCommit_append, Event.isCommit, ht.1 n]
    · simp [St.call, written_append, Event.written]
    · simp [St.call, hq]
  | none =>
    have hw : ∀ n, written n (st.trace ++ [Event.dst Call.commit none]) = written n st.trace := by
      intro n; simp [written_append, Event.written]
    have hd : ∀ n, st.pending n = c n ++ written n (uptoLastCommit
        (st.trace ++ [Event.dst Call.commit none])) := by
      intro n
      simp only [uptoLastCommit_append, Event.isCommit, if_true]
      rw [hw n]; exact ht.2 n
    refine ⟨⟨hd, fun n => by simpa [St.call] using hw n, by simp [St.call, hq]⟩,
      fun _ => ⟨⟨hd, fun n => ?_⟩, fun n => rfl⟩⟩
    simp only [St.call]
    rw [hw n]; exact ht.2 n

theorem beginRw_spec (dst : Dst) (c : Store) (name : Bytes) (st : St)
    (ht : Tracked c st) (hq : Event.ctxDone ∉ st.trace)
    (he : ∀ n, st.durable n = st.pending n) :
    Adv c st (beginRw dst st).2 name [] ∧
    ((beginRw dst st).1 = none → Tracked c (beginRw dst st).2) := by
  unfold beginRw
  have hw : ∀ (n : Bytes) (x : Option Error),
      written n (st.trace ++ [Event.dst Call.beginRw x]) = written n st.trace := by
    intro n x; simp [written_append, Event.written]
  have hu : ∀ x : Option Error, uptoLastCommit (st.trace ++ [Event.dst Call.beginRw x])
      = uptoLastCommit st.trace := by
    intro x; simp [uptoLastCommit_append, Event.isCommit]
  cases hf : dst.fault st.calls with
  | some e =>
    refine ⟨⟨fun n => ?_, fun n => ?_, ?_⟩, fun h => by simp at h⟩
    · simp only [St.call]; rw [hu]; exact ht.1 n
    · simp only [St.call]; rw [hw]; simp
    · simp [St.call, hq]
  | none =>
    refine ⟨⟨fun n => ?_, fun n => ?_, ?_⟩, fun _ => ⟨fun n => ?_, fun n => ?_⟩⟩
    · simp only [St.call]; rw [hu]; exact ht.1 n
    · simp only [St.call]; rw [hw]; simp
    · simp [St.call, hq]
    · simp only [St.call]; rw [hu]; exact ht.1 n
    · simp only [St.call]; rw [hw, he n]; exact ht.2 n

theorem rwCursor_spec (dst : Dst) (c : Store) (name bucket : Bytes) (st : St)
    (ht : Tracked c st) (hq : Event.ctxDone ∉ st.trace) :
    Adv c st (rwCursor dst bucket st).2 name [] ∧ Tracked c (rwCursor dst bucket st).2 := by
  unfold rwCursor
  have hw : ∀ n, written n (st.trace ++ [Event.dst (Call.rwCursor bucket) (dst.fault st.calls)])
      = written n st.trace := by
    intro n; simp [written_append, Event.written]
  have hu : uptoLastCommit (st.trace ++ [Event.dst (Call.rwCursor bucket) (dst.fault st.calls)])
      = uptoLastCommit st.trace := by
    simp [uptoLastCommit_append, Event.isCommit]
  refine ⟨⟨fun n => ?_, fun n => ?_, ?_⟩, fun n => ?_, fun n => ?_⟩
  · simp only [St.call]; rw [hu]; exact ht.1 n
  · simp only [St.call]; rw [hw]; simp
  · simp [St.call, hq]
  · simp only [St.call]; rw [hu]; exact ht.1 n
  · simp only [St.call]; rw [hw]; exact ht.2 n

/-- Logging an event that is neither a call on the destination nor a
cancellation, or bumping the `select` counter, changes nothing. -/
theorem log_spec (c : Store) (name : Bytes) (st : St) (e : Event) (k : Nat)
    (ht : Tracked c st) (hq : Event.ctxDone ∉ st.trace)
    (he : ∀ n, Event.written n e = none) (hc : e.isCommit = false) (hd : e ≠ .ctxDone) :
    Adv c st ({ st with selects := k }.log e) name [] ∧
    Tracked c ({ st with selects := k }.log e) ∧
    (∀ n, ({ st with selects := k }.log e).durable n = st.durable n) ∧
    (∀ n, ({ st with selects := k }.log e).pending n = st.pending n) := by
  have hw : ∀ n, written n (st.trace ++ [e]) = written n st.trace := by
    intro n; simp [written_append, he n]
  have hu : uptoLastCommit (st.trace ++ [e]) = uptoLastCommit st.trace := by
    simp [uptoLastCommit_append, hc]
  refine ⟨⟨fun n => ?_, fun n => ?_, ?_⟩, ⟨fun n => ?_, fun n => ?_⟩, fun _ => rfl, fun _ => rfl⟩
  · simp only [St.log]; rw [hu]; exact ht.1 n
  · simp only [St.log]; rw [hw]; simp
  · simp only [St.log, List.mem_append, List.mem_singleton, not_or]
    exact ⟨hq, fun h => hd h.symm⟩
  · simp only [St.log]; rw [hu]; exact ht.1 n
  · simp only [St.log]; rw [hw]; exact ht.2 n

theorem FlowOk.exit_of_adv {sig : Signals} {c : Store} {name : Bytes} {recs ws : List Record}
    {st st1 : St} (ret : Exit) (h : Adv c st st1 name ws) (hp : ws <+: recs) :
    FlowOk sig c name recs st (.exit ret st1) :=
  ⟨h.durable, ⟨ws, hp, h.wrote⟩, fun hc => absurd hc h.quiet⟩

theorem FlowOk.of_adv {sig : Signals} {c : Store} {name : Bytes} {recs : List Record}
    {st st2 : St} {f : Flow} (r : Record) (h : Adv c st st2 name [r])
    (hf : FlowOk sig c name recs st2 f) : FlowOk sig c name (r :: recs) st f :=
  FlowOk.cons r h.wrote hf

theorem copyLoop_flowOk (sig : Signals) (dst : Dst) (c : Store) (name : Bytes)
    (script : Cursor) :
    ∀ (d : Bool) (st : St), Tracked c st → Event.ctxDone ∉ st.trace →
      FlowOk sig c name (yielded script) st (copyLoop sig dst name d script st) := by
  induction script with
  | nil =>
    intro d st ht hc
    exact ⟨ht, hc, fun n => by simp [yielded]⟩
  | cons s rest ih =>
    intro d st ht hc
    cases hk : s.k with
    | none =>
      simp only [copyLoop, hk, yielded]
      exact ⟨ht, hc, fun n => by simp⟩
    | some k =>
      cases he : s.err with
      | some e =>
        simp only [copyLoop, hk, he, yielded]
        exact ⟨ht.1, ⟨[], List.nil_prefix, fun n => by simp⟩, fun h => absurd h hc⟩
      | none =>
        simp only [copyLoop, hk, he, yielded]
        obtain ⟨ha, hta⟩ := appendRecord_spec dst c d name k s.v st ht hc
        rcases hap : appendRecord dst d name k s.v st with ⟨err, st1⟩
        rw [hap] at ha hta
        cases err with
        | some e =>
          simp only [] at ha ⊢
          exact ⟨ha.durable, ⟨[], List.nil_prefix, fun n => by simpa using ha.wrote n⟩,
            fun h => absurd h ha.quiet⟩
        | none =>
          simp only [if_true] at ha hta ⊢
          have ht1 := hta trivial
          have hp : [(k, s.v)] <+: (k, s.v) :: yielded rest :=
            (List.prefix_cons_inj (k, s.v)).mpr List.nil_prefix
          cases hsel : sig.sel st1.selects with
          | done =>
            simp only []
            refine ⟨fun n => ?_, ⟨[(k, s.v)], hp, fun n => ?_⟩, fun _ => ⟨rfl, by simp [St.log]⟩⟩
            · simp only [St.log, uptoLastCommit_append, Event.isCommit]
              exact ha.durable n
            · simp only [St.log, written_append, Event.written]
              simpa using ha.wrote n
          | idle =>
            simp only []
            exact FlowOk.of_adv (k, s.v) ⟨ha.durable, ha.wrote, ha.quiet⟩
              (ih d { st1 with selects := st1.selects + 1 } ⟨ht1.1, ht1.2⟩ ha.quiet)
          | tick =>
            simp only []
            obtain ⟨hl, htl, _, _⟩ := log_spec c name st1 (.progress name k) (st1.selects + 1)
              ht1 ha.quiet (fun _ => rfl) rfl (by simp)
            obtain ⟨hc1, htc⟩ := commit_spec dst c name _ htl hl.quiet
            rcases hcm : commit dst ({ st1 with selects := st1.selects + 1 }.log
              (.progress name k)) with ⟨err2, st2⟩
            rw [hcm] at hc1 htc
            try rw [hcm]
            have a2 : Adv c st st2 name [(k, s.v)] := by
              simpa using (ha.trans hl).trans hc1
            cases err2 with
            | some e => exact FlowOk.exit_of_adv _ a2 hp
            | none =>
              dsimp only
              obtain ⟨ht2, heq⟩ := htc rfl
              obtain ⟨hb1, htb⟩ := beginRw_spec dst c name st2 ht2 a2.quiet heq
              rcases hbg : beginRw dst st2 with ⟨err3, st3⟩
              rw [hbg] at hb1 htb
              try rw [hbg]
              have a3 : Adv c st st3 name [(k, s.v)] := by simpa using a2.trans hb1
              cases err3 with
              | some e => exact FlowOk.exit_of_adv _ a3 hp
              | none =>
                dsimp only
                have ht3 := htb rfl
                obtain ⟨hr1, htr⟩ := rwCursor_spec dst c name name st3 ht3 a3.quiet
                rcases hrc : rwCursor dst name st3 with ⟨err4, st4⟩
                rw [hrc] at hr1 htr
                try rw [hrc]
                have a4 : Adv c st st4 name [(k, s.v)] := by simpa using a3.trans hr1
                cases err4 with
                | some e => exact FlowOk.exit_of_adv _ a4 hp
                | none => exact FlowOk.of_adv (k, s.v) a4 (ih _ st4 htr a4.quiet)

theorem BucketsOk.exit_of_quiet {sig : Signals} {c : Store} {recs : Bytes → List Record}
    {st st1 : St} {name : Bytes} (ret : Exit) (h : Adv c st st1 name []) :
    BucketsOk sig c recs st (.exit ret st1) :=
  ⟨h.durable, fun n => ⟨[], List.nil_prefix, by simpa using h.wrote n⟩,
    fun hc => absurd hc h.quiet⟩

theorem copyBuckets_ok_all (sig : Signals) (src : Src) (dst : Dst) (c : Store)
    (bs : List (Bytes × BucketConfigItem)) :
    ∀ st : St, Tracked c st → Event.ctxDone ∉ st.trace →
      BucketsOk sig c (readFrom src bs) st (copyBuckets sig src dst bs st) := by
  induction bs with
  | nil =>
    intro st ht hq
    exact ⟨ht, hq, fun n => by simp [readFrom]⟩
  | cons e bs ih =>
    intro st ht hq
    obtain ⟨name, b⟩ := e
    by_cases hd : b.IsDeprecated = true
    · have h := ih st ht hq
      have e1 : copyBuckets sig src dst ((name, b) :: bs) st = copyBuckets sig src dst bs st := by
        simp [copyBuckets, hd]
      have e2 : readFrom src ((name, b) :: bs) = readFrom src bs := by
        funext n; simp [readFrom, hd]
      rw [e1, e2]; exact h
    · have hd : b.IsDeprecated = false := by simpa using hd
      simp only [copyBuckets, hd]
      obtain ⟨hr1, htr⟩ := rwCursor_spec dst c name name st ht hq
      rcases hrc : rwCursor dst name st with ⟨err, st1⟩
      rw [hrc] at hr1 htr
      try rw [hrc]
      cases err with
      | some e => exact BucketsOk.exit_of_quiet _ hr1
      | none =>
        dsimp only
        obtain ⟨hl, htl, _, _⟩ := log_spec c name st1 (.srcCursor name) st1.selects
          htr hr1.quiet (fun _ => rfl) rfl (by simp)
        have a2 : Adv c st (st1.log (.srcCursor name)) name [] := by simpa using hr1.trans hl
        cases hcur : src.cursor name with
        | error e => exact BucketsOk.exit_of_quiet _ a2
        | ok srcC =>
          dsimp only
          have hfl := copyLoop_flowOk sig dst c name srcC (dst.dupsort name)
            (st1.log (.srcCursor name)) htl a2.quiet
          have hrd : ∀ n, readFrom src ((name, b) :: bs) n
              = (if n = name then yielded srcC else []) ++ readFrom src bs n := by
            intro n; simp [readFrom, hd, hcur, yieldedBy]
          cases hloop : copyLoop sig dst name (dst.dupsort name) srcC
              (st1.log (.srcCursor name)) with
          | exit ret st2 =>
            rw [hloop] at hfl
            obtain ⟨h1, ⟨p, hp, h3⟩, h4⟩ := hfl
            refine ⟨h1, fun n => ?_, h4⟩
            refine ⟨if n = name then p else [], ?_, ?_⟩
            · rw [hrd n]
              by_cases hn : n = name
              · simp only [hn, if_true]
                exact hp.trans (List.prefix_append _ _)
              · simp [hn]
            · rw [h3 n, a2.wrote n]; simp
          | next st2 =>
            rw [hloop] at hfl
            obtain ⟨h1, h2, h3⟩ := hfl
            have hih := ih st2 h1 h2
            have hw : ∀ n, written n st2.trace
                = written n st.trace ++ if n = name then yielded srcC else [] := by
              intro n; rw [h3 n, a2.wrote n]; simp
            dsimp only
            cases hrest : copyBuckets sig src dst bs st2 with
            | next st3 =>
              rw [hrest] at hih
              obtain ⟨g1, g2, g3⟩ := hih
              refine ⟨g1, g2, fun n => ?_⟩
              rw [g3 n, hw n, hrd n, List.append_assoc]
            | exit ret st3 =>
              rw [hrest] at hih
              obtain ⟨g1, g2, g3⟩ := hih
              refine ⟨g1, fun n => ?_, g3⟩
              obtain ⟨p, hp, hpw⟩ := g2 n
              refine ⟨(if n = name then yielded srcC else []) ++ p, ?_, ?_⟩
              · rw [hrd n]
                exact (List.prefix_append_right_inj _).mpr hp
              · rw [hpw, hw n, List.append_assoc]

theorem Tracked.init (c : Store) (k l : Nat) : Tracked c ⟨c, c, k, l, [.srcBeginRo]⟩ :=
  ⟨fun n => by simp [uptoLastCommit, Event.isCommit, written],
   fun n => by simp [written, Event.written]⟩

/-- Invariants of every run of `kv2kv`: the durable contents of the destination
are its initial contents followed by the records written up to the last
successful commit; the records written to a table are a prefix of those read
from the source for it; and a cancellation received is the last event of the run
and makes it return `ctx.Err()`. -/
theorem kv2kv_safe (sig : Signals) (src : Src) (dst : Dst) :
    (∀ n, (kv2kv sig src dst).durable n
      = dst.contents n ++ written n (uptoLastCommit (kv2kv sig src dst).trace)) ∧
    (∀ n, written n (kv2kv sig src dst).trace <+: readFrom src src.allBuckets n) ∧
    (Event.ctxDone ∈ (kv2kv sig src dst).trace →
      (kv2kv sig src dst).ret = .err sig.err ∧
      (kv2kv sig src dst).trace.getLast? = some .ctxDone) := by
  have ht0 := Tracked.init dst.contents 0 0
  have hq0 : Event.ctxDone ∉ [Event.srcBeginRo] := by simp
  have hw0 : ∀ n, written n [Event.srcBeginRo] = [] := fun n => rfl
  unfold kv2kv
  cases hb : src.beginRo with
  | some e =>
    dsimp only [finish]
    exact ⟨ht0.1, fun n => by rw [hw0]; exact List.nil_prefix, fun h => absurd h hq0⟩
  | none =>
    dsimp only
    obtain ⟨hb1, htb⟩ := beginRw_spec dst dst.contents [] _ ht0 hq0 (fun _ => rfl)
    rcases hbg : beginRw dst ⟨dst.contents, dst.contents, 0, 0, [.srcBeginRo]⟩ with ⟨err, st1⟩
    rw [hbg] at hb1 htb
    try rw [hbg]
    cases err with
    | some e =>
      dsimp only [finish]
      refine ⟨hb1.durable, fun n => ?_, fun h => absurd h hb1.quiet⟩
      have := hb1.wrote n
      simp only [hw0, ite_self, List.append_nil] at this
      rw [this]; exact List.nil_prefix
    | none =>
      dsimp only
      have ht1 := htb rfl
      have hw1 : ∀ n, written n st1.trace = [] := by
        intro n
        have := hb1.wrote n
        simpa [hw0] using this
      have hbk := copyBuckets_ok_all sig src dst dst.contents src.allBuckets st1 ht1 hb1.quiet
      cases hcb : copyBuckets sig src dst src.allBuckets st1 with
      | exit ret st2 =>
        rw [hcb] at hbk
        obtain ⟨g1, g2, g3⟩ := hbk
        dsimp only [finish]
        refine ⟨g1, fun n => ?_, g3⟩
        obtain ⟨p, hp, hpw⟩ := g2 n
        rw [hpw, hw1 n]; simpa using hp
      | next st2 =>
        rw [hcb] at hbk
        obtain ⟨g1, g2, g3⟩ := hbk
        have hw2 : ∀ n, written n st2.trace = readFrom src src.allBuckets n := by
          intro n; rw [g3 n, hw1 n]; simp
        dsimp only [commitAndReturn]
        obtain ⟨c1, tc1⟩ := commit_spec dst dst.contents [] st2 g1 g2
        rcases hc1 : commit dst st2 with ⟨err1, st3⟩
        rw [hc1] at c1 tc1
        try rw [hc1]
        have w3 : ∀ n, written n st3.trace <+: readFrom src src.allBuckets n := by
          intro n; have := c1.wrote n
          simp only [ite_self, List.append_nil] at this
          rw [this, hw2 n]
        cases err1 with
        | some e => exact ⟨c1.durable, w3, fun h => absurd h c1.quiet⟩
        | none =>
          dsimp only
          obtain ⟨t3, e3⟩ := tc1 rfl
          obtain ⟨c2, tc2⟩ := beginRw_spec dst dst.contents [] st3 t3 c1.quiet e3
          rcases hc2 : beginRw dst st3 with ⟨err2, st4⟩
          rw [hc2] at c2 tc2
          try rw [hc2]
          have w4 : ∀ n, written n st4.trace <+: readFrom src src.allBuckets n := by
            intro n; have := c2.wrote n
            simp only [ite_self, List.append_nil] at this
            rw [this]; exact w3 n
          cases err2 with
          | some e => exact ⟨c2.durable, w4, fun h => absurd h c2.quiet⟩
          | none =>
            dsimp only
            have t4 := tc2 rfl
            obtain ⟨c3, _⟩ := commit_spec dst dst.contents [] st4 t4 c2.quiet
            rcases hc3 : commit dst st4 with ⟨err3, st5⟩
            rw [hc3] at c3
            try rw [hc3]
            have w5 : ∀ n, written n st5.trace <+: readFrom src src.allBuckets n := by
              intro n; have := c3.wrote n
              simp only [ite_self, List.append_nil] at this
              rw [this]; exact w4 n
            cases err3 with
            | some e => exact ⟨c3.durable, w5, fun h => absurd h c3.quiet⟩
            | none => exact ⟨c3.durable, w5, fun h => absurd h c3.quiet⟩

theorem readFrom_eq_nil (src : Src) (bs : List (Bytes × BucketConfigItem)) (n : Bytes)
    (h : n ∉ bs.map Prod.fst) : readFrom src bs n = [] := by
  induction bs with
  | nil => rfl
  | cons e bs ih =>
    obtain ⟨name, b⟩ := e
    simp only [List.map_cons, List.mem_cons, not_or] at h
    simp [readFrom, h.1, ih h.2]

theorem readFrom_le_yielded (src : Src) (bs : List (Bytes × BucketConfigItem)) (n : Bytes)
    (hn : (bs.map Prod.fst).Nodup) : readFrom src bs n <+: yieldedBy (src.cursor n) := by
  induction bs with
  | nil => exact List.nil_prefix
  | cons e bs ih =>
    obtain ⟨name, b⟩ := e
    simp only [List.map_cons, List.nodup_cons] at hn
    by_cases h : b.IsDeprecated = false ∧ n = name
    · have hz : readFrom src bs n = [] := readFrom_eq_nil src bs n (by rw [h.2]; exact hn.1)
      simp [readFrom, h.1, h.2, hz] 
      rw [← h.2, hz]; simp
    · simp only [readFrom, h, if_false, List.nil_append]
      exact ih hn.2

/-! ## Claims about `kv2kv` -/

/-- C6: for every source store, every order in which its tables are enumerated
and every schedule of timer ticks, when the destination starts empty, no storage
call fails and cancellation is never received, `kv2kv` returns `nil` and every
table of the source that is not deprecated durably holds, in the destination,
exactly the records of the source table in the same order; hence `compareBuckets`
of the source table against the destination table prints no divergence line. -/
theorem kv2kv_fills_empty_destination (sig : Signals) (src : Src) (dst : Dst)
    (tables : Bytes → List Record)
    (hb : src.beginRo = none)
    (hc : ∀ name, src.cursor name = .ok (tableCursor (tables name)))
    (hn : (src.allBuckets.map Prod.fst).Nodup)
    (he : ∀ n, dst.contents n = [])
    (hf : ∀ n, dst.fault n = none) (hs : ∀ n, sig.sel n ≠ .done) :
    (kv2kv sig src dst).ret = .nil ∧
    ∀ name b, (name, b) ∈ src.allBuckets → b.IsDeprecated = false →
      (kv2kv sig src dst).durable name = tables name ∧
      ∀ (ctx : Context) (tx refTx : Tx), (∀ n, ctx.done n = false) →
        tx name = src.cursor name →
        refTx name = .ok (tableCursor ((kv2kv sig src dst).durable name)) →
        divergences (compareBuckets ctx tx name refTx name).out = [] ∧
        (compareBuckets ctx tx name refTx name).ret = .nil := by
  obtain ⟨hr, hd⟩ := kv2kv_ok sig src dst tables hb hf hs hc
  refine ⟨hr, fun name b hm hdep => ?_⟩
  have hdur : (kv2kv sig src dst).durable name = tables name := by
    rw [hd name, he name, copied_of_mem tables src.allBuckets hn name b hm hdep]
    rfl
  refine ⟨hdur, fun ctx tx refTx hctx htx href => ?_⟩
  rw [hdur] at href
  rw [hc name] at htx
  obtain ⟨h1, h2⟩ := compareBuckets_table ctx hctx tx refTx name name _ _ htx href
  exact ⟨by rw [h2, mergeReports_self], h1⟩

theorem kv2kv_fills_empty_destination_witness :
    (kv2kv ⟨fun n => if n = 0 then .tick else .idle, .canceled⟩
      ⟨none, [(str "U", ⟨true⟩), (str "T", ⟨false⟩)], tableTx [([1], [0xAA]), ([2], [0xBB])]⟩
      ⟨Store.empty, fun _ => false, fun _ => none⟩).ret = .nil ∧
    (kv2kv ⟨fun n => if n = 0 then .tick else .idle, .canceled⟩
      ⟨none, [(str "U", ⟨true⟩), (str "T", ⟨false⟩)], tableTx [([1], [0xAA]), ([2], [0xBB])]⟩
      ⟨Store.empty, fun _ => false, fun _ => none⟩).durable (str "T")
      = [([1], [0xAA]), ([2], [0xBB])] :=
  have h := kv2kv_fills_empty_destination
    ⟨fun n => if n = 0 then .tick else .idle, .canceled⟩
    ⟨none, [(str "U", ⟨true⟩), (str "T", ⟨false⟩)], tableTx [([1], [0xAA]), ([2], [0xBB])]⟩
    ⟨Store.empty, fun _ => false, fun _ => none⟩
    (fun _ => [([1], [0xAA]), ([2], [0xBB])]) rfl (fun _ => rfl) (by decide) (fun _ => rfl)
    (fun _ => rfl) (fun n => by by_cases h : n = 0 <;> simp [h])
  ⟨h.1, (h.2 (str "T") ⟨false⟩ (by decide) rfl).1⟩

/-- C7 (the code at the failing input): a source cursor whose `First` fails
with a `nil` key, or whose `Next` fails with a `nil` key after one record, ends
the loop over the table as if the table had ended; `kv2kv` commits and returns
`nil`, not the error. -/
theorem kv2kv_drops_error_with_nil_key :
    (kv2kv ⟨fun _ => .idle, .canceled⟩
      ⟨none, [(str "T", ⟨false⟩)], fun _ => .ok [⟨none, [], some (.storage 1)⟩]⟩
      ⟨Store.empty, fun _ => false, fun _ => none⟩).ret = .nil ∧
    (kv2kv ⟨fun _ => .idle, .canceled⟩
      ⟨none, [(str "T", ⟨false⟩)],
        fun _ => .ok [⟨some [1], [0xAA], none⟩, ⟨none, [], some (.storage 1)⟩,
          ⟨some [2], [0xBB], none⟩]⟩
      ⟨Store.empty, fun _ => false, fun _ => none⟩).ret = .nil := by
  decide

/-- C8: whenever `kv2kv` receives the cancellation at a record boundary (the
tables of the source having distinct names), it returns `ctx.Err()`; the receive
is the last event of the run, so the open transaction is never committed; the
durable contents of every table are the initial contents followed by the
records written up to the last successful commit, which are a prefix of the
records written so far, themselves a prefix of the records the source cursor of
that table yields. -/
theorem kv2kv_cancelled (sig : Signals) (src : Src) (dst : Dst)
    (hn : (src.allBuckets.map Prod.fst).Nodup)
    (h : Event.ctxDone ∈ (kv2kv sig src dst).trace) :
    (kv2kv sig src dst).ret = .err sig.err ∧
    (kv2kv sig src dst).trace.getLast? = some .ctxDone ∧
    ∀ n, (kv2kv sig src dst).durable n
        = dst.contents n ++ written n (uptoLastCommit (kv2kv sig src dst).trace) ∧
      written n (uptoLastCommit (kv2kv sig src dst).trace)
        <+: written n (kv2kv sig src dst).trace ∧
      written n (kv2kv sig src dst).trace <+: yieldedBy (src.cursor n) := by
  obtain ⟨h1, h2, h3⟩ := kv2kv_safe sig src dst
  exact ⟨(h3 h).1, (h3 h).2, fun n => ⟨h1 n, written_committed_le n _,
    (h2 n).trans (readFrom_le_yielded src src.allBuckets n hn)⟩⟩

theorem kv2kv_cancelled_witness :
    Event.ctxDone ∈ (kv2kv ⟨fun n => if n = 0 then .tick else .done, .canceled⟩
      ⟨none, [(str "T", ⟨false⟩)], tableTx [([1], [0xAA]), ([2], [0xBB])]⟩
      ⟨Store.empty, fun _ => false, fun _ => none⟩).trace ∧
    (kv2kv ⟨fun n => if n = 0 then .tick else .done, .canceled⟩
      ⟨none, [(str "T", ⟨false⟩)], tableTx [([1], [0xAA]), ([2], [0xBB])]⟩
      ⟨Store.empty, fun _ => false, fun _ => none⟩).ret = .err .canceled ∧
    (kv2kv ⟨fun n => if n = 0 then .tick else .done, .canceled⟩
      ⟨none, [(str "T", ⟨false⟩)], tableTx [([1], [0xAA]), ([2], [0xBB])]⟩
      ⟨Store.empty, fun _ => false, fun _ => none⟩).durable (str "T") = [([1], [0xAA])] :=
  ⟨by decide,
   (kv2kv_cancelled ⟨fun n => if n = 0 then .tick else .done, .canceled⟩
      ⟨none, [(str "T", ⟨false⟩)], tableTx [([1], [0xAA]), ([2], [0xBB])]⟩
      ⟨Store.empty, fun _ => false, fun _ => none⟩ (by decide) (by decide)).1,
   by decide⟩

/-! ## `fToMdbx` on streams of well-formed sections -/

theorem headerLoop_header (hs : List Bytes) (rest : List Bytes)
    (hw : ∀ l ∈ hs, l ≠ endHeader ∧ 2 ≤ (split 61 l).length) :
    ∀ bucket, headerLoop (hs ++ endHeader :: rest) bucket
      = .endHeader (headerBucket hs bucket) rest := by
  induction hs with
  | nil => intro bucket; simp [headerLoop, headerBucket, bytesEqual]
  | cons l hs ih =>
    intro bucket
    obtain ⟨h1, h2⟩ := hw l (List.mem_cons_self _ _)
    have ih := ih (fun x hx => hw x (List.mem_cons_of_mem _ hx))
    simp only [List.cons_append, headerLoop, headerBucket, bytesEqual, h1, decide_False]
    rcases hsp : split 61 l with _ | ⟨k, _ | ⟨v, t⟩⟩
    · rw [hsp] at h2; simp at h2
    · rw [hsp] at h2; simp at h2
    · simp [ih]

/-- Without failure and without cancellation the data loop appends the decoded
pairs of a well-formed data block and goes on with the lines after it. -/
theorem dataLoop_pairs (sig : Signals) (fromHex : Bytes → Bytes) (dst : Dst) (bucket : Bytes)
    (d : Bool) (hf : ∀ n, dst.fault n = none) (hs : ∀ n, sig.sel n ≠ .done)
    (ps : List (Bytes × Bytes)) (tail : List Bytes)
    (hw : ∀ p ∈ ps, p.1 ≠ endData ∧ p.1 ≠ [] ∧ p.2 ≠ []) :
    ∀ st : St, ∃ st1, dataLoop sig fromHex dst bucket d (pairLines ps ++ tail) st
        = dataLoop sig fromHex dst bucket d tail st1 ∧
      st1.durable = st.durable ∧
      ∀ n, st1.pending n = st.pending n ++ if n = bucket then decodePairs fromHex ps else [] := by
  induction ps with
  | nil => intro st; exact ⟨st, rfl, rfl, fun n => by simp [decodePairs]⟩
  | cons p ps ih =>
    intro st
    obtain ⟨h1, h2, h3⟩ := hw p (List.mem_cons_self _ _)
    have ih := ih (fun x hx => hw x (List.mem_cons_of_mem _ hx))
    obtain ⟨kl, vl⟩ := p
    cases kl with
    | nil => exact absurd rfl h2
    | cons kt kHex =>
      cases vl with
      | nil => exact absurd rfl h3
      | cons vt vHex =>
        have hsel := hs st.selects
        simp only [pairLines, List.cons_append, dataLoop, bytesEqual, h1, decide_False,
          appendRecord, hf, St.call, St.log]
        cases hc : sig.sel st.selects with
        | done => exact absurd hc hsel
        | idle =>
          obtain ⟨st1, e1, e2, e3⟩ := ih
            { durable := st.durable, pending := st.pending.append bucket (fromHex kHex)
                (fromHex vHex), calls := st.calls + 1, selects := st.selects + 1,
              trace := st.trace ++ [.dst (if d = true then .appendDup bucket (fromHex kHex)
                (fromHex vHex) else .append bucket (fromHex kHex) (fromHex vHex)) none] }
          refine ⟨st1, e1, e2, fun n => ?_⟩
          rw [e3 n]
          by_cases hn : n = bucket <;> simp [Store.append, hn, decodePairs]
        | tick =>
          obtain ⟨st1, e1, e2, e3⟩ := ih
            { durable := st.durable, pending := st.pending.append bucket (fromHex kHex)
                (fromHex vHex), calls := st.calls + 1, selects := st.selects + 1,
              trace := st.trace ++ [.dst (if d = true then .appendDup bucket (fromHex kHex)
                (fromHex vHex) else .append bucket (fromHex kHex) (fromHex vHex)) none]
                ++ [.progress bucket (fromHex kHex)] }
          refine ⟨st1, e1, e2, fun n => ?_⟩
          rw [e3 n]
          by_cases hn : n = bucket <;> simp [Store.append, hn, decodePairs]

theorem commitAndReturn_ok (dst : Dst) (hf : ∀ n, dst.fault n = none) (st : St) :
    (commitAndReturn dst st).ret = .nil ∧ (commitAndReturn dst st).durable = st.pending := by
  unfold commitAndReturn
  simp [commit, beginRw, hf, St.call, finish]

/-- One pass of `MainLoop` over a well-formed section, up to the end of its
pairs: the cursor is opened and the data loop goes on with the lines `tail` that
follow the pairs. -/
theorem mainLoop_openLines (sig : Signals) (fromHex : Bytes → Bytes) (dst : Dst)
    (hf : ∀ n, dst.fault n = none) (hs : ∀ n, sig.sel n ≠ .done)
    (s : TableSection) (hw : s.WellFormed) (tail : List Bytes) (fuel : Nat) (st : St) :
    ∃ st1, mainLoop sig fromHex dst none (fuel + 1) (s.openLines ++ tail) st
        = (match dataLoop sig fromHex dst s.bucket (dst.dupsort s.bucket) tail st1 with
          | .exit ret st => finish ret st
          | .breakMain st => commitAndReturn dst st
          | .endData rest st => mainLoop sig fromHex dst none fuel rest st) ∧
      st1.durable = st.durable ∧
      ∀ n, st1.pending n
        = st.pending n ++ if n = s.bucket then decodePairs fromHex s.pairs else [] := by
  obtain ⟨h1, h2, h3⟩ := hw
  obtain ⟨st1, e1, e2, e3⟩ := dataLoop_pairs sig fromHex dst s.bucket (dst.dupsort s.bucket)
    hf hs s.pairs tail h3 (st.call (.rwCursor s.bucket) none)
  refine ⟨st1, ?_, e2, e3⟩
  have hh : headerLoop (s.openLines ++ tail) []
      = .endHeader s.bucket (pairLines s.pairs ++ tail) := by
    have := headerLoop_header s.header (pairLines s.pairs ++ tail) h1 []
    simpa [TableSection.openLines, TableSection.bucket] using this
  simp only [mainLoop, hh, loadTable, h2, if_false, rwCursor, hf, e1]

theorem dataLoop_endData (sig : Signals) (fromHex : Bytes → Bytes) (dst : Dst) (bucket : Bytes)
    (d : Bool) (rest : List Bytes) (st : St) :
    dataLoop sig fromHex dst bucket d (endData :: rest) st = .endData rest st := by
  unfold dataLoop
  simp [bytesEqual]

theorem dataLoop_key_only (sig : Signals) (fromHex : Bytes → Bytes) (dst : Dst) (bucket : Bytes)
    (d : Bool) (key : Bytes) (h1 : key ≠ endData) (h2 : key ≠ []) (st : St) :
    dataLoop sig fromHex dst bucket d [key] st = .breakMain st := by
  cases key with
  | nil => exact absurd rfl h2
  | cons t kHex =>
    unfold dataLoop
    simp [bytesEqual, h1]

theorem streamLines_length (ss : List TableSection) : ss.length ≤ (streamLines ss).length := by
  induction ss with
  | nil => simp
  | cons s ss ih =>
    simp only [streamLines, TableSection.lines, List.length_append, List.length_cons]
    omega

/-- The passes of `MainLoop` over a sequence of closed well-formed sections. -/
theorem mainLoop_stream (sig : Signals) (fromHex : Bytes → Bytes) (dst : Dst)
    (hf : ∀ n, dst.fault n = none) (hs : ∀ n, sig.sel n ≠ .done)
    (ss : List TableSection) (rest : List Bytes) (fuel : Nat) :
    (∀ s ∈ ss, s.WellFormed) →
    ∀ st : St, ∃ st1, mainLoop sig fromHex dst none (ss.length + fuel) (streamLines ss ++ rest) st
        = mainLoop sig fromHex dst none fuel rest st1 ∧
      st1.durable = st.durable ∧
      ∀ n, st1.pending n = st.pending n ++ loaded fromHex ss n := by
  induction ss with
  | nil => intro _ st; exact ⟨st, by simp [streamLines], rfl, fun n => by simp [loaded]⟩
  | cons s ss ih =>
    intro hw st
    obtain ⟨st1, e1, e2, e3⟩ := mainLoop_openLines sig fromHex dst hf hs s
      (hw s (List.mem_cons_self _ _)) (endData :: (streamLines ss ++ rest)) (ss.length + fuel) st
    obtain ⟨st2, g1, g2, g3⟩ := ih (fun x hx => hw x (List.mem_cons_of_mem _ hx)) st1
    refine ⟨st2, ?_, by rw [g2, e2], fun n => ?_⟩
    · have hl : streamLines (s :: ss) ++ rest
          = s.openLines ++ endData :: (streamLines ss ++ rest) := by
        simp [streamLines, TableSection.lines, TableSection.openLines]
      have hfu : (s :: ss).length + fuel = ss.length + fuel + 1 := by
        simp only [List.length_cons]; omega
      rw [hl, hfu, e1, dataLoop_endData]
      exact g1
    · rw [g3 n, e3 n, loaded, List.append_assoc]

theorem loaded_append (fromHex : Bytes → Bytes) (ss : List TableSection) (s : TableSection)
    (n : Bytes) :
    loaded fromHex (ss ++ [s]) n
      = loaded fromHex ss n ++ if n = s.bucket then decodePairs fromHex s.pairs else [] := by
  induction ss with
  | nil => simp [loaded]
  | cons x xs ih => simp [loaded, ih]

/-- What `fToMdbx` does with a stream of closed well-formed sections followed by
the lines `rest`: it runs `MainLoop` on `rest` with the records of the sections
appended in the open transaction and nothing committed yet. -/
theorem fToMdbx_stream (sig : Signals) (fromHex : Bytes → Bytes) (dst : Dst)
    (hf : ∀ n, dst.fault n = none) (hs : ∀ n, sig.sel n ≠ .done)
    (ss : List TableSection) (hw : ∀ s ∈ ss, s.WellFormed) (rest : List Bytes) :
    ∃ st1 fuel, fToMdbx sig fromHex ⟨none, streamLines ss ++ rest, none⟩ dst
        = mainLoop sig fromHex dst none (fuel + 1) rest st1 ∧
      st1.durable = dst.contents ∧
      ∀ n, st1.pending n = dst.contents n ++ loaded fromHex ss n := by
  have hlen := streamLines_length ss
  obtain ⟨st1, e1, e2, e3⟩ := mainLoop_stream sig fromHex dst hf hs ss rest
    ((streamLines ss ++ rest).length - ss.length + 1) hw
    ((⟨dst.contents, dst.contents, 0, 0, []⟩ : St).call .beginRw none)
  refine ⟨st1, (streamLines ss ++ rest).length - ss.length, ?_, e2, e3⟩
  have hfu : (streamLines ss ++ rest).length + 1
      = ss.length + ((streamLines ss ++ rest).length - ss.length + 1) := by
    simp only [List.length_append]; omega
  simp only [fToMdbx, beginRw, hf]
  rw [hfu]
  exact e1

/-- On a stream of closed well-formed sections followed by end-of-input (no
storage failure, no cancellation) `fToMdbx` panics with `bucket not parse` and
the destination keeps its contents. -/
theorem fToMdbx_closed_stream (sig : Signals) (fromHex : Bytes → Bytes) (dst : Dst)
    (hf : ∀ n, dst.fault n = none) (hs : ∀ n, sig.sel n ≠ .done)
    (ss : List TableSection) (hw : ∀ s ∈ ss, s.WellFormed) :
    (fToMdbx sig fromHex ⟨none, streamLines ss, none⟩ dst).ret = .panic .bucketNotParse ∧
    (fToMdbx sig fromHex ⟨none, streamLines ss, none⟩ dst).durable = dst.contents := by
  obtain ⟨st1, fuel, e1, e2, _⟩ := fToMdbx_stream sig fromHex dst hf hs ss hw []
  rw [List.append_nil] at e1
  rw [e1]
  simp [mainLoop, headerLoop, loadTable, finish, e2]

/-! ## Claims about `fToMdbx` -/

/-- C9 (the code at the failing input): on the stream `VERSION=3`,
`database=T`, `type=btree`, `HEADER=END`, ` 01`, ` aa`, ` 02`, ` bb`, `DATA=END`,
end-of-input, `fToMdbx` does not stop at end-of-input: the next pass of
`MainLoop` finds no table name and panics with `bucket not parse`, and table `T`
of the destination stays empty. -/
theorem fToMdbx_closed_section_panics :
    (fToMdbx ⟨fun _ => .idle, .canceled⟩ hexDecode
      ⟨none, [str "VERSION=3", str "database=T", str "type=btree", str "HEADER=END",
        str " 01", str " aa", str " 02", str " bb", str "DATA=END"], none⟩
      ⟨Store.empty, fun _ => false, fun _ => none⟩).ret = .panic .bucketNotParse ∧
    (fToMdbx ⟨fun _ => .idle, .canceled⟩ hexDecode
      ⟨none, [str "VERSION=3", str "database=T", str "type=btree", str "HEADER=END",
        str " 01", str " aa", str " 02", str " bb", str "DATA=END"], none⟩
      ⟨Store.empty, fun _ => false, fun _ => none⟩).durable (str "T") = [] := by
  decide

/-! ## The shape of traces -/

theorem Extends.rfl_of (Q : Event → Prop) (st : St) : Extends Q st st :=
  ⟨[], by simp, by simp⟩

theorem Extends.chain {Q : Event → Prop} {st st1 st2 : St}
    (h1 : Extends Q st st1) (h2 : Extends Q st1 st2) : Extends Q st st2 := by
  obtain ⟨n1, e1, q1⟩ := h1
  obtain ⟨n2, e2, q2⟩ := h2
  refine ⟨n1 ++ n2, by rw [e2, e1, List.append_assoc], fun e he => ?_⟩
  rcases List.mem_append.mp he with h | h
  · exact q1 e h
  · exact q2 e h

theorem Extends.one {Q : Event → Prop} {st st1 : St} (e : Event)
    (h : st1.trace = st.trace ++ [e]) (hq : Q e) : Extends Q st st1 :=
  ⟨[e], h, fun x hx => by rw [List.mem_singleton.mp hx]; exact hq⟩

theorem Extends.weaken {Q R : Event → Prop} {st st1 : St} (h : Extends Q st st1)
    (hqr : ∀ e, Q e → R e) : Extends R st st1 := by
  obtain ⟨n, e, q⟩ := h
  exact ⟨n, e, fun x hx => hqr x (q x hx)⟩

theorem Extends.all {Q : Event → Prop} {st st1 : St} (h : Extends Q st st1)
    (h0 : ∀ e ∈ st.trace, Q e) : ∀ e ∈ st1.trace, Q e := by
  obtain ⟨n, e, q⟩ := h
  intro x hx
  rw [e] at hx
  rcases List.mem_append.mp hx with h | h
  · exact h0 x h
  · exact q x h

theorem beginRw_trace (dst : Dst) (st : St) :
    (beginRw dst st).2.trace = st.trace ++ [.dst .beginRw (dst.fault st.calls)] := by
  unfold beginRw
  cases dst.fault st.calls <;> rfl

theorem rwCursor_trace (dst : Dst) (name : Bytes) (st : St) :
    (rwCursor dst name st).2.trace
      = st.trace ++ [.dst (.rwCursor name) (dst.fault st.calls)] := rfl

theorem commit_trace (dst : Dst) (st : St) :
    (commit dst st).2.trace = st.trace ++ [.dst .commit (dst.fault st.calls)] := by
  unfold commit
  cases dst.fault st.calls <;> rfl

theorem appendRecord_trace (dst : Dst) (d : Bool) (name k v : Bytes) (st : St) :
    (appendRecord dst d name k v st).2.trace
      = st.trace ++ [.dst (if d then .appendDup name k v else .append name k v)
          (dst.fault st.calls)] := by
  unfold appendRecord
  cases dst.fault st.calls <;> rfl

theorem ofRecord_appendRecord (dst : Dst) (name k v : Bytes) (i : Nat) :
    Event.ofRecord dst name (.dst (if dst.dupsort name then .appendDup name k v
      else .append name k v) (dst.fault i)) := by
  cases h : dst.dupsort name <;> simp [Event.ofRecord, h]

/-- The record loop of `kv2kv` only adds events of table `name`, with append
calls of the kind the cursor calls for. -/
theorem copyLoop_extends (sig : Signals) (dst : Dst) (name : Bytes) (script : Cursor) :
    ∀ st : St, Extends (Event.ofTable dst name) st
      (copyLoop sig dst name (dst.dupsort name) script st).state := by
  induction script with
  | nil => intro st; exact Extends.rfl_of _ st
  | cons s rest ih =>
    intro st
    cases hk : s.k with
    | none => simp only [copyLoop, hk, Flow.state]; exact Extends.rfl_of _ st
    | some k =>
      cases he : s.err with
      | some e => simp only [copyLoop, hk, he, Flow.state]; exact Extends.rfl_of _ st
      | none =>
        simp only [copyLoop, hk, he]
        have ha : Extends (Event.ofTable dst name) st
            (appendRecord dst (dst.dupsort name) name k s.v st).2 :=
          Extends.one _ (appendRecord_trace dst _ name k s.v st)
            (Or.inl (ofRecord_appendRecord dst name k s.v st.calls))
        rcases hap : appendRecord dst (dst.dupsort name) name k s.v st with ⟨err, st1⟩
        rw [hap] at ha
        cases err with
        | some e => exact ha
        | none =>
          dsimp only
          cases hsel : sig.sel st1.selects with
          | done =>
            exact ha.chain (Extends.one .ctxDone rfl (Or.inl trivial))
          | idle =>
            exact ha.chain (ih { st1 with selects := st1.selects + 1 })
          | tick =>
            dsimp only
            have hl : Extends (Event.ofTable dst name) st
                ({ st1 with selects := st1.selects + 1 }.log (.progress name k)) :=
              ha.chain (Extends.one (.progress name k) rfl (Or.inl rfl))
            have hc := hl.chain (Extends.one _ (commit_trace dst _)
              (Or.inr (Or.inr (Or.inr (Or.inl ⟨_, rfl⟩)))))
            rcases hcm : commit dst ({ st1 with selects := st1.selects + 1 }.log
              (.progress name k)) with ⟨err2, st2⟩
            rw [hcm] at hc
            try rw [hcm]
            cases err2 with
            | some e => exact hc
            | none =>
              dsimp only
              have hb := hc.chain (Extends.one _ (beginRw_trace dst st2)
                (Or.inr (Or.inr (Or.inr (Or.inr ⟨_, rfl⟩)))))
              rcases hbg : beginRw dst st2 with ⟨err3, st3⟩
              rw [hbg] at hb
              try rw [hbg]
              cases err3 with
              | some e => exact hb
              | none =>
                dsimp only
                have hr := hb.chain (Extends.one _ (rwCursor_trace dst name st3)
                  (Or.inr (Or.inr (Or.inl ⟨_, rfl⟩))))
                rcases hrc : rwCursor dst name st3 with ⟨err4, st4⟩
                rw [hrc] at hr
                try rw [hrc]
                cases err4 with
                | some e => exact hr
                | none => exact hr.chain (ih st4)

/-- The loop of `kv2kv` over the tables `bs` of the source only adds events of
tables of `bs` that are not deprecated. -/
theorem copyBuckets_extends (sig : Signals) (src : Src) (dst : Dst)
    (bs : List (Bytes × BucketConfigItem)) (hb : ∀ x ∈ bs, x ∈ src.allBuckets) :
    ∀ st : St, Extends (Event.ofKv2kv src dst) st (copyBuckets sig src dst bs st).state := by
  induction bs with
  | nil => intro st; exact Extends.rfl_of _ st
  | cons x bs ih =>
    intro st
    obtain ⟨name, b⟩ := x
    have ih := ih (fun y hy => hb y (List.mem_cons_of_mem _ hy))
    by_cases hd : b.IsDeprecated = true
    · simp only [copyBuckets, hd, if_true]; exact ih st
    · have hd : b.IsDeprecated = false := by simpa using hd
      have hin : ∀ e, Event.ofTable dst name e → Event.ofKv2kv src dst e :=
        fun e he => Or.inr (Or.inr ⟨name, b, hb _ (List.mem_cons_self _ _), hd, he⟩)
      simp only [copyBuckets, hd]
      have hr : Extends (Event.ofKv2kv src dst) st (rwCursor dst name st).2 :=
        Extends.one _ (rwCursor_trace dst name st) (hin _ (Or.inr (Or.inr (Or.inl ⟨_, rfl⟩))))
      rcases hrc : rwCursor dst name st with ⟨err, st1⟩
      rw [hrc] at hr
      cases err with
      | some e => exact hr
      | none =>
        dsimp only
        have hl : Extends (Event.ofKv2kv src dst) st (st1.log (.srcCursor name)) :=
          hr.chain (Extends.one (.srcCursor name) rfl (hin _ (Or.inr (Or.inl rfl))))
        cases hcur : src.cursor name with
        | error e => exact hl
        | ok srcC =>
          dsimp only
          have hloop := (copyLoop_extends sig dst name srcC (st1.log (.srcCursor name))).weaken hin
          cases hc : copyLoop sig dst name (dst.dupsort name) srcC
              (st1.log (.srcCursor name)) with
          | exit ret st2 =>
            rw [hc] at hloop
            exact hl.chain hloop
          | next st2 =>
            rw [hc] at hloop
            exact (hl.chain hloop).chain (ih st2)

/-- Every event of a run of `kv2kv` is the opening of the source transaction, a
call of `BeginRw` or `Commit`, or an event of a table of the source that is not
deprecated, its append calls being of the kind the table calls for. -/
theorem kv2kv_trace (sig : Signals) (src : Src) (dst : Dst) :
    ∀ e ∈ (kv2kv sig src dst).trace, Event.ofKv2kv src dst e := by
  have h0 : ∀ e ∈ ([Event.srcBeginRo] : List Event), Event.ofKv2kv src dst e := by
    intro e he; rw [List.mem_singleton.mp he]; exact Or.inl rfl
  have step : ∀ (st st1 : St) (e : Event), st1.trace = st.trace ++ [e] → Event.ofTx dst e →
      (∀ x ∈ st.trace, Event.ofKv2kv src dst x) → ∀ x ∈ st1.trace, Event.ofKv2kv src dst x :=
    fun st st1 e h hq h0 => (Extends.one (Q := Event.ofKv2kv src dst) e h (Or.inr (Or.inl hq))).all h0
  unfold kv2kv
  cases hb : src.beginRo with
  | some e => exact h0
  | none =>
    dsimp only
    have h1 := step _ _ _ (beginRw_trace dst ⟨dst.contents, dst.contents, 0, 0, [.srcBeginRo]⟩)
      (Or.inr ⟨_, rfl⟩) h0
    rcases hbg : beginRw dst ⟨dst.contents, dst.contents, 0, 0, [.srcBeginRo]⟩ with ⟨err, st1⟩
    rw [hbg] at h1
    cases err with
    | some e => exact h1
    | none =>
      dsimp only
      have h2 := (copyBuckets_extends sig src dst src.allBuckets (fun x hx => hx) st1).all h1
      cases hcb : copyBuckets sig src dst src.allBuckets st1 with
      | exit ret st2 => rw [hcb] at h2; exact h2
      | next st2 =>
        rw [hcb] at h2
        dsimp only [commitAndReturn, Flow.state] at h2 ⊢
        have h3 := step _ _ _ (commit_trace dst st2) (Or.inl ⟨_, rfl⟩) h2
        rcases hc1 : commit dst st2 with ⟨err1, st3⟩
        rw [hc1] at h3
        cases err1 with
        | some e => exact h3
        | none =>
          dsimp only
          have h4 := step _ _ _ (beginRw_trace dst st3) (Or.inr ⟨_, rfl⟩) h3
          rcases hc2 : beginRw dst st3 with ⟨err2, st4⟩
          rw [hc2] at h4
          cases err2 with
          | some e => exact h4
          | none =>
            dsimp only
            have h5 := step _ _ _ (commit_trace dst st4) (Or.inl ⟨_, rfl⟩) h4
            rcases hc3 : commit dst st4 with ⟨err3, st5⟩
            rw [hc3] at h5
            cases err3 <;> exact h5

theorem table_of_ofRecord {dst : Dst} {name : Bytes} {e : Event} (h : e.ofRecord dst name) :
    ∀ n, e.table = some n → n = name := by
  intro n hn
  cases e with
  | dst c x =>
    cases c with
    | append m k v => simp only [Event.table, Option.some.injEq] at hn; rw [← hn]; exact h.1
    | appendDup m k v => simp only [Event.table, Option.some.injEq] at hn; rw [← hn]; exact h.1
    | beginRw => simp [Event.table] at hn
    | rwCursor m => exact absurd h (by simp [Event.ofRecord])
    | commit => simp [Event.table] at hn
  | srcBeginRo => simp [Event.table] at hn
  | srcCursor m => exact absurd h (by simp [Event.ofRecord])
  | ctxDone => simp [Event.table] at hn
  | progress m k => simp only [Event.table, Option.some.injEq] at hn; rw [← hn]; exact h

theorem table_of_ofTx {dst : Dst} {e : Event} (h : e.ofTx dst) : e.table = none := by
  rcases h with ⟨i, h⟩ | ⟨i, h⟩ <;> rw [h] <;> rfl

theorem table_of_ofTable {dst : Dst} {name : Bytes} {e : Event} (h : e.ofTable dst name) :
    ∀ n, e.table = some n → n = name := by
  intro n hn
  rcases h with h | h | ⟨i, h⟩ | h
  · exact table_of_ofRecord h n hn
  · rw [h] at hn; simp only [Event.table, Option.some.injEq] at hn; exact hn.symm
  · rw [h] at hn; simp only [Event.table, Option.some.injEq] at hn; exact hn.symm
  · rw [table_of_ofTx h] at hn; simp at hn

theorem config_unique (bs : List (Bytes × BucketConfigItem)) (hn : (bs.map Prod.fst).Nodup)
    (name : Bytes) (b c : BucketConfigItem) (hb : (name, b) ∈ bs) (hc : (name, c) ∈ bs) :
    b = c := by
  induction bs with
  | nil => simp at hb
  | cons x bs ih =>
    simp only [List.map_cons, List.nodup_cons] at hn
    have hnot : ∀ d, (x.1, d) ∉ bs := fun d hd => hn.1 (List.mem_map.mpr ⟨(x.1, d), hd, rfl⟩)
    rcases List.mem_cons.mp hb with h1 | h1
    · rcases List.mem_cons.mp hc with h2 | h2
      · have h3 := h1.trans h2.symm
        exact (Prod.mk.inj h3).2
      · rw [← h1] at hnot; exact absurd h2 (hnot c)
    · rcases List.mem_cons.mp hc with h2 | h2
      · rw [← h2] at hnot; exact absurd h1 (hnot b)
      · exact ih hn.2 h1 h2

theorem written_eq_nil_of_table (n : Bytes) (tr : List Event)
    (h : ∀ e ∈ tr, e.table ≠ some n) : written n tr = [] := by
  induction tr with
  | nil => rfl
  | cons e es ih =>
    have he := h e (List.mem_cons_self _ _)
    have hes := ih (fun x hx => h x (List.mem_cons_of_mem _ hx))
    have hw : Event.written n e = none := by
      cases e with
      | dst c x =>
        cases c with
        | append m k v =>
          have hm : m ≠ n := fun e => he (by rw [e]; rfl)
          cases x <;> simp [Event.written, hm]
        | appendDup m k v =>
          have hm : m ≠ n := fun e => he (by rw [e]; rfl)
          cases x <;> simp [Event.written, hm]
        | beginRw => rfl
        | rwCursor m => rfl
        | commit => rfl
      | srcBeginRo => rfl
      | srcCursor m => rfl
      | ctxDone => rfl
      | progress m k => rfl
    simp only [written, List.filterMap_cons, hw] at hes ⊢
    exact hes

/-! ## More claims about `kv2kv` -/

/-- C14: `kv2kv` skips deprecated tables.  For every table of the source that
is flagged deprecated (table names being distinct), whatever the source table
holds and however the run goes, no event of the run is about that table: no
destination cursor and no source cursor is opened on it, no append call is
made on it; and the table of that name in the destination durably holds what
it held before. -/
theorem kv2kv_skips_deprecated (sig : Signals) (src : Src) (dst : Dst)
    (hn : (src.allBuckets.map Prod.fst).Nodup) (name : Bytes) (b : BucketConfigItem)
    (hm : (name, b) ∈ src.allBuckets) (hd : b.IsDeprecated = true) :
    (∀ e ∈ (kv2kv sig src dst).trace, e.table ≠ some name) ∧
    (kv2kv sig src dst).durable name = dst.contents name := by
  have hev : ∀ e ∈ (kv2kv sig src dst).trace, e.table ≠ some name := by
    intro e he ht
    rcases kv2kv_trace sig src dst e he with h | h | ⟨n1, b1, hm1, hd1, h⟩
    · rw [h] at ht; simp [Event.table] at ht
    · rw [table_of_ofTx h] at ht; simp at ht
    · have hne := table_of_ofTable h name ht
      rw [hne] at hm
      have := config_unique src.allBuckets hn n1 b b1 hm hm1
      rw [this, hd1] at hd
      simp at hd
  refine ⟨hev, ?_⟩
  have hw := written_eq_nil_of_table name _ hev
  have hp := written_committed_le name (kv2kv sig src dst).trace
  rw [hw] at hp
  rw [(kv2kv_safe sig src dst).1 name, List.prefix_nil.mp hp, List.append_nil]

theorem kv2kv_skips_deprecated_witness :
    (∀ e ∈ (kv2kv ⟨fun _ => .tick, .canceled⟩
      ⟨none, [(str "U", ⟨true⟩), (str "T", ⟨false⟩)], tableTx [([1], [0xAA]), ([2], [0xBB])]⟩
      ⟨Store.empty, fun _ => false, fun _ => none⟩).trace, e.table ≠ some (str "U")) ∧
    (kv2kv ⟨fun _ => .tick, .canceled⟩
      ⟨none, [(str "U", ⟨true⟩), (str "T", ⟨false⟩)], tableTx [([1], [0xAA]), ([2], [0xBB])]⟩
      ⟨Store.empty, fun _ => false, fun _ => none⟩).durable (str "U") = [] :=
  kv2kv_skips_deprecated ⟨fun _ => .tick, .canceled⟩
    ⟨none, [(str "U", ⟨true⟩), (str "T", ⟨false⟩)], tableTx [([1], [0xAA]), ([2], [0xBB])]⟩
    ⟨Store.empty, fun _ => false, fun _ => none⟩ (by decide) (str "U") ⟨true⟩ (by decide) rfl

/-! ## `fToMdbx` on every input: one transaction -/

theorem uptoLastCommit_of_no_call (tr : List Event) (h : ∀ e ∈ tr, e.isCommitCall = false) :
    uptoLastCommit tr = [] := by
  apply uptoLastCommit_of_none
  rw [List.any_eq_false]
  intro e he
  have := h e he
  cases e with
  | dst c x =>
    cases c with
    | commit => simp [Event.isCommitCall] at this
    | beginRw => simp [Event.isCommit]
    | rwCursor m => simp [Event.isCommit]
    | append m k v => simp [Event.isCommit]
    | appendDup m k v => simp [Event.isCommit]
  | srcBeginRo => simp [Event.isCommit]
  | srcCursor m => simp [Event.isCommit]
  | ctxDone => simp [Event.isCommit]
  | progress m k => simp [Event.isCommit]

theorem Loading.durable_eq {dst : Dst} {st : St} (h : Loading dst st) :
    ∀ n, st.durable n = dst.contents n := by
  intro n
  rw [h.1.1 n, uptoLastCommit_of_no_call _ h.2.2.1]
  simp [written]

/-- A state of the loading phase followed by one event that is neither a
`Commit` call nor a cancellation is in the loading phase. -/
theorem Loading.snoc {dst : Dst} {st st1 : St} (h : Loading dst st) (e : Event)
    (ht : st1.trace = st.trace ++ [e]) (htr : Tracked dst.contents st1)
    (h1 : e ≠ .ctxDone) (h2 : e.isCommitCall = false) (h3 : e.ofFToMdbx dst) :
    Loading dst st1 := by
  refine ⟨htr, ?_, ?_, ?_⟩
  · rw [ht]; simp only [List.mem_append, List.mem_singleton, not_or]
    exact ⟨h.2.1, fun he => h1 he.symm⟩
  · intro x hx; rw [ht] at hx
    rcases List.mem_append.mp hx with hx | hx
    · exact h.2.2.1 x hx
    · rw [List.mem_singleton.mp hx]; exact h2
  · intro x hx; rw [ht] at hx
    rcases List.mem_append.mp hx with hx | hx
    · exact h.2.2.2 x hx
    · rw [List.mem_singleton.mp hx]; exact h3

/-- Leaving the function from a state of the loading phase, possibly after one
more event that is not a `Commit` call: nothing is durable. -/
theorem Loading.unloaded {sig : Signals} {dst : Dst} {st st1 : St} (h : Loading dst st)
    (ret : Exit) (hr : ret ≠ .nil) (new : List Event)
    (ht : st1.trace = st.trace ++ new) (hd : ∀ n, st1.durable n = st.durable n)
    (h2 : ∀ e ∈ new, e.isCommitCall = false) (h3 : ∀ e ∈ new, e.ofFToMdbx dst)
    (h4 : Event.ctxDone ∈ new → ret = .err sig.err ∧ new.getLast? = some .ctxDone) :
    Unloaded sig dst (finish ret st1) := by
  refine ⟨fun n => by simp only [finish]; rw [hd n]; exact h.durable_eq n, ?_, ?_, hr, ?_⟩
  · intro x hx; simp only [finish] at hx; rw [ht] at hx
    rcases List.mem_append.mp hx with hx | hx
    · exact h.2.2.1 x hx
    · exact h2 x hx
  · intro x hx; simp only [finish] at hx; rw [ht] at hx
    rcases List.mem_append.mp hx with hx | hx
    · exact h.2.2.2 x hx
    · exact h3 x hx
  · intro hc; simp only [finish] at hc ⊢; rw [ht] at hc ⊢
    rcases List.mem_append.mp hc with hc | hc
    · exact absurd hc h.2.1
    · obtain ⟨e1, e2⟩ := h4 hc
      refine ⟨e1, ?_⟩
      cases new with
      | nil => simp at hc
      | cons a as => rw [List.getLast?_append_of_ne_nil _ (by simp)]; exact e2

theorem appendRecord_durable (dst : Dst) (d : Bool) (name k v : Bytes) (st : St) :
    (appendRecord dst d name k v st).2.durable = st.durable := by
  unfold appendRecord
  cases dst.fault st.calls <;> rfl

theorem appendEvent_not_commit (d : Bool) (name k v : Bytes) (x : Option Error) :
    (Event.dst (if d then Call.appendDup name k v else Call.append name k v) x).isCommitCall
      = false ∧
    Event.dst (if d then Call.appendDup name k v else Call.append name k v) x ≠ .ctxDone := by
  cases d <;> simp [Event.isCommitCall]

theorem Loading.selects {dst : Dst} {st : St} (h : Loading dst st) (k : Nat) :
    Loading dst { st with selects := k } := h

theorem dataLoop_loading (sig : Signals) (fromHex : Bytes → Bytes) (dst : Dst) (bucket : Bytes)
    (hb : bucket ≠ []) (lines : List Bytes) (st : St) :
    Loading dst st →
      DataOk sig dst (dataLoop sig fromHex dst bucket (dst.dupsort bucket) lines st) := by
  induction lines, st using dataLoop.induct sig fromHex dst bucket (dst.dupsort bucket) with
  | case1 st => intro h; simpa [dataLoop, DataOk] using h
  | case2 k rest st hk => intro h; rw [dataLoop.eq_def]; simpa [hk, DataOk] using h
  | case3 rest st hk =>
    intro h; rw [dataLoop.eq_def]; simp only [hk, DataOk]
    exact h.unloaded _ (by simp) [] (by simp) (fun _ => rfl) (by simp) (by simp) (by simp)
  | case4 st c cs hk => intro h; rw [dataLoop.eq_def]; simpa [hk, DataOk] using h
  | case5 st c cs ps hk =>
    intro h; rw [dataLoop.eq_def]; simp only [hk, DataOk]
    exact h.unloaded _ (by simp) [] (by simp) (fun _ => rfl) (by simp) (by simp) (by simp)
  | case6 st c cs ps c1 cs1 err st1 hap hk =>
    intro h; rw [dataLoop.eq_def]; simp only [hk, hap, DataOk]
    have ht := appendRecord_trace dst (dst.dupsort bucket) bucket (fromHex cs) (fromHex cs1) st
    have hd := appendRecord_durable dst (dst.dupsort bucket) bucket (fromHex cs) (fromHex cs1) st
    rw [hap] at ht hd
    refine h.unloaded _ (by simp) _ ht (fun n => by rw [hd]) ?_ ?_ ?_
    · intro e he; rw [List.mem_singleton.mp he]; exact (appendEvent_not_commit _ _ _ _ _).1
    · intro e he; rw [List.mem_singleton.mp he]
      exact Or.inr ⟨bucket, hb, Or.inl (ofRecord_appendRecord dst bucket _ _ _)⟩
    · intro he
      exact absurd (List.mem_singleton.mp he).symm (appendEvent_not_commit _ _ _ _ _).2
  | case7 st c cs ps c1 cs1 st1 hap st2 hsel hk ih =>
    intro h; rw [dataLoop.eq_def]; simp only [hk, hap, hsel]
    have ht := appendRecord_trace dst (dst.dupsort bucket) bucket (fromHex cs) (fromHex cs1) st
    have hs := appendRecord_spec dst dst.contents (dst.dupsort bucket) bucket (fromHex cs)
      (fromHex cs1) st h.1 h.2.1
    rw [hap] at ht hs
    have h1 : Loading dst st1 := h.snoc _ ht (hs.2 rfl) (appendEvent_not_commit _ _ _ _ _).2
      (appendEvent_not_commit _ _ _ _ _).1
      (Or.inr ⟨bucket, hb, Or.inl (ofRecord_appendRecord dst bucket _ _ _)⟩)
    exact ih (h1.selects _)
  | case8 st c cs ps c1 cs1 st1 hap hsel hk =>
    intro h; rw [dataLoop.eq_def]; simp only [hk, hap, hsel, DataOk]
    have ht := appendRecord_trace dst (dst.dupsort bucket) bucket (fromHex cs) (fromHex cs1) st
    have hs := appendRecord_spec dst dst.contents (dst.dupsort bucket) bucket (fromHex cs)
      (fromHex cs1) st h.1 h.2.1
    rw [hap] at ht hs
    have h1 : Loading dst st1 := h.snoc _ ht (hs.2 rfl) (appendEvent_not_commit _ _ _ _ _).2
      (appendEvent_not_commit _ _ _ _ _).1
      (Or.inr ⟨bucket, hb, Or.inl (ofRecord_appendRecord dst bucket _ _ _)⟩)
    refine h1.unloaded _ (by simp) [.ctxDone] rfl (fun _ => rfl) ?_ ?_ (fun _ => ⟨rfl, rfl⟩)
    · intro e he; rw [List.mem_singleton.mp he]; rfl
    · intro e he; rw [List.mem_singleton.mp he]
      exact Or.inr ⟨bucket, hb, Or.inl trivial⟩
  | case9 st c cs ps c1 cs1 st1 hap st2 hsel hk ih =>
    intro h; rw [dataLoop.eq_def]; simp only [hk, hap, hsel]
    have ht := appendRecord_trace dst (dst.dupsort bucket) bucket (fromHex cs) (fromHex cs1) st
    have hs := appendRecord_spec dst dst.contents (dst.dupsort bucket) bucket (fromHex cs)
      (fromHex cs1) st h.1 h.2.1
    rw [hap] at ht hs
    have h1 : Loading dst st1 := h.snoc _ ht (hs.2 rfl) (appendEvent_not_commit _ _ _ _ _).2
      (appendEvent_not_commit _ _ _ _ _).1
      (Or.inr ⟨bucket, hb, Or.inl (ofRecord_appendRecord dst bucket _ _ _)⟩)
    obtain ⟨_, htl, _, _⟩ := log_spec dst.contents bucket st1 (.progress bucket (fromHex cs))
      (st1.selects + 1) h1.1 h1.2.1 (fun _ => rfl) rfl (by simp)
    exact ih ((h1.selects _).snoc (.progress bucket (fromHex cs)) rfl htl (by simp) rfl
      (Or.inr ⟨bucket, hb, Or.inl rfl⟩))

theorem loadTable_loadEnd (sig : Signals) (fromHex : Bytes → Bytes) (dst : Dst)
    (next : List Bytes → St → CopyRun)
    (hnext : ∀ rest st, Loading dst st → LoadEnd sig dst (next rest st))
    (bucket : Bytes) (rest : List Bytes) (st : St) (h : Loading dst st) :
    LoadEnd sig dst (loadTable sig fromHex dst next bucket rest st) := by
  unfold loadTable
  by_cases hb : bucket = []
  · simp only [hb, if_true]
    exact Or.inl (h.unloaded _ (by simp) [] (by simp) (fun _ => rfl) (by simp) (by simp)
      (by simp))
  · simp only [hb, if_false]
    have ht := rwCursor_trace dst bucket st
    have hs := rwCursor_spec dst dst.contents bucket bucket st h.1 h.2.1
    have hev : Event.ofFToMdbx dst (.dst (.rwCursor bucket) (dst.fault st.calls)) :=
      Or.inr ⟨bucket, hb, Or.inr ⟨_, rfl⟩⟩
    rcases hrc : rwCursor dst bucket st with ⟨err, st1⟩
    rw [hrc] at ht hs
    cases err with
    | some e =>
      dsimp only
      refine Or.inl (h.unloaded _ (by simp) _ ht (fun n => ?_) ?_ ?_ ?_)
      · have : st1 = (rwCursor dst bucket st).2 := by rw [hrc]
        rw [this]; rfl
      · intro x hx; rw [List.mem_singleton.mp hx]; rfl
      · intro x hx; rw [List.mem_singleton.mp hx]; exact hev
      · intro hx; simp at hx
    | none =>
      dsimp only
      have h1 : Loading dst st1 := h.snoc _ ht hs.2 (by simp) rfl hev
      have hd := dataLoop_loading sig fromHex dst bucket hb rest st1 h1
      cases hdl : dataLoop sig fromHex dst bucket (dst.dupsort bucket) rest st1 with
      | exit ret st2 => rw [hdl] at hd; exact Or.inl hd
      | breakMain st2 => rw [hdl] at hd; exact Or.inr ⟨st2, hd, rfl⟩
      | endData rest2 st2 => rw [hdl] at hd; exact hnext rest2 st2 hd

/-- Every run of `MainLoop` started in the loading phase ends before the
`Commit` with nothing durable, or by the commit sequence. -/
theorem mainLoop_loadEnd (sig : Signals) (fromHex : Bytes → Bytes) (dst : Dst)
    (scanErr : Option Error) (fuel : Nat) :
    ∀ (lines : List Bytes) (st : St), Loading dst st →
      LoadEnd sig dst (mainLoop sig fromHex dst scanErr fuel lines st) := by
  induction fuel with
  | zero =>
    intro lines st h
    exact Or.inl (h.unloaded _ (by simp) [] (by simp) (fun _ => rfl) (by simp) (by simp)
      (by simp))
  | succ fuel ih =>
    intro lines st h
    have hu : ∀ ret : Exit, ret ≠ .nil → LoadEnd sig dst (finish ret st) := fun ret hr =>
      Or.inl (h.unloaded ret hr [] (by simp) (fun _ => rfl) (by simp) (by simp) (by simp))
    rw [mainLoop]
    cases hh : headerLoop lines [] with
    | panic p => exact hu _ (by simp)
    | eof bucket =>
      cases scanErr with
      | some e => exact hu _ (by simp)
      | none => exact loadTable_loadEnd sig fromHex dst _ ih bucket [] st h
    | endHeader bucket rest => exact loadTable_loadEnd sig fromHex dst _ ih bucket rest st h

/-- Every run of `fToMdbx` ends before its `Commit` with nothing durable, or by
the commit sequence started in the loading phase. -/
theorem fToMdbx_loadEnd (sig : Signals) (fromHex : Bytes → Bytes) (file : FileInput)
    (dst : Dst) : LoadEnd sig dst (fToMdbx sig fromHex file dst) := by
  have h0 : Loading dst ⟨dst.contents, dst.contents, 0, 0, []⟩ :=
    ⟨⟨fun n => by simp [uptoLastCommit, written], fun n => by simp [written]⟩,
      by simp, by simp, by simp⟩
  unfold fToMdbx
  cases ho : file.openErr with
  | some e =>
    exact Or.inl (h0.unloaded _ (by simp) [] (by simp) (fun _ => rfl) (by simp) (by simp)
      (by simp))
  | none =>
    dsimp only
    have ht := beginRw_trace dst ⟨dst.contents, dst.contents, 0, 0, []⟩
    have hs := beginRw_spec dst dst.contents [] ⟨dst.contents, dst.contents, 0, 0, []⟩ h0.1
      h0.2.1 (fun _ => rfl)
    have hev : Event.ofFToMdbx dst (.dst .beginRw (dst.fault 0)) := Or.inl (Or.inr ⟨0, rfl⟩)
    rcases hbg : beginRw dst ⟨dst.contents, dst.contents, 0, 0, []⟩ with ⟨err, st1⟩
    rw [hbg] at ht hs
    cases err with
    | some e =>
      dsimp only
      refine Or.inl (h0.unloaded _ (by simp) _ ht (fun n => ?_) ?_ ?_ ?_)
      · have := hs.1.durable n
        rw [this, uptoLastCommit_of_no_call]
        · simp [written]
        · intro x hx; rw [ht] at hx; simp at hx; rw [hx]; rfl
      · intro x hx; rw [List.mem_singleton.mp hx]; rfl
      · intro x hx; rw [List.mem_singleton.mp hx]; exact hev
      · intro hx; simp at hx
    | none =>
      dsimp only
      exact mainLoop_loadEnd sig fromHex dst file.scanErr _ file.lines st1
        (h0.snoc _ ht (hs.2 rfl) (by simp) rfl hev)

theorem written_append_tx (n : Bytes) (tr tail : List Event)
    (h : ∀ e ∈ tail, e.isTxCall = true) : written n (tr ++ tail) = written n tr := by
  have : written n tail = [] := by
    apply written_eq_nil_of_table
    intro e he ht
    have := h e he
    cases e with
    | dst c x => cases c <;> simp [Event.isTxCall, Event.table] at this ht
    | srcBeginRo => simp [Event.isTxCall] at this
    | srcCursor m => simp [Event.isTxCall] at this
    | ctxDone => simp [Event.isTxCall] at this
    | progress m k => simp [Event.isTxCall] at this
  simp only [written, List.filterMap_append] at this ⊢
  rw [this, List.append_nil]

/-- The facts about a run that ends by the commit sequence. -/
theorem commitAndReturn_loading (dst : Dst) (st : St) (h : Loading dst st) :
    ∃ tail, (commitAndReturn dst st).trace = st.trace ++ tail ∧
      (∀ e ∈ tail, e.isTxCall = true) ∧ tail.length ≤ 3 ∧
      (∀ e ∈ tail, e.ofFToMdbx dst) ∧
      (∀ p, (commitAndReturn dst st).ret = .panic p → p = .nilDereference) ∧
      (Event.dst .commit none ∉ tail → ∀ n, (commitAndReturn dst st).durable n = dst.contents n) ∧
      (Event.dst .commit none ∈ tail →
        ∀ n, (commitAndReturn dst st).durable n
          = dst.contents n ++ written n (commitAndReturn dst st).trace) := by
  have hp : ∀ (tail : List Event), (∀ e ∈ tail, e.isTxCall = true) →
      ∀ n, st.pending n = dst.contents n ++ written n (st.trace ++ tail) := by
    intro tail ht n
    rw [written_append_tx n _ _ ht]; exact h.1.2 n
  have hev : ∀ e : Event, e.ofFToMdbx dst → e.ofFToMdbx dst := fun _ h => h
  unfold commitAndReturn
  cases h1 : dst.fault st.calls with
  | some e =>
    refine ⟨[.dst .commit (some e)], by simp [commit, h1, finish, St.call], by simp [Event.isTxCall],
      by simp, ?_, by simp [commit, h1, finish], ?_, by simp⟩
    · intro x hx; rw [List.mem_singleton.mp hx]; exact Or.inl (Or.inl ⟨st.calls, by rw [h1]⟩)
    · intro _ n; simp only [commit, h1, finish, St.call]; exact h.durable_eq n
  | none =>
    have c1 : Event.ofFToMdbx dst (.dst .commit none) := Or.inl (Or.inl ⟨st.calls, by rw [h1]⟩)
    cases h2 : dst.fault (st.calls + 1) with
    | some e =>
      refine ⟨[.dst .commit none, .dst .beginRw (some e)],
        by simp [commit, beginRw, h1, h2, finish, St.call], by simp [Event.isTxCall], by simp,
        ?_, by simp [commit, beginRw, h1, h2, finish, St.call], by simp, ?_⟩
      · intro x hx
        simp only [List.mem_cons, List.mem_singleton, List.not_mem_nil, or_false] at hx
        rcases hx with hx | hx
        · rw [hx]; exact c1
        · rw [hx]; exact Or.inl (Or.inr ⟨st.calls + 1, by rw [h2]⟩)
      · intro _ n
        simp only [commit, beginRw, h1, h2, finish, St.call, List.append_assoc,
          List.singleton_append]
        exact hp _ (by simp [Event.isTxCall]) n
    | none =>
      have c2 : Event.ofFToMdbx dst (.dst .beginRw none) :=
        Or.inl (Or.inr ⟨st.calls + 1, by rw [h2]⟩)
      cases h3 : dst.fault (st.calls + 1 + 1) with
      | some e =>
        refine ⟨[.dst .commit none, .dst .beginRw none, .dst .commit (some e)],
          by simp [commit, beginRw, h1, h2, h3, finish, St.call], by simp [Event.isTxCall],
          by simp, ?_, by simp [commit, beginRw, h1, h2, h3, finish, St.call], by simp, ?_⟩
        · intro x hx
          simp only [List.mem_cons, List.mem_singleton, List.not_mem_nil, or_false] at hx
          rcases hx with hx | hx | hx
          · rw [hx]; exact c1
          · rw [hx]; exact c2
          · rw [hx]; exact Or.inl (Or.inl ⟨st.calls + 1 + 1, by rw [h3]⟩)
        · intro _ n
          simp only [commit, beginRw, h1, h2, h3, finish, St.call, List.append_assoc,
            List.singleton_append]
          exact hp _ (by simp [Event.isTxCall]) n
      | none =>
        refine ⟨[.dst .commit none, .dst .beginRw none, .dst .commit none],
          by simp [commit, beginRw, h1, h2, h3, finish, St.call], by simp [Event.isTxCall],
          by simp, ?_, by simp [commit, beginRw, h1, h2, h3, finish, St.call], by simp, ?_⟩
        · intro x hx
          simp only [List.mem_cons, List.mem_singleton, List.not_mem_nil, or_false] at hx
          rcases hx with hx | hx | hx
          · rw [hx]; exact c1
          · rw [hx]; exact c2
          · rw [hx]; exact Or.inl (Or.inl ⟨st.calls + 1 + 1, by rw [h3]⟩)
        · intro _ n
          simp only [commit, beginRw, h1, h2, h3, finish, St.call, List.append_assoc,
            List.singleton_append]
          exact hp _ (by simp [Event.isTxCall]) n

theorem appendCalls_append (n : Bytes) (tr tr2 : List Event) :
    appendCalls n (tr ++ tr2) = appendCalls n tr ++ appendCalls n tr2 := by
  simp [appendCalls, List.filterMap_append]

theorem cursorsOpened_append (tr tr2 : List Event) :
    cursorsOpened (tr ++ tr2) = cursorsOpened tr ++ cursorsOpened tr2 := by
  simp [cursorsOpened, List.filterMap_append]

theorem appendCalls_appendEvent (n name : Bytes) (d : Bool) (k v : Bytes) (x : Option Error) :
    appendCalls n [Event.dst (if d then Call.appendDup name k v else Call.append name k v) x]
      = if n = name then [(d, k, v)] else [] := by
  by_cases hn : name = n
  · cases d <;> simp [appendCalls, Event.appendCall, hn]
  · have hn2 : ¬ n = name := fun e => hn e.symm
    cases d <;> simp [appendCalls, Event.appendCall, hn, hn2]

theorem cursorsOpened_appendEvent (name : Bytes) (d : Bool) (k v : Bytes) (x : Option Error) :
    cursorsOpened [Event.dst (if d then Call.appendDup name k v else Call.append name k v) x]
      = [] := by
  cases d <;> rfl

/-- Without failure and without cancellation the data loop makes one append
call per pair of a well-formed data block, of the kind `d`, in order, and opens
no cursor. -/
theorem dataLoop_pairs_calls (sig : Signals) (fromHex : Bytes → Bytes) (dst : Dst)
    (bucket : Bytes) (d : Bool) (hf : ∀ n, dst.fault n = none) (hs : ∀ n, sig.sel n ≠ .done)
    (ps : List (Bytes × Bytes)) (tail : List Bytes)
    (hw : ∀ p ∈ ps, p.1 ≠ endData ∧ p.1 ≠ [] ∧ p.2 ≠ []) :
    ∀ st : St, ∃ st1, dataLoop sig fromHex dst bucket d (pairLines ps ++ tail) st
        = dataLoop sig fromHex dst bucket d tail st1 ∧
      st1.durable = st.durable ∧
      (∀ n, st1.pending n
        = st.pending n ++ if n = bucket then decodePairs fromHex ps else []) ∧
      cursorsOpened st1.trace = cursorsOpened st.trace ∧
      ∀ n, appendCalls n st1.trace = appendCalls n st.trace ++
        if n = bucket then (decodePairs fromHex ps).map (fun r => (d, r.1, r.2)) else [] := by
  induction ps with
  | nil => intro st; exact ⟨st, rfl, rfl, fun n => by simp [decodePairs], rfl,
      fun n => by simp [decodePairs]⟩
  | cons p ps ih =>
    intro st
    obtain ⟨h1, h2, h3⟩ := hw p (List.mem_cons_self _ _)
    have ih := ih (fun x hx => hw x (List.mem_cons_of_mem _ hx))
    obtain ⟨kl, vl⟩ := p
    cases kl with
    | nil => exact absurd rfl h2
    | cons kt kHex =>
      cases vl with
      | nil => exact absurd rfl h3
      | cons vt vHex =>
        have hsel := hs st.selects
        simp only [pairLines, List.cons_append, dataLoop, bytesEqual, h1, decide_False,
          appendRecord, hf, St.call, St.log]
        cases hc : sig.sel st.selects with
        | done => exact absurd hc hsel
        | idle =>
          obtain ⟨st1, e1, e2, e3, e4, e5⟩ := ih
            { durable := st.durable, pending := st.pending.append bucket (fromHex kHex)
                (fromHex vHex), calls := st.calls + 1, selects := st.selects + 1,
              trace := st.trace ++ [.dst (if d = true then .appendDup bucket (fromHex kHex)
                (fromHex vHex) else .append bucket (fromHex kHex) (fromHex vHex)) none] }
          refine ⟨st1, e1, e2, fun n => ?_, ?_, fun n => ?_⟩
          · rw [e3 n]
            by_cases hn : n = bucket <;> simp [Store.append, hn, decodePairs]
          · rw [e4, cursorsOpened_append, cursorsOpened_appendEvent, List.append_nil]
          · rw [e5 n, appendCalls_append, appendCalls_appendEvent]
            by_cases hn : n = bucket <;> simp [hn, decodePairs]
        | tick =>
          obtain ⟨st1, e1, e2, e3, e4, e5⟩ := ih
            { durable := st.durable, pending := st.pending.append bucket (fromHex kHex)
                (fromHex vHex), calls := st.calls + 1, selects := st.selects + 1,
              trace := st.trace ++ [.dst (if d = true then .appendDup bucket (fromHex kHex)
                (fromHex vHex) else .append bucket (fromHex kHex) (fromHex vHex)) none]
                ++ [.progress bucket (fromHex kHex)] }
          refine ⟨st1, e1, e2, fun n => ?_, ?_, fun n => ?_⟩
          · rw [e3 n]
            by_cases hn : n = bucket <;> simp [Store.append, hn, decodePairs]
          · rw [e4, cursorsOpened_append, cursorsOpened_append, cursorsOpened_appendEvent]
            simp [cursorsOpened]
          · rw [e5 n, appendCalls_append, appendCalls_append, appendCalls_appendEvent]
            by_cases hn : n = bucket <;> simp [hn, decodePairs, appendCalls, Event.appendCall]

/-- One pass of `MainLoop` over a well-formed section up to the end of its
pairs, with the calls it makes. -/
theorem mainLoop_openLines_calls (sig : Signals) (fromHex : Bytes → Bytes) (dst : Dst)
    (scanErr : Option Error) (hf : ∀ n, dst.fault n = none) (hs : ∀ n, sig.sel n ≠ .done)
    (s : TableSection) (hw : s.WellFormed) (tail : List Bytes) (fuel : Nat) (st : St) :
    ∃ st1, mainLoop sig fromHex dst scanErr (fuel + 1) (s.openLines ++ tail) st
        = (match dataLoop sig fromHex dst s.bucket (dst.dupsort s.bucket) tail st1 with
          | .exit ret st => finish ret st
          | .breakMain st => commitAndReturn dst st
          | .endData rest st => mainLoop sig fromHex dst scanErr fuel rest st) ∧
      AfterSections fromHex dst [s] st st1 := by
  obtain ⟨h1, h2, h3⟩ := hw
  obtain ⟨st1, e1, e2, e3, e4, e5⟩ := dataLoop_pairs_calls sig fromHex dst s.bucket
    (dst.dupsort s.bucket) hf hs s.pairs tail h3 (st.call (.rwCursor s.bucket) none)
  refine ⟨st1, ?_, e2, fun n => ?_, ?_, fun n => ?_⟩
  · have hh : headerLoop (s.openLines ++ tail) []
        = .endHeader s.bucket (pairLines s.pairs ++ tail) := by
      have := headerLoop_header s.header (pairLines s.pairs ++ tail) h1 []
      simpa [TableSection.openLines, TableSection.bucket] using this
    simp only [mainLoop, hh, loadTable, h2, if_false, rwCursor, hf, e1]
  · rw [e3 n]; simp [St.call, loaded]
  · rw [e4]; simp [St.call, cursorsOpened, List.filterMap_append]
  · rw [e5 n]
    by_cases hn : n = s.bucket <;>
      simp [St.call, appendCalls, Event.appendCall, List.filterMap_append, loaded, hn]

theorem AfterSections.step {fromHex : Bytes → Bytes} {dst : Dst} {s : TableSection}
    {ss : List TableSection} {st st1 st2 : St} (h1 : AfterSections fromHex dst [s] st st1)
    (h2 : AfterSections fromHex dst ss st1 st2) : AfterSections fromHex dst (s :: ss) st st2 := by
  obtain ⟨a1, a2, a3, a4⟩ := h1
  obtain ⟨b1, b2, b3, b4⟩ := h2
  refine ⟨by rw [b1, a1], fun n => ?_, ?_, fun n => ?_⟩
  · rw [b2 n, a2 n]; simp [loaded]
  · rw [b3, a3]; simp
  · rw [b4 n, a4 n]; simp [loaded]

/-- The passes of `MainLoop` over a sequence of closed well-formed sections,
with the calls they make. -/
theorem mainLoop_stream_calls (sig : Signals) (fromHex : Bytes → Bytes) (dst : Dst)
    (scanErr : Option Error) (hf : ∀ n, dst.fault n = none) (hs : ∀ n, sig.sel n ≠ .done)
    (ss : List TableSection) (rest : List Bytes) (fuel : Nat) :
    (∀ s ∈ ss, s.WellFormed) →
    ∀ st : St, ∃ st1,
      mainLoop sig fromHex dst scanErr (ss.length + fuel) (streamLines ss ++ rest) st
        = mainLoop sig fromHex dst scanErr fuel rest st1 ∧
      AfterSections fromHex dst ss st st1 := by
  induction ss with
  | nil =>
    intro _ st
    exact ⟨st, by simp [streamLines], rfl, fun n => by simp [loaded], by simp,
      fun n => by simp [loaded]⟩
  | cons s ss ih =>
    intro hw st
    obtain ⟨st1, e1, a1⟩ := mainLoop_openLines_calls sig fromHex dst scanErr hf hs s
      (hw s (List.mem_cons_self _ _)) (endData :: (streamLines ss ++ rest)) (ss.length + fuel) st
    obtain ⟨st2, g1, a2⟩ := ih (fun x hx => hw x (List.mem_cons_of_mem _ hx)) st1
    refine ⟨st2, ?_, a1.step a2⟩
    have hl : streamLines (s :: ss) ++ rest
        = s.openLines ++ endData :: (streamLines ss ++ rest) := by
      simp [streamLines, TableSection.lines, TableSection.openLines]
    have hfu : (s :: ss).length + fuel = ss.length + fuel + 1 := by
      simp only [List.length_cons]; omega
    rw [hl, hfu, e1, dataLoop_endData]
    exact g1

/-- What `fToMdbx` does with a stream of closed well-formed sections followed by
the lines `rest`, with the calls it makes: after the first `BeginRw` it runs
`MainLoop` on `rest` in the state reached after the sections. -/
theorem fToMdbx_stream_calls (sig : Signals) (fromHex : Bytes → Bytes) (dst : Dst)
    (scanErr : Option Error) (hf : ∀ n, dst.fault n = none) (hs : ∀ n, sig.sel n ≠ .done)
    (ss : List TableSection) (hw : ∀ s ∈ ss, s.WellFormed) (rest : List Bytes) :
    ∃ st1 fuel, fToMdbx sig fromHex ⟨none, streamLines ss ++ rest, scanErr⟩ dst
        = mainLoop sig fromHex dst scanErr (fuel + 1) rest st1 ∧
      AfterSections fromHex dst ss ⟨dst.contents, dst.contents, 1, 0, [.dst .beginRw none]⟩ st1 := by
  have hlen := streamLines_length ss
  obtain ⟨st1, e1, a1⟩ := mainLoop_stream_calls sig fromHex dst scanErr hf hs ss rest
    ((streamLines ss ++ rest).length - ss.length + 1) hw
    ((⟨dst.contents, dst.contents, 0, 0, []⟩ : St).call .beginRw none)
  refine ⟨st1, (streamLines ss ++ rest).length - ss.length, ?_, a1⟩
  have hfu : (streamLines ss ++ rest).length + 1
      = ss.length + ((streamLines ss ++ rest).length - ss.length + 1) := by
    simp only [List.length_append]; omega
  simp only [fToMdbx, beginRw, hf]
  rw [hfu]
  exact e1

theorem headerBucket_of_noTableName (hs : List Bytes) (h : NoTableName hs) :
    headerBucket hs [] = [] := by
  induction hs with
  | nil => rfl
  | cons l hs ih =>
    have ih := ih (fun x hx => h x (List.mem_cons_of_mem _ hx))
    have hl := h l (List.mem_cons_self _ _)
    simp only [headerBucket]
    rcases hsp : split 61 l with _ | ⟨k, _ | ⟨v, t⟩⟩
    · exact ih
    · exact ih
    · dsimp only
      simp only [setsTableName, hsp, Bool.and_eq_false_iff, decide_eq_false_iff_not,
        not_not] at hl
      by_cases hk : k = database
      · rcases hl with hl | hl
        · exact absurd hk hl
        · rw [if_pos hk, hl]; exact ih
      · rw [if_neg hk]; exact ih

theorem loadEnd_of_panic {sig : Signals} {dst : Dst} {run : CopyRun} (h : LoadEnd sig dst run)
    (p : Panic) (hp : run.ret = .panic p) (hn : p ≠ .nilDereference) : Unloaded sig dst run := by
  rcases h with h | ⟨st, hl, hrun⟩
  · exact h
  · obtain ⟨_, _, _, _, _, e5, _, _⟩ := commitAndReturn_loading dst st hl
    rw [hrun] at hp
    exact absurd (e5 p hp) hn

/-- C11: for every export stream in which, after any number of closed
well-formed sections, a header block reaches its line `HEADER=END` (every
header line is a `name=value` line) without a `database=` line that gives a
non-empty table name, when the sections before it are loaded without failure
and without cancellation, `fToMdbx` panics with `bucket not parse`: it does not
return, the only cursors opened are those of the sections before (none for this
section), `Commit` is never called and the destination durably holds what it
held. -/
theorem fToMdbx_header_without_table (sig : Signals) (fromHex : Bytes → Bytes) (dst : Dst)
    (scanErr : Option Error) (ss : List TableSection) (header rest : List Bytes)
    (hw : ∀ s ∈ ss, s.WellFormed)
    (hh : ∀ l ∈ header, l ≠ endHeader ∧ 2 ≤ (split 61 l).length)
    (hn : NoTableName header)
    (hf : ∀ n, dst.fault n = none) (hs : ∀ n, sig.sel n ≠ .done) :
    (fToMdbx sig fromHex
      ⟨none, streamLines ss ++ (header ++ endHeader :: rest), scanErr⟩ dst).ret
      = .panic .bucketNotParse ∧
    cursorsOpened (fToMdbx sig fromHex
      ⟨none, streamLines ss ++ (header ++ endHeader :: rest), scanErr⟩ dst).trace
      = ss.map TableSection.bucket ∧
    (∀ e ∈ (fToMdbx sig fromHex
      ⟨none, streamLines ss ++ (header ++ endHeader :: rest), scanErr⟩ dst).trace,
      e.isCommitCall = false) ∧
    ∀ n, (fToMdbx sig fromHex
      ⟨none, streamLines ss ++ (header ++ endHeader :: rest), scanErr⟩ dst).durable n
      = dst.contents n := by
  have hle := fToMdbx_loadEnd sig fromHex
    ⟨none, streamLines ss ++ (header ++ endHeader :: rest), scanErr⟩ dst
  obtain ⟨st1, fuel, e1, a1⟩ := fToMdbx_stream_calls sig fromHex dst scanErr hf hs ss hw
    (header ++ endHeader :: rest)
  have e2 : mainLoop sig fromHex dst scanErr (fuel + 1) (header ++ endHeader :: rest) st1
      = finish (.panic .bucketNotParse) st1 := by
    have hb := headerLoop_header header rest hh []
    rw [headerBucket_of_noTableName header hn] at hb
    simp [mainLoop, hb, loadTable]
  rw [e1, e2] at hle ⊢
  obtain ⟨u1, u2, _, _, _⟩ := loadEnd_of_panic hle .bucketNotParse rfl (by decide)
  refine ⟨rfl, ?_, u2, u1⟩
  simp only [finish]
  rw [a1.2.2.1]
  simp [cursorsOpened]

theorem fToMdbx_header_without_table_witness :
    (⟨[str "database=T"], [(str " 01", str " aa")]⟩ : TableSection).WellFormed ∧
    NoTableName [str "VERSION=3", str "type=btree"] ∧
    (fToMdbx ⟨fun _ => .idle, .canceled⟩ hexDecode
      ⟨none, streamLines [⟨[str "database=T"], [(str " 01", str " aa")]⟩]
        ++ ([str "VERSION=3", str "type=btree"] ++ endHeader :: [str " 02", str " bb"]), none⟩
      ⟨Store.empty, fun _ => false, fun _ => none⟩).ret = .panic .bucketNotParse ∧
    cursorsOpened (fToMdbx ⟨fun _ => .idle, .canceled⟩ hexDecode
      ⟨none, streamLines [⟨[str "database=T"], [(str " 01", str " aa")]⟩]
        ++ ([str "VERSION=3", str "type=btree"] ++ endHeader :: [str " 02", str " bb"]), none⟩
      ⟨Store.empty, fun _ => false, fun _ => none⟩).trace = [str "T"] :=
  have h := fToMdbx_header_without_table ⟨fun _ => .idle, .canceled⟩ hexDecode
    ⟨Store.empty, fun _ => false, fun _ => none⟩ none
    [⟨[str "database=T"], [(str " 01", str " aa")]⟩]
    [str "VERSION=3", str "type=btree"] [str " 02", str " bb"]
    (by intro s hs; rw [List.mem_singleton.mp hs]; decide) (by decide)
    (by decide)
    (fun _ => rfl) (fun _ => by simp)
  ⟨by decide, by decide, h.1, h.2.1⟩

/-! ## Streams as the scanner delivers them -/

theorem scanLines_short (content : List Bytes)
    (h : ∀ l ∈ content, l.length < maxScanTokenSize) : scanLines content = (content, none) := by
  induction content with
  | nil => rfl
  | cons l rest ih =>
    have h1 : ¬ maxScanTokenSize ≤ l.length := by
      have := h l (List.mem_cons_self _ _); omega
    simp only [scanLines, h1, if_false, ih (fun x hx => h x (List.mem_cons_of_mem _ hx))]

theorem scanLines_long (pre : List Bytes) (long : Bytes) (after : List Bytes)
    (h : ∀ l ∈ pre, l.length < maxScanTokenSize) (hl : maxScanTokenSize ≤ long.length) :
    scanLines (pre ++ long :: after) = (pre, some .tokenTooLong) := by
  induction pre with
  | nil => simp [scanLines, hl]
  | cons l rest ih =>
    have h1 : ¬ maxScanTokenSize ≤ l.length := by
      have := h l (List.mem_cons_self _ _); omega
    have ih2 := ih (fun x hx => h x (List.mem_cons_of_mem _ hx))
    rw [List.cons_append, scanLines, if_neg h1, ih2]

theorem pairLines_append (ps qs : List (Bytes × Bytes)) :
    pairLines (ps ++ qs) = pairLines ps ++ pairLines qs := by
  induction ps with
  | nil => rfl
  | cons p ps ih => simp [pairLines, ih]

/-- A stream of closed well-formed sections followed by an open well-formed
section, the scanner stopping (at end-of-input or on an error) right after the
section or after one more key line: the load is committed and the function
returns `nil`. -/
theorem fToMdbx_open_stream (sig : Signals) (fromHex : Bytes → Bytes) (dst : Dst)
    (scanErr : Option Error) (ss : List TableSection) (last : TableSection) (tail : List Bytes)
    (hw : ∀ s ∈ ss, s.WellFormed) (hl : last.WellFormed)
    (hf : ∀ n, dst.fault n = none) (hs : ∀ n, sig.sel n ≠ .done)
    (htail : ∀ st, dataLoop sig fromHex dst last.bucket (dst.dupsort last.bucket) tail st
      = .breakMain st) :
    (fToMdbx sig fromHex ⟨none, streamLines ss ++ (last.openLines ++ tail), scanErr⟩ dst).ret
      = .nil ∧
    ∀ n, (fToMdbx sig fromHex
        ⟨none, streamLines ss ++ (last.openLines ++ tail), scanErr⟩ dst).durable n
      = dst.contents n ++ loaded fromHex (ss ++ [last]) n := by
  obtain ⟨st1, fuel, e1, a1⟩ := fToMdbx_stream_calls sig fromHex dst scanErr hf hs ss hw
    (last.openLines ++ tail)
  obtain ⟨st2, g1, a2⟩ := mainLoop_openLines_calls sig fromHex dst scanErr hf hs last hl tail
    fuel st1
  rw [e1, g1, htail st2]
  obtain ⟨c1, c2⟩ := commitAndReturn_ok dst hf st2
  refine ⟨c1, fun n => ?_⟩
  dsimp only
  rw [c2, a2.2.1 n, a1.2.1 n, loaded_append, List.append_assoc]
  simp [loaded]

/-- C10 (counterexample): on the stream `database=T`, `HEADER=END`, ` 01`,
` aa`, ` 02`, end-of-input, whose data block ends after the key line ` 02`,
`fToMdbx` returns `nil` and table `T` durably holds the record `(01, aa)`. -/
theorem fToMdbx_truncated_pair_counterexample :
    (fToMdbx ⟨fun _ => .idle, .canceled⟩ hexDecode
      (fileOf [str "database=T", str "HEADER=END", str " 01", str " aa", str " 02"])
      ⟨Store.empty, fun _ => false, fun _ => none⟩).ret = .nil ∧
    (fToMdbx ⟨fun _ => .idle, .canceled⟩ hexDecode
      (fileOf [str "database=T", str "HEADER=END", str " 01", str " aa", str " 02"])
      ⟨Store.empty, fun _ => false, fun _ => none⟩).durable (str "T") = [([1], [0xAA])] := by
  decide

/-- C10 (amended): a data block that ends at end-of-input right after a key
line is not fatal.  For every stream, every line of which is shorter than
64 KiB, made of closed well-formed sections followed by a well-formed section
whose data block ends, after its complete pairs, with one more key line and
end-of-input, when no storage call fails and cancellation is not received,
`fToMdbx` returns `nil` and every table durably holds its previous contents
followed by the decoded complete pairs of its sections, in stream order; the
key line without value is not written. -/
theorem fToMdbx_truncated_pair (sig : Signals) (fromHex : Bytes → Bytes) (dst : Dst)
    (ss : List TableSection) (last : TableSection) (key : Bytes)
    (hw : ∀ s ∈ ss, s.WellFormed) (hl : last.WellFormed)
    (hk1 : key ≠ endData) (hk2 : key ≠ [])
    (hlen : ∀ l ∈ streamLines ss ++ (last.openLines ++ [key]), l.length < maxScanTokenSize)
    (hf : ∀ n, dst.fault n = none) (hs : ∀ n, sig.sel n ≠ .done) :
    (fToMdbx sig fromHex (fileOf (streamLines ss ++ (last.openLines ++ [key]))) dst).ret
      = .nil ∧
    ∀ n, (fToMdbx sig fromHex
        (fileOf (streamLines ss ++ (last.openLines ++ [key]))) dst).durable n
      = dst.contents n ++ loaded fromHex (ss ++ [last]) n := by
  have hfile : fileOf (streamLines ss ++ (last.openLines ++ [key]))
      = ⟨none, streamLines ss ++ (last.openLines ++ [key]), none⟩ := by
    simp only [fileOf, scanLines_short _ hlen]
  rw [hfile]
  exact fToMdbx_open_stream sig fromHex dst none ss last [key] hw hl hf hs
    (fun st => dataLoop_key_only sig fromHex dst _ _ key hk1 hk2 st)

theorem fToMdbx_truncated_pair_witness :
    (fToMdbx ⟨fun _ => .idle, .canceled⟩ hexDecode
      (fileOf (streamLines [] ++ ((⟨[str "database=T"], [(str " 01", str " aa")]⟩ :
        TableSection).openLines ++ [str " 02"])))
      ⟨Store.empty, fun _ => false, fun _ => none⟩).ret = .nil ∧
    ∀ n, (fToMdbx ⟨fun _ => .idle, .canceled⟩ hexDecode
      (fileOf (streamLines [] ++ ((⟨[str "database=T"], [(str " 01", str " aa")]⟩ :
        TableSection).openLines ++ [str " 02"])))
      ⟨Store.empty, fun _ => false, fun _ => none⟩).durable n
      = Store.empty n ++ loaded hexDecode
          ([] ++ [(⟨[str "database=T"], [(str " 01", str " aa")]⟩ : TableSection)]) n :=
  fToMdbx_truncated_pair ⟨fun _ => .idle, .canceled⟩ hexDecode
    ⟨Store.empty, fun _ => false, fun _ => none⟩ []
    ⟨[str "database=T"], [(str " 01", str " aa")]⟩ (str " 02")
    (by simp) (by decide) (by decide) (by decide) (by decide) (fun _ => rfl) (fun _ => by simp)

theorem decodePairs_append (fromHex : Bytes → Bytes) (ps qs : List (Bytes × Bytes)) :
    decodePairs fromHex (ps ++ qs) = decodePairs fromHex ps ++ decodePairs fromHex qs := by
  simp [decodePairs]

/-- The scanner cut in a data block: a stream of closed well-formed sections
followed by an open well-formed section, then, after at most one key line, a
line of 64 KiB or more and anything else.  The scanner stops at the long line,
and the load is committed without that line and what follows it. -/
theorem fToMdbx_cut_stream (sig : Signals) (fromHex : Bytes → Bytes) (dst : Dst)
    (ss : List TableSection) (last : TableSection) (tail : List Bytes) (long : Bytes)
    (after : List Bytes)
    (hw : ∀ s ∈ ss, s.WellFormed) (hl : last.WellFormed)
    (hf : ∀ n, dst.fault n = none) (hs : ∀ n, sig.sel n ≠ .done)
    (hshort : ∀ l ∈ streamLines ss ++ (last.openLines ++ tail), l.length < maxScanTokenSize)
    (hlong : maxScanTokenSize ≤ long.length)
    (htail : ∀ st, dataLoop sig fromHex dst last.bucket (dst.dupsort last.bucket) tail st
      = .breakMain st) :
    (fToMdbx sig fromHex
      (fileOf (streamLines ss ++ (last.openLines ++ tail) ++ long :: after)) dst).ret = .nil ∧
    ∀ n, (fToMdbx sig fromHex
        (fileOf (streamLines ss ++ (last.openLines ++ tail) ++ long :: after)) dst).durable n
      = dst.contents n ++ loaded fromHex (ss ++ [last]) n := by
  have hfile : fileOf (streamLines ss ++ (last.openLines ++ tail) ++ long :: after)
      = ⟨none, streamLines ss ++ (last.openLines ++ tail), some .tokenTooLong⟩ := by
    simp only [fileOf, scanLines_long _ long after hshort hlong]
  rw [hfile]
  exact fToMdbx_open_stream sig fromHex dst _ ss last tail hw hl hf hs htail

/-- C17: a stream of closed well-formed sections followed by a last well-formed
section whose data block ends at end-of-input after a whole number of key and
value lines, no storage call failing and cancellation not being received.  When
every line of the stream is shorter than 64 KiB, `fToMdbx` returns `nil` and
every table durably holds what it held followed by the pairs of its sections in
stream order, each line stripped of its first character and hex-decoded.  When
a value line of the last section has 64 KiB or more (the lines before it being
shorter), the scanner stops there, lines 312-314 leave `MainLoop` without a look
at `fileScanner.Err()`, and `fToMdbx` still commits and returns `nil`: the last
table durably holds the pairs before that line only, not the pairs of the
section; the same happens when it is a key line that is too long. -/
theorem fToMdbx_open_last_section (sig : Signals) (fromHex : Bytes → Bytes) (dst : Dst)
    (ss : List TableSection) (last : TableSection)
    (hw : ∀ s ∈ ss, s.WellFormed) (hl : last.WellFormed)
    (hf : ∀ n, dst.fault n = none) (hs : ∀ n, sig.sel n ≠ .done)
    (hshort : ∀ l ∈ streamLines ss ++ last.openLines, l.length < maxScanTokenSize) :
    ((fToMdbx sig fromHex (fileOf (streamLines ss ++ last.openLines)) dst).ret = .nil ∧
      ∀ n, (fToMdbx sig fromHex (fileOf (streamLines ss ++ last.openLines)) dst).durable n
        = dst.contents n ++ loaded fromHex (ss ++ [last]) n) ∧
    (∀ (key long : Bytes) (more : List (Bytes × Bytes)),
      key ≠ endData → key ≠ [] → key.length < maxScanTokenSize →
      maxScanTokenSize ≤ long.length →
      (fToMdbx sig fromHex (fileOf (streamLines ss ++
        (⟨last.header, last.pairs ++ (key, long) :: more⟩ : TableSection).openLines)) dst).ret
        = .nil ∧
      (∀ n, (fToMdbx sig fromHex (fileOf (streamLines ss ++
        (⟨last.header, last.pairs ++ (key, long) :: more⟩ : TableSection).openLines)) dst).durable n
        = dst.contents n ++ loaded fromHex (ss ++ [last]) n) ∧
      (fToMdbx sig fromHex (fileOf (streamLines ss ++
        (⟨last.header, last.pairs ++ (key, long) :: more⟩ : TableSection).openLines))
          dst).durable last.bucket
        ≠ dst.contents last.bucket ++ loaded fromHex
            (ss ++ [(⟨last.header, last.pairs ++ (key, long) :: more⟩ : TableSection)])
            last.bucket) ∧
    (∀ (long v : Bytes) (more : List (Bytes × Bytes)), maxScanTokenSize ≤ long.length →
      (fToMdbx sig fromHex (fileOf (streamLines ss ++
        (⟨last.header, last.pairs ++ (long, v) :: more⟩ : TableSection).openLines)) dst).ret
        = .nil ∧
      (∀ n, (fToMdbx sig fromHex (fileOf (streamLines ss ++
        (⟨last.header, last.pairs ++ (long, v) :: more⟩ : TableSection).openLines)) dst).durable n
        = dst.contents n ++ loaded fromHex (ss ++ [last]) n) ∧
      (fToMdbx sig fromHex (fileOf (streamLines ss ++
        (⟨last.header, last.pairs ++ (long, v) :: more⟩ : TableSection).openLines))
          dst).durable last.bucket
        ≠ dst.contents last.bucket ++ loaded fromHex
            (ss ++ [(⟨last.header, last.pairs ++ (long, v) :: more⟩ : TableSection)])
            last.bucket) := by
  have hne : ∀ (p : Bytes × Bytes) (more : List (Bytes × Bytes)),
      dst.contents last.bucket ++ loaded fromHex (ss ++ [last]) last.bucket
        ≠ dst.contents last.bucket ++ loaded fromHex
            (ss ++ [(⟨last.header, last.pairs ++ p :: more⟩ : TableSection)]) last.bucket := by
    intro p more h
    have := congrArg List.length h
    simp [loaded_append, loaded, TableSection.bucket, decodePairs] at this
  have hopen : ∀ (p : Bytes × Bytes) (more : List (Bytes × Bytes)),
      (⟨last.header, last.pairs ++ p :: more⟩ : TableSection).openLines
        = last.openLines ++ p.1 :: p.2 :: pairLines more := by
    intro p more
    simp [TableSection.openLines, pairLines_append, pairLines]
  refine ⟨?_, ?_, ?_⟩
  · have hfile : fileOf (streamLines ss ++ last.openLines)
        = ⟨none, streamLines ss ++ (last.openLines ++ []), none⟩ := by
      simp only [fileOf, scanLines_short _ hshort, List.append_nil]
    rw [hfile]
    exact fToMdbx_open_stream sig fromHex dst none ss last [] hw hl hf hs
      (fun st => by simp [dataLoop])
  · intro key long more hk1 hk2 hk3 hlong
    have hc : streamLines ss ++
        (⟨last.header, last.pairs ++ (key, long) :: more⟩ : TableSection).openLines
        = streamLines ss ++ (last.openLines ++ [key]) ++ long :: pairLines more := by
      rw [hopen]; simp
    rw [hc]
    obtain ⟨r1, r2⟩ := fToMdbx_cut_stream sig fromHex dst ss last [key] long (pairLines more)
      hw hl hf hs (by
        intro l hm
        rw [← List.append_assoc] at hm
        rcases List.mem_append.mp hm with hm | hm
        · exact hshort l hm
        · rw [List.mem_singleton.mp hm]; exact hk3) hlong
      (fun st => dataLoop_key_only sig fromHex dst _ _ key hk1 hk2 st)
    refine ⟨r1, r2, ?_⟩
    rw [r2 last.bucket]
    exact hne (key, long) more
  · intro long v more hlong
    have hc : streamLines ss ++
        (⟨last.header, last.pairs ++ (long, v) :: more⟩ : TableSection).openLines
        = streamLines ss ++ (last.openLines ++ []) ++ long :: (v :: pairLines more) := by
      rw [hopen]; simp
    rw [hc]
    obtain ⟨r1, r2⟩ := fToMdbx_cut_stream sig fromHex dst ss last [] long (v :: pairLines more)
      hw hl hf hs (by rw [List.append_nil]; exact hshort) hlong
      (fun st => by simp [dataLoop])
    refine ⟨r1, r2, ?_⟩
    rw [r2 last.bucket]
    exact hne (long, v) more

theorem longValueLine_length : maxScanTokenSize ≤ longValueLine.length := by
  unfold longValueLine maxScanTokenSize
  rw [List.length_cons, List.length_replicate]
  omega

theorem fToMdbx_open_last_section_witness :
    (fToMdbx ⟨fun _ => .idle, .canceled⟩ hexDecode
      (fileOf (streamLines [] ++ (⟨sectionT.header,
        sectionT.pairs ++ (str " 02", longValueLine) :: []⟩ : TableSection).openLines))
      ⟨Store.empty, fun _ => false, fun _ => none⟩).ret = .nil ∧
    (∀ n, (fToMdbx ⟨fun _ => .idle, .canceled⟩ hexDecode
      (fileOf (streamLines [] ++ (⟨sectionT.header,
        sectionT.pairs ++ (str " 02", longValueLine) :: []⟩ : TableSection).openLines))
      ⟨Store.empty, fun _ => false, fun _ => none⟩).durable n
      = Store.empty n ++ loaded hexDecode ([] ++ [sectionT]) n) ∧
    (fToMdbx ⟨fun _ => .idle, .canceled⟩ hexDecode
      (fileOf (streamLines [] ++ (⟨sectionT.header,
        sectionT.pairs ++ (str " 02", longValueLine) :: []⟩ : TableSection).openLines))
      ⟨Store.empty, fun _ => false, fun _ => none⟩).durable sectionT.bucket
      ≠ Store.empty sectionT.bucket ++ loaded hexDecode
          ([] ++ [(⟨sectionT.header,
            sectionT.pairs ++ (str " 02", longValueLine) :: []⟩ : TableSection)])
          sectionT.bucket :=
  (fToMdbx_open_last_section ⟨fun _ => .idle, .canceled⟩ hexDecode
    ⟨Store.empty, fun _ => false, fun _ => none⟩ [] sectionT
    (by simp) (by decide) (fun _ => rfl) (fun _ => by simp) (by decide)).2.1
    (str " 02") longValueLine [] (by decide) (by decide) (by decide) longValueLine_length

/-! ## The append calls of the two copy engines -/

theorem yielded_tableCursor (rs : List Record) : yielded (tableCursor rs) = rs := by
  induction rs with
  | nil => rfl
  | cons r rs ih => rw [tableCursor_cons, yielded]; simp [ih]

theorem next_length (c : Cursor) : c.next.2.length + c.next.1.k.isSome.toNat ≤ c.length := by
  cases c with
  | nil => simp [Cursor.next, Step.eof]
  | cons s rest =>
    simp only [Cursor.next, List.length_cons]
    cases s.k <;> simp

theorem advanceLeft_cases (o : List Report) (st : LoopState) :
    (∃ e, st.c.next.1.err = some e ∧ advanceLeft o st = .stop o e) ∨
    (st.c.next.1.err = none ∧
      advanceLeft o st
        = .next o { st with k := st.c.next.1.k, v := st.c.next.1.v, c := st.c.next.2 }) := by
  unfold advanceLeft
  cases h : st.c.next.1.err with
  | none => right; simp [h]
  | some e => left; exact ⟨e, rfl, by simp [h]⟩

theorem advanceRight_cases (o : List Report) (st : LoopState) :
    (∃ e, st.refC.next.1.err = some e ∧ advanceRight o st = .stop o e) ∨
    (st.refC.next.1.err = none ∧
      advanceRight o st
        = .next o { st with refK := st.refC.next.1.k, refV := st.refC.next.1.v,
                            refC := st.refC.next.2 }) := by
  unfold advanceRight
  cases h : st.refC.next.1.err with
  | none => right; simp [h]
  | some e => left; exact ⟨e, rfl, by simp [h]⟩

/-- Every pass whose loop condition holds makes a cursor call: `refC.Next()`,
`c.Next()`, or both in this order; what it printed before are findings. -/
theorem classify_cases (st : LoopState) (h : (st.k.isSome || st.refK.isSome) = true) :
    ∃ o, (∀ r ∈ o, r.isFinding = true) ∧
      ((st.refK.isSome = true ∧ classify st = advanceRight o st) ∨
       (st.k.isSome = true ∧ classify st = advanceLeft o st) ∨
       (st.k.isSome = true ∧ st.refK.isSome = true ∧ classify st = advanceBoth o st)) := by
  unfold classify
  cases hk : st.k with
  | none =>
    cases hr : st.refK with
    | none => simp [hk, hr] at h
    | some refK =>
      exact ⟨[.missingInDb refK st.refV], by simp [Report.isFinding], Or.inl ⟨rfl, by simp⟩⟩
  | some k =>
    cases hr : st.refK with
    | none =>
      exact ⟨[.missingRefDB k st.v], by simp [Report.isFinding], Or.inr (Or.inl ⟨rfl, rfl⟩)⟩
    | some refK =>
      rcases bytesCompare_cases k refK with hc | hc | hc
      · exact ⟨[.missingRefDB k st.v], by simp [Report.isFinding],
          Or.inr (Or.inl ⟨rfl, by simp [hc]⟩)⟩
      · refine ⟨if !bytesEqual st.v st.refV then [.differentValues k st.v st.refV] else [], ?_,
          Or.inr (Or.inr ⟨rfl, rfl, by simp [hc, advanceBoth]⟩)⟩
        intro r hr
        split at hr
        · simp at hr; subst hr; rfl
        · simp at hr
      · exact ⟨[.missingInDb refK st.refV], by simp [Report.isFinding],
          Or.inl ⟨rfl, by simp [hc]⟩⟩

theorem advanceLeft_next (o o1 : List Report) (st st1 : LoopState)
    (h : advanceLeft o st = .next o1 st1) :
    o1 = o ∧ st.c.next.1.err = none ∧
      st1 = { st with k := st.c.next.1.k, v := st.c.next.1.v, c := st.c.next.2 } := by
  rcases advanceLeft_cases o st with ⟨e, _, h2⟩ | ⟨h1, h2⟩
  · rw [h2] at h; cases h
  · rw [h2] at h; cases h; exact ⟨rfl, h1, rfl⟩

theorem advanceRight_next (o o1 : List Report) (st st1 : LoopState)
    (h : advanceRight o st = .next o1 st1) :
    o1 = o ∧ st.refC.next.1.err = none ∧
      st1 = { st with refK := st.refC.next.1.k, refV := st.refC.next.1.v,
                      refC := st.refC.next.2 } := by
  rcases advanceRight_cases o st with ⟨e, _, h2⟩ | ⟨h1, h2⟩
  · rw [h2] at h; cases h
  · rw [h2] at h; cases h; exact ⟨rfl, h1, rfl⟩

theorem advanceLeft_stop (o o1 : List Report) (st : LoopState) (e : Error)
    (h : advanceLeft o st = .stop o1 e) : o1 = o ∧ st.c.next.1.err = some e := by
  rcases advanceLeft_cases o st with ⟨e1, h1, h2⟩ | ⟨_, h2⟩
  · rw [h2] at h; cases h; exact ⟨rfl, h1⟩
  · rw [h2] at h; cases h

theorem advanceRight_stop (o o1 : List Report) (st : LoopState) (e : Error)
    (h : advanceRight o st = .stop o1 e) : o1 = o ∧ st.refC.next.1.err = some e := by
  rcases advanceRight_cases o st with ⟨e1, h1, h2⟩ | ⟨_, h2⟩
  · rw [h2] at h; cases h; exact ⟨rfl, h1⟩
  · rw [h2] at h; cases h

theorem advanceBoth_next (o o1 : List Report) (st st1 : LoopState)
    (h : advanceBoth o st = .next o1 st1) :
    o1 = o ∧ st.c.next.1.err = none ∧ st.refC.next.1.err = none ∧
      st1 = { st with k := st.c.next.1.k, v := st.c.next.1.v, c := st.c.next.2,
                      refK := st.refC.next.1.k, refV := st.refC.next.1.v,
                      refC := st.refC.next.2 } := by
  unfold advanceBoth at h
  rcases advanceLeft_cases o st with ⟨e, _, h2⟩ | ⟨h1, h2⟩
  · rw [h2] at h; cases h
  · rw [h2] at h
    obtain ⟨ho, he, hs⟩ := advanceRight_next _ _ _ _ h
    exact ⟨ho, h1, he, hs⟩

/-- A pass that runs to its end leaves less for the cursors to hand out, keeps
the count, and has printed findings only. -/
theorem classify_next (st st1 : LoopState) (o : List Report)
    (h : (st.k.isSome || st.refK.isSome) = true) (hc : classify st = .next o st1) :
    st1.remaining < st.remaining ∧ st1.count = st.count ∧ (∀ r ∈ o, r.isFinding = true) := by
  obtain ⟨o0, ho0, hcase⟩ := classify_cases st h
  have hl := next_length st.c
  have hr := next_length st.refC
  rcases hcase with ⟨hk, he⟩ | ⟨hk, he⟩ | ⟨hk, hk2, he⟩
  · rw [he] at hc
    obtain ⟨h1, _, h3⟩ := advanceRight_next _ _ _ _ hc
    subst h1 h3
    refine ⟨?_, rfl, ho0⟩
    simp only [LoopState.remaining, hk, Bool.toNat_true]
    omega
  · rw [he] at hc
    obtain ⟨h1, _, h3⟩ := advanceLeft_next _ _ _ _ hc
    subst h1 h3
    refine ⟨?_, rfl, ho0⟩
    simp only [LoopState.remaining, hk, Bool.toNat_true]
    omega
  · rw [he] at hc
    obtain ⟨h1, _, _, h3⟩ := advanceBoth_next _ _ _ _ hc
    subst h1 h3
    refine ⟨?_, rfl, ho0⟩
    simp only [LoopState.remaining, hk, hk2, Bool.toNat_true]
    omega

/-- A pass that returns inside the classification returns the error of the
call of `Next` it has just made, on the left or on the right cursor. -/
theorem classify_stop (st : LoopState) (o : List Report) (e : Error)
    (h : (st.k.isSome || st.refK.isSome) = true) (hc : classify st = .stop o e) :
    (st.c.next.1.err = some e ∨ st.refC.next.1.err = some e) ∧
      (∀ r ∈ o, r.isFinding = true) := by
  obtain ⟨o0, ho0, hcase⟩ := classify_cases st h
  rcases hcase with ⟨hk, he⟩ | ⟨hk, he⟩ | ⟨hk, hk2, he⟩
  · rw [he] at hc
    obtain ⟨h1, h2⟩ := advanceRight_stop _ _ _ _ hc
    subst h1; exact ⟨Or.inr h2, ho0⟩
  · rw [he] at hc
    obtain ⟨h1, h2⟩ := advanceLeft_stop _ _ _ _ hc
    subst h1; exact ⟨Or.inl h2, ho0⟩
  · rw [he] at hc
    unfold advanceBoth at hc
    rcases advanceLeft_cases o0 st with ⟨e1, h1, h2⟩ | ⟨h1, h2⟩
    · rw [h2] at hc; cases hc; exact ⟨Or.inl h1, ho0⟩
    · rw [h2] at hc
      obtain ⟨h3, h4⟩ := advanceRight_stop _ _ _ _ hc
      subst h3; exact ⟨Or.inr h4, ho0⟩

theorem remaining_count (st : LoopState) (n : Nat) :
    ({ st with count := n } : LoopState).remaining = st.remaining := rfl

theorem remaining_pos (st : LoopState) (h : (st.k.isSome || st.refK.isSome) = true) :
    0 < st.remaining := by
  unfold LoopState.remaining
  cases hk : st.k.isSome
  · have hr : st.refK.isSome = true := by simpa [hk] using h
    simp [hr]
  · simp

theorem cond_of_remaining_zero (st : LoopState) (h : st.remaining = 0) :
    (st.k.isSome || st.refK.isSome) = false := by
  cases hc : (st.k.isSome || st.refK.isSome)
  · rfl
  · have := remaining_pos st hc
    omega

/-- A pass of the loop that runs to its end has made a cursor call, counted
itself, and printed findings and at most the progress notice of its count. -/
theorem loopBody_next (ctx : Context) (st st1 : LoopState) (o : List Report)
    (h : (st.k.isSome || st.refK.isSome) = true) (hb : loopBody ctx st = .next o st1) :
    st1.remaining < st.remaining ∧ st1.count = st.count + 1 ∧
      (∀ r ∈ o, r.isFinding = true ∨ r = .compared (st.count + 1)) := by
  unfold loopBody at hb
  simp only at hb
  split at hb
  · split at hb
    · cases hb
    · cases hcl : classify { st with count := st.count + 1 } with
      | stop o2 e => rw [hcl] at hb; cases hb
      | next o2 st2 =>
        rw [hcl] at hb
        cases hb
        obtain ⟨h1, h2, h3⟩ := classify_next { st with count := st.count + 1 } _ _ h hcl
        refine ⟨h1, h2, ?_⟩
        intro r hr
        rcases List.mem_cons.mp hr with hr | hr
        · exact Or.inr hr
        · exact Or.inl (h3 r hr)
  · obtain ⟨h1, h2, h3⟩ := classify_next { st with count := st.count + 1 } _ _ h hb
    exact ⟨h1, h2, fun r hr => Or.inl (h3 r hr)⟩

/-- With enough passes allowed the loop returns (`nil` or an error), prints only
findings and progress notices, and makes at most as many passes as the cursors
have results to hand out. -/
theorem compareLoop_total (ctx : Context) :
    ∀ (fuel : Nat) (st : LoopState), st.remaining ≤ fuel →
      (compareLoop ctx fuel st).ret ≠ .outOfFuel ∧
      (∀ r ∈ (compareLoop ctx fuel st).out, r.isFinding = true ∨ ∃ n, r = .compared n) ∧
      st.count ≤ (compareLoop ctx fuel st).count ∧
      (compareLoop ctx fuel st).count ≤ st.count + st.remaining := by
  intro fuel
  induction fuel with
  | zero =>
    intro st h
    have hc := cond_of_remaining_zero st (by omega)
    simp [compareLoop, hc]
  | succ fuel ih =>
    intro st h
    cases hc : (st.k.isSome || st.refK.isSome) with
    | false => simp [compareLoop, hc]
    | true =>
      have hpos := remaining_pos st hc
      cases hb : loopBody ctx st with
      | stop o e =>
        simp only [compareLoop, hc, if_true, hb]
        refine ⟨by simp, ?_, by omega, by omega⟩
        intro r hr
        unfold loopBody at hb
        simp only at hb
        split at hb
        · split at hb
          · cases hb; simp at hr
          · cases hcl : classify { st with count := st.count + 1 } with
            | next o2 st2 => rw [hcl] at hb; cases hb
            | stop o2 e2 =>
              rw [hcl] at hb
              cases hb
              rcases List.mem_cons.mp hr with hr | hr
              · exact Or.inr ⟨_, hr⟩
              · exact Or.inl ((classify_stop { st with count := st.count + 1 } _ _ hc hcl).2 r hr)
        · exact Or.inl ((classify_stop { st with count := st.count + 1 } _ _ hc hb).2 r hr)
      | next o st1 =>
        obtain ⟨h1, h2, h3⟩ := loopBody_next ctx st st1 o hc hb
        obtain ⟨i1, i2, i3, i4⟩ := ih st1 (by omega)
        simp only [compareLoop, hc, if_true, hb]
        refine ⟨i1, ?_, by omega, by omega⟩
        intro r hr
        rcases List.mem_append.mp hr with hr | hr
        · rcases h3 r hr with h | h
          · exact Or.inl h
          · exact Or.inr ⟨_, h⟩
        · exact i2 r hr

/-- The result of the loop does not depend on the number of passes allowed, once
it is at least what the cursors can hand out. -/
theorem compareLoop_fuel (ctx : Context) :
    ∀ (f1 f2 : Nat) (st : LoopState), st.remaining ≤ f1 → st.remaining ≤ f2 →
      compareLoop ctx f1 st = compareLoop ctx f2 st := by
  intro f1
  induction f1 with
  | zero =>
    intro f2 st h1 _
    have hc := cond_of_remaining_zero st (by omega)
    cases f2 <;> simp [compareLoop, hc]
  | succ f1 ih =>
    intro f2 st h1 h2
    cases hc : (st.k.isSome || st.refK.isSome) with
    | false => cases f2 <;> simp [compareLoop, hc]
    | true =>
      have hpos := remaining_pos st hc
      cases f2 with
      | zero => omega
      | succ f2 =>
        cases hb : loopBody ctx st with
        | stop o e => simp only [compareLoop, hc, if_true, hb]
        | next o st1 =>
          obtain ⟨h3, _, _⟩ := loopBody_next ctx st st1 o hc hb
          simp only [compareLoop, hc, if_true, hb]
          rw [ih f2 st1 (by omega) (by omega)]

/-- The state in which the loop of `compareBuckets` starts, after the two calls
of `First`, has no more to hand out than the two cursors had. -/
theorem remaining_first (c0 refC0 : Cursor) :
    (⟨c0.next.1.k, c0.next.1.v, c0.next.2, refC0.next.1.k, refC0.next.1.v, refC0.next.2, 0⟩
      : LoopState).remaining ≤ c0.length + refC0.length := by
  have h1 := next_length c0
  have h2 := next_length refC0
  simp only [LoopState.remaining]
  omega

/-- The function `compareBuckets` unfolded on two cursors whose calls of `First`
succeed. -/
theorem compareBuckets_loop (ctx : Context) (tx refTx : Tx) (b refB : Bytes) (c0 refC0 : Cursor)
    (h1 : tx b = .ok c0) (h2 : c0.next.1.err = none) (h3 : refTx refB = .ok refC0)
    (h4 : refC0.next.1.err = none) :
    compareBuckets ctx tx b refTx refB
      = compareLoop ctx (c0.length + refC0.length)
          ⟨c0.next.1.k, c0.next.1.v, c0.next.2, refC0.next.1.k, refC0.next.1.v, refC0.next.2, 0⟩ := by
  simp [compareBuckets, h1, h2, h3, h4]

/-- Four ways `compareBuckets` starts: one of the four first calls fails, or the
loop is entered. -/
theorem compareBuckets_cases (ctx : Context) (tx refTx : Tx) (b refB : Bytes) :
    (∃ e, tx b = .error e ∧ compareBuckets ctx tx b refTx refB = ⟨[], .err e, 0⟩) ∨
    (∃ c0 e, tx b = .ok c0 ∧ c0.next.1.err = some e ∧
      compareBuckets ctx tx b refTx refB = ⟨[], .err e, 0⟩) ∨
    (∃ c0 e, tx b = .ok c0 ∧ c0.next.1.err = none ∧ refTx refB = .error e ∧
      compareBuckets ctx tx b refTx refB = ⟨[], .err e, 0⟩) ∨
    (∃ c0 refC0 e, tx b = .ok c0 ∧ c0.next.1.err = none ∧ refTx refB = .ok refC0 ∧
      refC0.next.1.err = some e ∧ compareBuckets ctx tx b refTx refB = ⟨[], .err e, 0⟩) ∨
    (∃ c0 refC0, tx b = .ok c0 ∧ c0.next.1.err = none ∧ refTx refB = .ok refC0 ∧
      refC0.next.1.err = none ∧
      compareBuckets ctx tx b refTx refB
        = compareLoop ctx (c0.length + refC0.length)
            ⟨c0.next.1.k, c0.next.1.v, c0.next.2, refC0.next.1.k, refC0.next.1.v,
              refC0.next.2, 0⟩) := by
  cases h1 : tx b with
  | error e => left; exact ⟨e, rfl, by simp [compareBuckets, h1]⟩
  | ok c0 =>
    right
    cases h2 : c0.next.1.err with
    | some e => left; exact ⟨c0, e, rfl, h2, by simp [compareBuckets, h1, h2]⟩
    | none =>
      right
      cases h3 : refTx refB with
      | error e => left; exact ⟨c0, e, rfl, h2, rfl, by simp [compareBuckets, h1, h2, h3]⟩
      | ok refC0 =>
        right
        cases h4 : refC0.next.1.err with
        | some e =>
          left; exact ⟨c0, refC0, e, rfl, h2, rfl, h4, by simp [compareBuckets, h1, h2, h3, h4]⟩
        | none =>
          right
          exact ⟨c0, refC0, rfl, h2, rfl, h4, by simp [compareBuckets, h1, h2, h3, h4]⟩

/-- One pass over two error-free cursors, with the sizes: each cursor moves by
at most one record, and one of them moves. -/
theorem classify_stateOf_len (as bs : List Record) (n : Nat) (h : as ≠ [] ∨ bs ≠ []) :
    ∃ o as1 bs1, classify (stateOf as bs n) = .next o (stateOf as1 bs1 n) ∧
      as1.length + bs1.length < as.length + bs.length ∧
      as.length ≤ as1.length + 1 ∧ bs.length ≤ bs1.length + 1 ∧
      mergeReports as bs = o ++ mergeReports as1 bs1 ∧
      divergences o = o := by
  cases as with
  | nil =>
    cases bs with
    | nil => simp at h
    | cons b bs =>
      exact ⟨[.missingInDb b.1 b.2], [], bs, advanceRight_stateOf _ [] b bs n, by simp,
        by simp, by simp, by simp [mergeReports], rfl⟩
  | cons a as =>
    cases bs with
    | nil =>
      exact ⟨[.missingRefDB a.1 a.2], as, [], advanceLeft_stateOf _ a as [] n, by simp,
        by simp, by simp, by simp [mergeReports], rfl⟩
    | cons b bs =>
      rw [classify_cons_cons]
      rcases bytesCompare_cases a.1 b.1 with hc | hc | hc
      · refine ⟨[.missingRefDB a.1 a.2], as, b :: bs, ?_, by simp, by simp, by simp,
          by simp [mergeReports, hc], rfl⟩
        simp [hc, advanceLeft_stateOf]
      · by_cases hv : a.2 = b.2
        · refine ⟨[], as, bs, ?_, by simp; omega, by simp, by simp,
            by simp [mergeReports, hc, hv], rfl⟩
          simp [hc, hv, bytesEqual, advanceLeft_stateOf, advanceRight_stateOf]
        · refine ⟨[.differentValues a.1 a.2 b.2], as, bs, ?_, by simp; omega, by simp, by simp,
            by simp [mergeReports, hc, hv], rfl⟩
          simp [hc, hv, bytesEqual, advanceLeft_stateOf, advanceRight_stateOf]
      · refine ⟨[.missingInDb b.1 b.2], a :: as, bs, ?_, by simp, by simp, by simp,
          by simp [mergeReports, hc], rfl⟩
        simp [hc, advanceRight_stateOf]

theorem cond_stateOf (as bs : List Record) (n : Nat) (h : as ≠ [] ∨ bs ≠ []) :
    ((stateOf as bs n).k.isSome || (stateOf as bs n).refK.isSome) = true := by
  rcases h with h1 | h1
  · cases as with
    | nil => exact absurd rfl h1
    | cons a as => simp [stateOf, headKey]
  · cases bs with
    | nil => exact absurd rfl h1
    | cons b bs => simp [stateOf, headKey]

/-- The loop on two error-free cursors, whatever the cancellation signal does:
it returns `nil` or the error of the context, and when it returns `nil` it has
printed the merge of the two record lists in a number of passes between the
larger of the two sizes and their sum. -/
theorem compareLoop_table_any (ctx : Context) (fuel : Nat) :
    ∀ (as bs : List Record) (n : Nat), as.length + bs.length ≤ fuel →
      ((compareLoop ctx fuel (stateOf as bs n)).ret = .nil ∨
        (compareLoop ctx fuel (stateOf as bs n)).ret = .err ctx.err) ∧
      ((compareLoop ctx fuel (stateOf as bs n)).ret = .nil →
        divergences (compareLoop ctx fuel (stateOf as bs n)).out = mergeReports as bs ∧
        n + max as.length bs.length ≤ (compareLoop ctx fuel (stateOf as bs n)).count ∧
        (compareLoop ctx fuel (stateOf as bs n)).count ≤ n + (as.length + bs.length)) := by
  induction fuel with
  | zero =>
    intro as bs n h
    have ha : as = [] := List.length_eq_zero.mp (by omega)
    have hb : bs = [] := List.length_eq_zero.mp (by omega)
    subst ha hb
    simp [compareLoop, stateOf, headKey, mergeReports, divergences]
  | succ fuel ih =>
    intro as bs n h
    by_cases hne : as ≠ [] ∨ bs ≠ []
    · obtain ⟨o, as1, bs1, hcl, hlen, hla, hlb, hm, hd⟩ := classify_stateOf_len as bs (n + 1) hne
      have hcond := cond_stateOf as bs n hne
      have hst : ({ stateOf as bs n with count := (stateOf as bs n).count + 1 } : LoopState)
          = stateOf as bs (n + 1) := rfl
      obtain ⟨hr, ho⟩ := ih as1 bs1 (n + 1) (by omega)
      by_cases hmod : (n + 1) % 10000000 = 0
      · cases hdone : ctx.done (n + 1) with
        | true =>
          have hb : loopBody ctx (stateOf as bs n) = .stop [] ctx.err := by
            simp only [loopBody, hst]
            simp [stateOf, hmod, hdone]
          simp only [compareLoop, hcond, if_true, hb]
          simp
        | false =>
          have hb : loopBody ctx (stateOf as bs n)
              = .next (.compared (n + 1) :: o) (stateOf as1 bs1 (n + 1)) := by
            simp only [loopBody, hst, hcl]
            simp [stateOf, hmod, hdone]
          simp only [compareLoop, hcond, if_true, hb]
          refine ⟨hr, fun hnil => ?_⟩
          obtain ⟨ho1, ho2, ho3⟩ := ho hnil
          refine ⟨?_, by omega, by omega⟩
          simp only [divergences, List.filter_append, List.filter_cons] at ho1 hd ⊢
          simp [Report.isDivergence, ho1, hd, hm]
      · have hb : loopBody ctx (stateOf as bs n) = .next o (stateOf as1 bs1 (n + 1)) := by
          simp only [loopBody, hst, hcl]
          simp [stateOf, hmod]
        simp only [compareLoop, hcond, if_true, hb]
        refine ⟨hr, fun hnil => ?_⟩
        obtain ⟨ho1, ho2, ho3⟩ := ho hnil
        refine ⟨?_, by omega, by omega⟩
        simp only [divergences, List.filter_append] at ho1 hd ⊢
        simp [ho1, hd, hm]
    · have ha : as = [] := by
        by_contra hc; exact hne (Or.inl hc)
      have hb : bs = [] := by
        by_contra hc; exact hne (Or.inr hc)
      subst ha hb
      simp [compareLoop, stateOf, headKey, mergeReports, divergences]

/-- The function `compareBuckets` on two tables read without error is the loop
started on the two record lists. -/
theorem compareBuckets_tables (ctx : Context) (tx refTx : Tx) (b refB : Bytes)
    (as bs : List Record) (htx : tx b = .ok (tableCursor as))
    (href : refTx refB = .ok (tableCursor bs)) :
    compareBuckets ctx tx b refTx refB
      = compareLoop ctx (as.length + bs.length) (stateOf as bs 0) := by
  cases as with
  | nil =>
    cases bs with
    | nil => simp [compareBuckets, htx, href, tableCursor, Cursor.next, Step.eof, stateOf,
        headKey, headVal]
    | cons b bs => simp [compareBuckets, htx, href, tableCursor, Cursor.next, Step.eof, stateOf,
        headKey, headVal]
  | cons a as =>
    cases bs with
    | nil => simp [compareBuckets, htx, href, tableCursor, Cursor.next, Step.eof, stateOf,
        headKey, headVal]
    | cons b bs => simp [compareBuckets, htx, href, tableCursor, Cursor.next, Step.eof, stateOf,
        headKey, headVal]

/-- A merge that reports nothing has merged two equal lists. -/
theorem eq_of_mergeReports_nil : ∀ (as bs : List Record), mergeReports as bs = [] → as = bs := by
  intro as bs
  induction as, bs using mergeReports.induct with
  | case1 => intro _; rfl
  | case2 b bs _ => intro h; simp [mergeReports] at h
  | case3 a as _ => intro h; simp [mergeReports] at h
  | case4 a as b bs hc _ => intro h; simp [mergeReports, hc] at h
  | case5 a as b bs hc1 hc _ => intro h; simp [mergeReports, hc1, hc] at h
  | case6 a as b bs hc1 hc2 hv ih =>
    intro h
    simp only [mergeReports, hc1, hc2, hv, if_true, if_false] at h
    have hk : a.1 = b.1 := by
      rcases bytesCompare_cases a.1 b.1 with h1 | h1 | h1
      · exact absurd h1 hc1
      · exact bytesCompare_eq_zero.mp h1
      · exact absurd h1 hc2
    have hab : a = b := Prod.ext hk hv
    rw [hab, ih h]
  | case7 a as b bs hc1 hc2 hv _ => intro h; simp [mergeReports, hc1, hc2, hv] at h

/-! ## No false negatives -/

theorem yielded_next (c : Cursor) (h : c.next.1.err = none) :
    yielded c = match c.next.1.k with
      | none => []
      | some k => (k, c.next.1.v) :: yielded c.next.2 := by
  cases c with
  | nil => simp [yielded, Cursor.next, Step.eof]
  | cons s rest =>
    simp only [Cursor.next] at h ⊢
    rw [yielded, h]
    cases s.k <;> rfl

/-- A pass that runs to its end without printing a finding stood on two equal
records and has advanced both cursors. -/
theorem classify_silent (st st1 : LoopState) (o : List Report)
    (hcond : (st.k.isSome || st.refK.isSome) = true) (hc : classify st = .next o st1)
    (ho : ∀ r ∈ o, r.isFinding = false) :
    ∃ k, st.k = some k ∧ st.refK = some k ∧ st.v = st.refV ∧
      st.c.next.1.err = none ∧ st.refC.next.1.err = none ∧
      st1 = { st with k := st.c.next.1.k, v := st.c.next.1.v, c := st.c.next.2,
                      refK := st.refC.next.1.k, refV := st.refC.next.1.v,
                      refC := st.refC.next.2 } := by
  unfold classify at hc
  cases hk : st.k with
  | none =>
    cases hr : st.refK with
    | none => simp [hk, hr] at hcond
    | some refK =>
      simp only [hk, hr] at hc
      obtain ⟨h1, _, _⟩ := advanceRight_next _ _ _ _ hc
      subst h1
      have := ho _ (List.mem_singleton_self _)
      simp [Report.isFinding] at this
  | some k =>
    cases hr : st.refK with
    | none =>
      simp only [hk, hr] at hc
      obtain ⟨h1, _, _⟩ := advanceLeft_next _ _ _ _ hc
      subst h1
      have := ho _ (List.mem_singleton_self _)
      simp [Report.isFinding] at this
    | some refK =>
      simp only [hk, hr] at hc
      rcases bytesCompare_cases k refK with hcmp | hcmp | hcmp
      · simp only [hcmp, if_true] at hc
        obtain ⟨h1, _, _⟩ := advanceLeft_next _ _ _ _ hc
        subst h1
        have := ho _ (List.mem_singleton_self _)
        simp [Report.isFinding] at this
      · have hkk : k = refK := bytesCompare_eq_zero.mp hcmp
        subst hkk
        simp only [hcmp] at hc
        have hc2 : advanceBoth
            (if !bytesEqual st.v st.refV then [.differentValues k st.v st.refV] else []) st
            = .next o st1 := by
          rw [← hc]; simp [advanceBoth]; try rfl
        obtain ⟨h1, h2, h3, h4⟩ := advanceBoth_next _ _ _ _ hc2
        by_cases hv : st.v = st.refV
        · exact ⟨k, rfl, rfl, hv, h2, h3, h4⟩
        · subst h1
          have := ho (.differentValues k st.v st.refV) (by simp [bytesEqual, hv])
          simp [Report.isFinding] at this
      · have hne : ¬ ((1 : Int) = -1) := by decide
        simp only [hcmp, hne, if_true, if_false] at hc
        obtain ⟨h1, _, _⟩ := advanceRight_next _ _ _ _ hc
        subst h1
        have := ho _ (List.mem_singleton_self _)
        simp [Report.isFinding] at this

theorem loopBody_silent (ctx : Context) (st st1 : LoopState) (o : List Report)
    (hcond : (st.k.isSome || st.refK.isSome) = true) (hb : loopBody ctx st = .next o st1)
    (ho : ∀ r ∈ o, r.isFinding = false) (h1 : st1.leftStream = st1.rightStream) :
    st.leftStream = st.rightStream := by
  have hcl : ∃ o2, classify { st with count := st.count + 1 } = .next o2 st1 ∧
      ∀ r ∈ o2, r.isFinding = false := by
    unfold loopBody at hb
    simp only at hb
    split at hb
    · split at hb
      · cases hb
      · cases hcl : classify { st with count := st.count + 1 } with
        | stop o2 e => rw [hcl] at hb; cases hb
        | next o2 st2 =>
          rw [hcl] at hb
          cases hb
          exact ⟨o2, rfl, fun r hr => ho r (List.mem_cons_of_mem _ hr)⟩
    · exact ⟨o, hb, ho⟩
  obtain ⟨o2, hcl, ho2⟩ := hcl
  obtain ⟨k, hk, hr, hv, he1, he2, hst⟩ :=
    classify_silent { st with count := st.count + 1 } st1 o2 hcond hcl ho2
  simp only at hk hr hv he1 he2
  have hl : st.leftStream = (k, st.v) :: st1.leftStream := by
    simp only [LoopState.leftStream, hk, hst]
    rw [yielded_next st.c he1]
  have hrr : st.rightStream = (k, st.refV) :: st1.rightStream := by
    simp only [LoopState.rightStream, hr, hst]
    rw [yielded_next st.refC he2]
  rw [hl, hrr, hv, h1]

theorem streams_of_not_cond (st : LoopState) (h : (st.k.isSome || st.refK.isSome) = false) :
    st.leftStream = st.rightStream := by
  unfold LoopState.leftStream LoopState.rightStream
  cases hk : st.k with
  | some k => simp [hk] at h
  | none =>
    cases hr : st.refK with
    | some k => simp [hr] at h
    | none => rfl

/-- A loop that returns `nil` without having printed a finding has gone through
two equal streams of records. -/
theorem compareLoop_silent (ctx : Context) :
    ∀ (fuel : Nat) (st : LoopState), (compareLoop ctx fuel st).ret = .nil →
      (∀ r ∈ (compareLoop ctx fuel st).out, r.isFinding = false) →
      st.leftStream = st.rightStream := by
  intro fuel
  induction fuel with
  | zero =>
    intro st hret _
    cases hc : (st.k.isSome || st.refK.isSome) with
    | true => simp [compareLoop, hc] at hret
    | false => exact streams_of_not_cond st hc
  | succ fuel ih =>
    intro st hret hout
    cases hc : (st.k.isSome || st.refK.isSome) with
    | false => exact streams_of_not_cond st hc
    | true =>
      cases hb : loopBody ctx st with
      | stop o e => simp [compareLoop, hc, hb] at hret
      | next o st1 =>
        simp only [compareLoop, hc, if_true, hb] at hret hout
        refine loopBody_silent ctx st st1 o hc hb (fun r hr => hout r (List.mem_append_left _ hr)) ?_
        exact ih st1 hret (fun r hr => hout r (List.mem_append_right _ hr))

theorem leftStream_first (c0 : Cursor) (v : Bytes) (refC : Cursor) (refK : Option Bytes)
    (n : Nat) (h : c0.next.1.err = none) :
    (⟨c0.next.1.k, c0.next.1.v, c0.next.2, refK, v, refC, n⟩ : LoopState).leftStream
      = yielded c0 := by
  rw [yielded_next c0 h]; rfl

theorem rightStream_first (c0 : Cursor) (v : Bytes) (c : Cursor) (k : Option Bytes)
    (n : Nat) (h : c0.next.1.err = none) :
    (⟨k, v, c, c0.next.1.k, c0.next.1.v, c0.next.2, n⟩ : LoopState).rightStream
      = yielded c0 := by
  rw [yielded_next c0 h]; rfl

/-- Claim C20. No false negatives: whatever the two cursors return (multi-value
tables included, where a key comes once per value) and whatever the cancellation
signal does, if `compareBuckets` returns `nil` and has printed none of the lines
`Missing in db`, `Missing refDB`, `Different values`, then the two cursors have
yielded the same records in the same order; for two tables read without error,
the tables are equal as lists of records. -/
theorem compareBuckets_no_false_negatives (ctx : Context) (tx refTx : Tx) (b refB : Bytes)
    (hret : (compareBuckets ctx tx b refTx refB).ret = .nil)
    (hout : ∀ r ∈ (compareBuckets ctx tx b refTx refB).out, r.isFinding = false) :
    yieldedBy (tx b) = yieldedBy (refTx refB) ∧
    (∀ as bs : List Record, tx b = .ok (tableCursor as) → refTx refB = .ok (tableCursor bs) →
      as = bs ∧ as.length = bs.length ∧ as.map Prod.fst = bs.map Prod.fst ∧
        as.map Prod.snd = bs.map Prod.snd) := by
  have key : yieldedBy (tx b) = yieldedBy (refTx refB) := by
    rcases compareBuckets_cases ctx tx refTx b refB with ⟨e, _, h⟩ | ⟨c0, e, _, _, h⟩ |
      ⟨c0, e, _, _, _, h⟩ | ⟨c0, refC0, e, _, _, _, _, h⟩ | ⟨c0, refC0, h1, h2, h3, h4, h⟩
    · rw [h] at hret; cases hret
    · rw [h] at hret; cases hret
    · rw [h] at hret; cases hret
    · rw [h] at hret; cases hret
    · rw [h] at hret hout
      have := compareLoop_silent ctx _ _ hret hout
      rw [leftStream_first c0 _ _ _ _ h2, rightStream_first refC0 _ _ _ _ h4] at this
      simp only [yieldedBy, h1, h3, this]
  refine ⟨key, ?_⟩
  intro as bs h1 h2
  have hab : as = bs := by
    simpa [yieldedBy, h1, h2, yielded_tableCursor] using key
  subst hab
  exact ⟨rfl, rfl, rfl, rfl⟩

theorem compareBuckets_no_false_negatives_witness :
    yieldedBy (cursorTx [⟨some (str "a"), str "1", none⟩, ⟨some (str "a"), str "2", none⟩,
        ⟨none, [], none⟩, ⟨some (str "z"), str "9", none⟩] (str "T"))
      = yieldedBy (tableTx [(str "a", str "1"), (str "a", str "2")] (str "T")) :=
  (compareBuckets_no_false_negatives ⟨fun _ => true, .canceled⟩
    (cursorTx [⟨some (str "a"), str "1", none⟩, ⟨some (str "a"), str "2", none⟩,
      ⟨none, [], none⟩, ⟨some (str "z"), str "9", none⟩])
    (tableTx [(str "a", str "1"), (str "a", str "2")])
    (str "T") (str "T") (by decide) (by decide)).1

/-! ## Termination -/

/-- Claim C15. The function `compareBuckets` returns on all finite cursors, and
its loop stops exactly when both keys are `nil`: the default branch of the
switch is never taken (no line `Unexpected result` is printed), every pass whose
loop condition holds calls `Next` on the right cursor, on the left one, or on
both, and leaves less for the cursors to hand out, so the passes are at most as
many as the results of the two cursors; on two tables read without error they
are at most the sum of the record counts and, when the function returns `nil`
(which it does unless cancelled), at least the larger of them. -/
theorem compareBuckets_terminates (ctx : Context) (tx refTx : Tx) (b refB : Bytes) :
    (compareBuckets ctx tx b refTx refB).ret ≠ .outOfFuel ∧
    (∀ n, Report.unexpected n ∉ (compareBuckets ctx tx b refTx refB).out) ∧
    (∀ c0 refC0, tx b = .ok c0 → refTx refB = .ok refC0 →
      (compareBuckets ctx tx b refTx refB).count ≤ c0.length + refC0.length) ∧
    (∀ as bs : List Record, tx b = .ok (tableCursor as) → refTx refB = .ok (tableCursor bs) →
      (compareBuckets ctx tx b refTx refB).count ≤ as.length + bs.length ∧
      ((compareBuckets ctx tx b refTx refB).ret = .nil →
        max as.length bs.length ≤ (compareBuckets ctx tx b refTx refB).count) ∧
      ((∀ n, ctx.done n = false) → (compareBuckets ctx tx b refTx refB).ret = .nil)) ∧
    (∀ st : LoopState, (st.k.isSome || st.refK.isSome) = true →
      ∃ o, classify st = advanceRight o st ∨ classify st = advanceLeft o st ∨
        classify st = advanceBoth o st) ∧
    (∀ (st st1 : LoopState) (o : List Report), (st.k.isSome || st.refK.isSome) = true →
      loopBody ctx st = .next o st1 →
      st1.remaining < st.remaining ∧ st1.count = st.count + 1) ∧
    (∀ (fuel : Nat) (st : LoopState), (st.k.isSome || st.refK.isSome) = false →
      compareLoop ctx fuel st = ⟨[], .nil, st.count⟩) ∧
    (∀ (fuel : Nat) (st : LoopState), (st.k.isSome || st.refK.isSome) = true →
      st.remaining ≤ fuel + 1 → st.count + 1 ≤ (compareLoop ctx (fuel + 1) st).count) := by
  have hrun : (compareBuckets ctx tx b refTx refB).ret ≠ .outOfFuel ∧
      (∀ r ∈ (compareBuckets ctx tx b refTx refB).out, r.isFinding = true ∨ ∃ n, r = .compared n) ∧
      (∀ c0 refC0, tx b = .ok c0 → refTx refB = .ok refC0 →
        (compareBuckets ctx tx b refTx refB).count ≤ c0.length + refC0.length) := by
    rcases compareBuckets_cases ctx tx refTx b refB with ⟨e, _, h⟩ | ⟨c0, e, _, _, h⟩ |
      ⟨c0, e, _, _, _, h⟩ | ⟨c0, refC0, e, _, _, _, _, h⟩ | ⟨c0, refC0, h1, h2, h3, h4, h⟩
    · rw [h]; simp
    · rw [h]; simp
    · rw [h]; simp
    · rw [h]; simp
    · rw [h]
      obtain ⟨i1, i2, _, i4⟩ := compareLoop_total ctx _ _ (remaining_first c0 refC0)
      refine ⟨i1, i2, ?_⟩
      intro c1 refC1 e1 e2
      rw [h1] at e1; rw [h3] at e2
      cases e1; cases e2
      have := remaining_first c0 refC0
      simp only [Nat.zero_add] at i4
      omega
  refine ⟨hrun.1, ?_, hrun.2.2, ?_, ?_, ?_, ?_, ?_⟩
  · intro n hn
    rcases hrun.2.1 _ hn with h | ⟨m, h⟩
    · simp [Report.isFinding] at h
    · cases h
  · intro as bs h1 h2
    have hlen := hrun.2.2 _ _ h1 h2
    simp only [tableCursor, List.length_map] at hlen
    refine ⟨hlen, ?_, ?_⟩
    · intro hret
      rw [compareBuckets_tables ctx tx refTx b refB as bs h1 h2] at hret ⊢
      have := ((compareLoop_table_any ctx _ as bs 0 (le_refl _)).2 hret).2.1
      omega
    · intro hctx
      exact (compareBuckets_table ctx hctx tx refTx b refB as bs h1 h2).1
  · intro st h
    obtain ⟨o, _, h1⟩ := classify_cases st h
    rcases h1 with ⟨_, h1⟩ | ⟨_, h1⟩ | ⟨_, _, h1⟩
    · exact ⟨o, Or.inl h1⟩
    · exact ⟨o, Or.inr (Or.inl h1)⟩
    · exact ⟨o, Or.inr (Or.inr h1)⟩
  · intro st st1 o h hb
    obtain ⟨h1, h2, _⟩ := loopBody_next ctx st st1 o h hb
    exact ⟨h1, h2⟩
  · intro fuel st h
    cases fuel <;> simp [compareLoop, h]
  · intro fuel st h hrem
    cases hb : loopBody ctx st with
    | stop o e => simp [compareLoop, h, hb]
    | next o st1 =>
      obtain ⟨h1, h2, _⟩ := loopBody_next ctx st st1 o h hb
      obtain ⟨_, _, i3, _⟩ := compareLoop_total ctx fuel st1 (by omega)
      simp only [compareLoop, h, if_true, hb]
      omega

theorem compareBuckets_terminates_witness :
    (compareBuckets ⟨fun _ => false, .canceled⟩
        (tableTx [(str "a", str "1"), (str "c", str "3")]) (str "T")
        (tableTx [(str "b", str "2"), (str "c", str "3"), (str "d", str "4")]) (str "T")).count
      ≤ 2 + 3 ∧
    ((compareBuckets ⟨fun _ => false, .canceled⟩
        (tableTx [(str "a", str "1"), (str "c", str "3")]) (str "T")
        (tableTx [(str "b", str "2"), (str "c", str "3"), (str "d", str "4")]) (str "T")).ret
        = .nil →
      max 2 3 ≤ (compareBuckets ⟨fun _ => false, .canceled⟩
        (tableTx [(str "a", str "1"), (str "c", str "3")]) (str "T")
        (tableTx [(str "b", str "2"), (str "c", str "3"), (str "d", str "4")]) (str "T")).count) ∧
    ((∀ n, (⟨fun _ => false, .canceled⟩ : Context).done n = false) →
      (compareBuckets ⟨fun _ => false, .canceled⟩
        (tableTx [(str "a", str "1"), (str "c", str "3")]) (str "T")
        (tableTx [(str "b", str "2"), (str "c", str "3"), (str "d", str "4")]) (str "T")).ret
        = .nil) :=
  (compareBuckets_terminates ⟨fun _ => false, .canceled⟩
    (tableTx [(str "a", str "1"), (str "c", str "3")])
    (tableTx [(str "b", str "2"), (str "c", str "3"), (str "d", str "4")])
    (str "T") (str "T")).2.2.2.1
    [(str "a", str "1"), (str "c", str "3")]
    [(str "b", str "2"), (str "c", str "3"), (str "d", str "4")] rfl rfl

/-! ## Cancellation -/

theorem compareLoop_count_ge (ctx : Context) :
    ∀ (fuel : Nat) (st : LoopState), st.count ≤ (compareLoop ctx fuel st).count := by
  intro fuel
  induction fuel with
  | zero => intro st; simp only [compareLoop]; split <;> exact le_refl _
  | succ fuel ih =>
    intro st
    cases hc : (st.k.isSome || st.refK.isSome) with
    | false => simp [compareLoop, hc]
    | true =>
      cases hb : loopBody ctx st with
      | stop o e => simp [compareLoop, hc, hb]
      | next o st1 =>
        obtain ⟨_, h2, _⟩ := loopBody_next ctx st st1 o hc hb
        have := ih st1
        simp only [compareLoop, hc, if_true, hb]
        omega

theorem compareLoop_count_succ (ctx : Context) (fuel : Nat) (st : LoopState)
    (hc : (st.k.isSome || st.refK.isSome) = true) :
    st.count + 1 ≤ (compareLoop ctx (fuel + 1) st).count := by
  cases hb : loopBody ctx st with
  | stop o e => simp [compareLoop, hc, hb]
  | next o st1 =>
    obtain ⟨_, h2, _⟩ := loopBody_next ctx st st1 o hc hb
    have := compareLoop_count_ge ctx fuel st1
    simp only [compareLoop, hc, if_true, hb]
    omega

/-- A pass whose count is not a multiple of 10,000,000 does not look at the
context. -/
theorem loopBody_quiet (ctx : Context) (st : LoopState) (h : st.polls = false) :
    loopBody ctx st = classify { st with count := st.count + 1 } := by
  simp only [LoopState.polls, decide_eq_false_iff_not] at h
  simp [loopBody, h]

/-- A pass whose count is a multiple of 10,000,000 and that finds the context
done returns the error of the context, having printed nothing. -/
theorem loopBody_cancelled (ctx : Context) (st : LoopState) (h : st.polls = true)
    (hd : ctx.done (st.count + 1) = true) : loopBody ctx st = .stop [] ctx.err := by
  simp only [LoopState.polls, decide_eq_true_eq] at h
  simp [loopBody, h, hd]

/-- A pass whose count is a multiple of 10,000,000 and that finds the context
not done prints the progress notice and then classifies. -/
theorem loopBody_progress (ctx : Context) (st : LoopState) (h : st.polls = true)
    (hd : ctx.done (st.count + 1) = false) :
    loopBody ctx st
      = match classify { st with count := st.count + 1 } with
        | .next o st1 => .next (.compared (st.count + 1) :: o) st1
        | .stop o e => .stop (.compared (st.count + 1) :: o) e := by
  simp only [LoopState.polls, decide_eq_true_eq] at h
  simp only [loopBody, h, hd, if_true]
  rfl

theorem loopBody_congr (ctx ctx2 : Context) (herr : ctx.err = ctx2.err) (st : LoopState)
    (h : st.polls = true → ctx.done (st.count + 1) = ctx2.done (st.count + 1)) :
    loopBody ctx st = loopBody ctx2 st := by
  cases hp : st.polls with
  | false => rw [loopBody_quiet ctx st hp, loopBody_quiet ctx2 st hp]
  | true =>
    have hd := h hp
    cases hd1 : ctx.done (st.count + 1) with
    | true =>
      rw [loopBody_cancelled ctx st hp hd1, loopBody_cancelled ctx2 st hp (hd ▸ hd1), herr]
    | false =>
      rw [loopBody_progress ctx st hp hd1, loopBody_progress ctx2 st hp (hd ▸ hd1)]

/-- Two contexts with the same error that agree on `Done` at the counts of the
passes a run makes that are multiples of 10,000,000 give the same run. -/
theorem compareLoop_ctx_congr (ctx ctx2 : Context) (herr : ctx.err = ctx2.err) :
    ∀ (fuel : Nat) (st : LoopState),
      (∀ n, n % 10000000 = 0 → st.count < n → n ≤ (compareLoop ctx fuel st).count →
        ctx.done n = ctx2.done n) →
      compareLoop ctx fuel st = compareLoop ctx2 fuel st := by
  intro fuel
  induction fuel with
  | zero => intro st _; simp [compareLoop]
  | succ fuel ih =>
    intro st h
    cases hc : (st.k.isSome || st.refK.isSome) with
    | false => simp [compareLoop, hc]
    | true =>
      have hcnt := compareLoop_count_succ ctx fuel st hc
      have hb : loopBody ctx st = loopBody ctx2 st := by
        apply loopBody_congr ctx ctx2 herr
        intro hp
        simp only [LoopState.polls, decide_eq_true_eq] at hp
        exact h _ hp (by omega) hcnt
      cases hb1 : loopBody ctx st with
      | stop o e =>
        have hb2 := hb ▸ hb1
        simp only [compareLoop, hc, if_true, hb1, hb2]
      | next o st1 =>
        have hb2 := hb ▸ hb1
        obtain ⟨_, h2, _⟩ := loopBody_next ctx st st1 o hc hb1
        have hrun : (compareLoop ctx (fuel + 1) st).count = (compareLoop ctx fuel st1).count := by
          simp only [compareLoop, hc, if_true, hb1]
        simp only [compareLoop, hc, if_true, hb1, hb2]
        rw [ih st1 (fun n hn h3 h4 => h n hn (by omega) (by omega))]

/-- The same for the whole function. -/
theorem compareBuckets_ctx_congr (ctx ctx2 : Context) (herr : ctx.err = ctx2.err)
    (tx refTx : Tx) (b refB : Bytes)
    (h : ∀ n, n % 10000000 = 0 → 0 < n → n ≤ (compareBuckets ctx tx b refTx refB).count →
      ctx.done n = ctx2.done n) :
    compareBuckets ctx tx b refTx refB = compareBuckets ctx2 tx b refTx refB := by
  rcases compareBuckets_cases ctx tx refTx b refB with ⟨e, h1, _⟩ | ⟨c0, e, h1, h2, _⟩ |
    ⟨c0, e, h1, h2, h3, _⟩ | ⟨c0, refC0, e, h1, h2, h3, h4, _⟩ | ⟨c0, refC0, h1, h2, h3, h4, hl⟩
  · simp [compareBuckets, h1]
  · simp [compareBuckets, h1, h2]
  · simp [compareBuckets, h1, h2, h3]
  · simp [compareBuckets, h1, h2, h3, h4]
  · rw [hl] at h
    rw [hl, compareBuckets_loop ctx2 tx refTx b refB c0 refC0 h1 h2 h3 h4]
    exact compareLoop_ctx_congr ctx ctx2 herr _ _ h

/-- Claim C18. The function `compareBuckets` looks at the cancellation signal
only in passes whose count is a multiple of 10,000,000: two contexts that agree
there give the same run; in such a pass, a context that is done makes the
function return the error of the context with nothing printed for the pass, and
one that is not done makes it print `Compared count records` before the pass
goes on; any other pass ignores the context.  So a comparison that makes fewer
than 10,000,000 passes runs as if never cancelled, and on two tables with fewer
than 10,000,000 records together it returns `nil` with the full report even
under a context done from the start. -/
theorem compareBuckets_polls_cancellation (ctx : Context) (tx refTx : Tx) (b refB : Bytes) :
    (∀ ctx2 : Context, ctx2.err = ctx.err →
      (∀ n, 0 < n → n % 10000000 = 0 → ctx2.done n = ctx.done n) →
      compareBuckets ctx2 tx b refTx refB = compareBuckets ctx tx b refTx refB) ∧
    (∀ (fuel : Nat) (st : LoopState), (st.k.isSome || st.refK.isSome) = true →
      st.polls = true → ctx.done (st.count + 1) = true →
      compareLoop ctx (fuel + 1) st = ⟨[], .err ctx.err, st.count + 1⟩) ∧
    (∀ st : LoopState, st.polls = true → ctx.done (st.count + 1) = false →
      loopBody ctx st
        = match classify { st with count := st.count + 1 } with
          | .next o st1 => .next (.compared (st.count + 1) :: o) st1
          | .stop o e => .stop (.compared (st.count + 1) :: o) e) ∧
    (∀ st : LoopState, st.polls = false →
      loopBody ctx st = classify { st with count := st.count + 1 }) ∧
    ((compareBuckets ⟨fun _ => false, ctx.err⟩ tx b refTx refB).count < 10000000 →
      compareBuckets ctx tx b refTx refB
        = compareBuckets ⟨fun _ => false, ctx.err⟩ tx b refTx refB) ∧
    (∀ as bs : List Record, tx b = .ok (tableCursor as) → refTx refB = .ok (tableCursor bs) →
      as.length + bs.length < 10000000 →
      (compareBuckets ctx tx b refTx refB).ret = .nil ∧
      divergences (compareBuckets ctx tx b refTx refB).out = mergeReports as bs) := by
  have hsmall : (compareBuckets ⟨fun _ => false, ctx.err⟩ tx b refTx refB).count < 10000000 →
      compareBuckets ctx tx b refTx refB
        = compareBuckets ⟨fun _ => false, ctx.err⟩ tx b refTx refB := by
    intro hlt
    symm
    apply compareBuckets_ctx_congr ⟨fun _ => false, ctx.err⟩ ctx rfl
    intro n hn hpos hle
    omega
  refine ⟨?_, ?_, ?_, ?_, hsmall, ?_⟩
  · intro ctx2 herr h
    exact compareBuckets_ctx_congr ctx2 ctx herr tx refTx b refB
      (fun n hn hpos _ => h n hpos hn)
  · intro fuel st hc hp hd
    simp only [compareLoop, hc, if_true, loopBody_cancelled ctx st hp hd]
  · intro st hp hd
    exact loopBody_progress ctx st hp hd
  · intro st hp
    exact loopBody_quiet ctx st hp
  · intro as bs h1 h2 hlen
    have h0 := compareBuckets_table ⟨fun _ => false, ctx.err⟩ (fun _ => rfl) tx refTx b refB
      as bs h1 h2
    have hcnt : (compareBuckets ⟨fun _ => false, ctx.err⟩ tx b refTx refB).count
        < 10000000 := by
      rw [compareBuckets_tables _ tx refTx b refB as bs h1 h2]
      have := ((compareLoop_table_any ⟨fun _ => false, ctx.err⟩ _ as bs 0 (le_refl _)).2
        (by rw [← compareBuckets_tables _ tx refTx b refB as bs h1 h2]; exact h0.1)).2.2
      omega
    rw [hsmall hcnt]
    exact h0

theorem compareBuckets_polls_cancellation_witness :
    (compareBuckets ⟨fun _ => true, .canceled⟩
        (tableTx [(str "a", str "1"), (str "c", str "3")]) (str "T")
        (tableTx [(str "b", str "2")]) (str "T")).ret = .nil ∧
    divergences (compareBuckets ⟨fun _ => true, .canceled⟩
        (tableTx [(str "a", str "1"), (str "c", str "3")]) (str "T")
        (tableTx [(str "b", str "2")]) (str "T")).out
      = mergeReports [(str "a", str "1"), (str "c", str "3")] [(str "b", str "2")] :=
  (compareBuckets_polls_cancellation ⟨fun _ => true, .canceled⟩
    (tableTx [(str "a", str "1"), (str "c", str "3")]) (tableTx [(str "b", str "2")])
    (str "T") (str "T")).2.2.2.2.2
    [(str "a", str "1"), (str "c", str "3")] [(str "b", str "2")] rfl rfl (by decide)

/-! ## What follows the end of a cursor has no effect -/

theorem next_uptoStop (c : Cursor) :
    (uptoStop c).next.1 = c.next.1 ∧
    (uptoStop c).next.2
      = if c.next.1.err.isSome || c.next.1.k.isNone then [] else uptoStop c.next.2 := by
  cases c with
  | nil => simp [uptoStop, Cursor.next, Step.eof]
  | cons s rest =>
    cases h : (s.err.isSome || s.k.isNone) with
    | true => simp [uptoStop, Cursor.next, h]
    | false => simp [uptoStop, Cursor.next, h]

theorem uptoStop_length (c : Cursor) : (uptoStop c).length ≤ c.length := by
  induction c with
  | nil => simp [uptoStop]
  | cons s rest ih =>
    simp only [uptoStop]
    split
    · simp
    · simp only [List.length_cons]; omega

theorem uptoStop_uptoFirstFailure (c : Cursor) : uptoStop (uptoFirstFailure c) = uptoStop c := by
  induction c with
  | nil => rfl
  | cons s rest ih =>
    simp only [uptoFirstFailure]
    cases he : s.err.isSome with
    | true => simp [uptoStop, he]
    | false => simp [uptoStop, he, ih]

theorem next_uptoFirstFailure (c : Cursor) : (uptoFirstFailure c).next.1 = c.next.1 := by
  cases c with
  | nil => rfl
  | cons s rest =>
    cases h : s.err.isSome with
    | true => simp [uptoFirstFailure, Cursor.next, h]
    | false => simp [uptoFirstFailure, Cursor.next, h]

theorem advanceLeft_sim (o : List Report) (st st2 : LoopState) (h : StSim st st2)
    (hk : st.k ≠ none) : IterSim (advanceLeft o st) (advanceLeft o st2) := by
  obtain ⟨h1, h2, h3, h4, h5, h6, h7⟩ := h
  have hc : st2.c = uptoStop st.c := by
    rcases h6 with h6 | h6
    · exact absurd h6 hk
    · exact h6
  obtain ⟨n1, n2⟩ := next_uptoStop st.c
  rcases advanceLeft_cases o st with ⟨e, he, hs⟩ | ⟨he, hs⟩
  · rcases advanceLeft_cases o st2 with ⟨e2, he2, hs2⟩ | ⟨he2, hs2⟩
    · rw [hs, hs2]
      rw [hc, n1, he] at he2
      cases he2
      exact ⟨rfl, rfl⟩
    · rw [hc, n1, he] at he2; cases he2
  · rcases advanceLeft_cases o st2 with ⟨e2, he2, hs2⟩ | ⟨he2, hs2⟩
    · rw [hc, n1, he] at he2; cases he2
    · rw [hs, hs2]
      refine ⟨rfl, ?_, ?_, h3, h4, h5, ?_, h7⟩
      · simp only [hc, n1]
      · simp only [hc, n1]
      · simp only [hc, n2, he]
        cases hkk : st.c.next.1.k with
        | none => left; rfl
        | some k => right; simp

theorem advanceRight_sim (o : List Report) (st st2 : LoopState) (h : StSim st st2)
    (hk : st.refK ≠ none) : IterSim (advanceRight o st) (advanceRight o st2) := by
  obtain ⟨h1, h2, h3, h4, h5, h6, h7⟩ := h
  have hc : st2.refC = uptoStop st.refC := by
    rcases h7 with h7 | h7
    · exact absurd h7 hk
    · exact h7
  obtain ⟨n1, n2⟩ := next_uptoStop st.refC
  rcases advanceRight_cases o st with ⟨e, he, hs⟩ | ⟨he, hs⟩
  · rcases advanceRight_cases o st2 with ⟨e2, he2, hs2⟩ | ⟨he2, hs2⟩
    · rw [hs, hs2]
      rw [hc, n1, he] at he2
      cases he2
      exact ⟨rfl, rfl⟩
    · rw [hc, n1, he] at he2; cases he2
  · rcases advanceRight_cases o st2 with ⟨e2, he2, hs2⟩ | ⟨he2, hs2⟩
    · rw [hc, n1, he] at he2; cases he2
    · rw [hs, hs2]
      refine ⟨rfl, h1, h2, ?_, ?_, h5, h6, ?_⟩
      · simp only [hc, n1]
      · simp only [hc, n1]
      · simp only [hc, n2, he]
        cases hkk : st.refC.next.1.k with
        | none => left; rfl
        | some k => right; simp

theorem advanceBoth_sim (o : List Report) (st st2 : LoopState) (h : StSim st st2)
    (hk : st.k ≠ none) (hr : st.refK ≠ none) :
    IterSim (advanceBoth o st) (advanceBoth o st2) := by
  have hl := advanceLeft_sim o st st2 h hk
  unfold advanceBoth
  cases h1 : advanceLeft o st with
  | stop o1 e1 =>
    cases h2 : advanceLeft o st2 with
    | stop o2 e2 => rw [h1, h2] at hl; exact hl
    | next o2 st3 => rw [h1, h2] at hl; exact hl.elim
  | next o1 st1 =>
    cases h2 : advanceLeft o st2 with
    | stop o2 e2 => rw [h1, h2] at hl; exact hl.elim
    | next o2 st3 =>
      rw [h1, h2] at hl
      obtain ⟨ho, hs⟩ := hl
      subst ho
      obtain ⟨_, _, hst1⟩ := advanceLeft_next _ _ _ _ h1
      have hr1 : st1.refK ≠ none := by rw [hst1]; exact hr
      exact advanceRight_sim o1 st1 st3 hs hr1

theorem classify_sim (st st2 : LoopState) (h : StSim st st2)
    (hcond : (st.k.isSome || st.refK.isSome) = true) :
    IterSim (classify st) (classify st2) := by
  have h0 := h
  obtain ⟨h1, h2, h3, h4, _, _, _⟩ := h
  unfold classify
  rw [h1, h2, h3, h4]
  cases hk : st.k with
  | none =>
    cases hr : st.refK with
    | none => simp [hk, hr] at hcond
    | some refK => exact advanceRight_sim _ st st2 h0 (by simp [hr])
  | some k =>
    cases hr : st.refK with
    | none => exact advanceLeft_sim _ st st2 h0 (by simp [hk])
    | some refK =>
      rcases bytesCompare_cases k refK with hc | hc | hc
      · simp only [hc, if_true]
        exact advanceLeft_sim _ st st2 h0 (by simp [hk])
      · have hne1 : ¬ ((0 : Int) = -1) := by decide
        have hne2 : ¬ ((0 : Int) = 1) := by decide
        simp only [hc, hne1, hne2, if_true, if_false]
        exact advanceBoth_sim _ st st2 h0 (by simp [hk]) (by simp [hr])
      · have hne : ¬ ((1 : Int) = -1) := by decide
        simp only [hc, hne, if_true, if_false]
        exact advanceRight_sim _ st st2 h0 (by simp [hr])

theorem StSim.count_succ (st st2 : LoopState) (h : StSim st st2) :
    StSim { st with count := st.count + 1 } { st2 with count := st2.count + 1 } := by
  obtain ⟨h1, h2, h3, h4, h5, h6, h7⟩ := h
  exact ⟨h1, h2, h3, h4, by simp only [h5], h6, h7⟩

theorem loopBody_sim (ctx : Context) (st st2 : LoopState) (h : StSim st st2)
    (hcond : (st.k.isSome || st.refK.isSome) = true) :
    IterSim (loopBody ctx st) (loopBody ctx st2) := by
  have hs := classify_sim _ _ (StSim.count_succ st st2 h) hcond
  have h5 : st2.count = st.count := h.2.2.2.2.1
  cases hp : st.polls with
  | false =>
    have hp2 : st2.polls = false := by simpa [LoopState.polls, h5] using hp
    rw [loopBody_quiet ctx st hp, loopBody_quiet ctx st2 hp2]
    exact hs
  | true =>
    have hp2 : st2.polls = true := by simpa [LoopState.polls, h5] using hp
    cases hd : ctx.done (st.count + 1) with
    | true =>
      rw [loopBody_cancelled ctx st hp hd, loopBody_cancelled ctx st2 hp2 (by rw [h5]; exact hd)]
      exact ⟨rfl, rfl⟩
    | false =>
      rw [loopBody_progress ctx st hp hd, loopBody_progress ctx st2 hp2 (by rw [h5]; exact hd)]
      cases hc1 : classify { st with count := st.count + 1 } with
      | stop o e =>
        cases hc2 : classify { st2 with count := st2.count + 1 } with
        | stop o2 e2 =>
          rw [hc1, hc2] at hs
          obtain ⟨ho, he⟩ := hs
          subst ho he
          exact ⟨by rw [h5], rfl⟩
        | next o2 st3 => rw [hc1, hc2] at hs; exact hs.elim
      | next o st1 =>
        cases hc2 : classify { st2 with count := st2.count + 1 } with
        | stop o2 e2 => rw [hc1, hc2] at hs; exact hs.elim
        | next o2 st3 =>
          rw [hc1, hc2] at hs
          obtain ⟨ho, hst⟩ := hs
          subst ho
          exact ⟨by rw [h5], hst⟩

/-- The loop gives the same run from two states that differ only in what their
cursors hold after the first failing call or `nil` key. -/
theorem compareLoop_sim (ctx : Context) :
    ∀ (fuel : Nat) (st st2 : LoopState), StSim st st2 →
      compareLoop ctx fuel st = compareLoop ctx fuel st2 := by
  intro fuel
  induction fuel with
  | zero =>
    intro st st2 h
    obtain ⟨h1, _, h3, _, h5, _, _⟩ := h
    simp only [compareLoop, h1, h3, h5]
  | succ fuel ih =>
    intro st st2 h
    have h0 := h
    obtain ⟨h1, _, h3, _, h5, _, _⟩ := h
    cases hc : (st.k.isSome || st.refK.isSome) with
    | false =>
      have hc2 : (st2.k.isSome || st2.refK.isSome) = false := by rw [h1, h3]; exact hc
      simp only [compareLoop, hc, hc2, h5]
      rfl
    | true =>
      have hc2 : (st2.k.isSome || st2.refK.isSome) = true := by rw [h1, h3]; exact hc
      have hs := loopBody_sim ctx st st2 h0 hc
      cases hb1 : loopBody ctx st with
      | stop o e =>
        cases hb2 : loopBody ctx st2 with
        | stop o2 e2 =>
          rw [hb1, hb2] at hs
          obtain ⟨ho, he⟩ := hs
          subst ho he
          simp only [compareLoop, hc, hc2, if_true, hb1, hb2, h5]
        | next o2 st3 => rw [hb1, hb2] at hs; exact hs.elim
      | next o st1 =>
        cases hb2 : loopBody ctx st2 with
        | stop o2 e2 => rw [hb1, hb2] at hs; exact hs.elim
        | next o2 st3 =>
          rw [hb1, hb2] at hs
          obtain ⟨ho, hst⟩ := hs
          subst ho
          simp only [compareLoop, hc, hc2, if_true, hb1, hb2]
          rw [ih st1 st3 hst]

/-- What a cursor would return after its first failing call or `nil` key has no
effect on `compareBuckets`. -/
theorem compareBuckets_uptoStop (ctx : Context) (tx refTx : Tx) (b refB : Bytes)
    (c0 refC0 : Cursor) (h1 : tx b = .ok c0) (h3 : refTx refB = .ok refC0) :
    compareBuckets ctx tx b refTx refB
      = compareBuckets ctx (cursorTx (uptoStop c0)) b (cursorTx (uptoStop refC0)) refB := by
  obtain ⟨n1, n2⟩ := next_uptoStop c0
  obtain ⟨m1, m2⟩ := next_uptoStop refC0
  cases h2 : c0.next.1.err with
  | some e => simp [compareBuckets, h1, h2, cursorTx, n1]
  | none =>
    cases h4 : refC0.next.1.err with
    | some e => simp [compareBuckets, h1, h2, h3, h4, cursorTx, n1, m1]
    | none =>
      rw [compareBuckets_loop ctx tx refTx b refB c0 refC0 h1 h2 h3 h4,
        compareBuckets_loop ctx (cursorTx (uptoStop c0)) (cursorTx (uptoStop refC0)) b refB
          (uptoStop c0) (uptoStop refC0) rfl (by rw [n1]; exact h2) rfl (by rw [m1]; exact h4)]
      have hsim : StSim
          ⟨c0.next.1.k, c0.next.1.v, c0.next.2, refC0.next.1.k, refC0.next.1.v, refC0.next.2, 0⟩
          ⟨(uptoStop c0).next.1.k, (uptoStop c0).next.1.v, (uptoStop c0).next.2,
            (uptoStop refC0).next.1.k, (uptoStop refC0).next.1.v, (uptoStop refC0).next.2, 0⟩ := by
        refine ⟨by simp only [n1], by simp only [n1], by simp only [m1], by simp only [m1], rfl,
          ?_, ?_⟩
        · simp only [n2, h2]
          cases c0.next.1.k with
          | none => left; rfl
          | some k => right; simp
        · simp only [m2, h4]
          cases refC0.next.1.k with
          | none => left; rfl
          | some k => right; simp
      rw [compareLoop_sim ctx _ _ _ hsim]
      have r1 := remaining_first (uptoStop c0) (uptoStop refC0)
      have l1 := uptoStop_length c0
      have l2 := uptoStop_length refC0
      exact compareLoop_fuel ctx _ _ _ (by omega) r1

/-- What a cursor would return after its first failing call has no effect on
`compareBuckets`. -/
theorem compareBuckets_uptoFirstFailure (ctx : Context) (tx refTx : Tx) (b refB : Bytes)
    (c0 refC0 : Cursor) (h1 : tx b = .ok c0) (h3 : refTx refB = .ok refC0) :
    compareBuckets ctx tx b refTx refB
      = compareBuckets ctx (cursorTx (uptoFirstFailure c0)) b
          (cursorTx (uptoFirstFailure refC0)) refB := by
  rw [compareBuckets_uptoStop ctx tx refTx b refB c0 refC0 h1 h3,
    compareBuckets_uptoStop ctx (cursorTx (uptoFirstFailure c0))
      (cursorTx (uptoFirstFailure refC0)) b refB (uptoFirstFailure c0) (uptoFirstFailure refC0)
      rfl rfl,
    uptoStop_uptoFirstFailure, uptoStop_uptoFirstFailure]

/-! ## Failures of cursor calls -/

theorem loopBody_classify_next (ctx : Context) (st st1 : LoopState) (o : List Report)
    (hb : loopBody ctx st = .next o st1) :
    ∃ o2, classify { st with count := st.count + 1 } = .next o2 st1 := by
  cases hp : st.polls with
  | false => rw [loopBody_quiet ctx st hp] at hb; exact ⟨o, hb⟩
  | true =>
    cases hd : ctx.done (st.count + 1) with
    | true => rw [loopBody_cancelled ctx st hp hd] at hb; cases hb
    | false =>
      rw [loopBody_progress ctx st hp hd] at hb
      cases hc : classify { st with count := st.count + 1 } with
      | stop o2 e => rw [hc] at hb; cases hb
      | next o2 st2 => rw [hc] at hb; cases hb; exact ⟨o2, rfl⟩

theorem loopBody_classify_stop (ctx : Context) (st : LoopState) (o : List Report) (e : Error)
    (hb : loopBody ctx st = .stop o e) :
    (st.polls = true ∧ ctx.done (st.count + 1) = true ∧ o = [] ∧ e = ctx.err) ∨
    ∃ o2, classify { st with count := st.count + 1 } = .stop o2 e := by
  cases hp : st.polls with
  | false => rw [loopBody_quiet ctx st hp] at hb; exact Or.inr ⟨o, hb⟩
  | true =>
    cases hd : ctx.done (st.count + 1) with
    | true =>
      rw [loopBody_cancelled ctx st hp hd] at hb; cases hb
      exact Or.inl ⟨rfl, rfl, rfl, rfl⟩
    | false =>
      rw [loopBody_progress ctx st hp hd] at hb
      cases hc : classify { st with count := st.count + 1 } with
      | stop o2 e2 => rw [hc] at hb; cases hb; exact Or.inr ⟨o2, rfl⟩
      | next o2 st2 => rw [hc] at hb; cases hb

theorem firstFailure_of_next_err (c : Cursor) (e : Error) (h : c.next.1.err = some e) :
    firstFailure c = some e := by
  cases c with
  | nil => simp [Cursor.next, Step.eof] at h
  | cons s rest =>
    simp only [Cursor.next] at h
    simp [firstFailure, h]

theorem firstFailure_next (c : Cursor) (h : c.next.1.err = none) :
    firstFailure c.next.2 = firstFailure c := by
  cases c with
  | nil => rfl
  | cons s rest =>
    simp only [Cursor.next] at h
    simp [firstFailure, h, Cursor.next]

/-- A pass that runs to its end has not met a failing call: the first failures
still ahead on the two cursors are the same as before. -/
theorem classify_next_failures (st st1 : LoopState) (o : List Report)
    (h : (st.k.isSome || st.refK.isSome) = true) (hc : classify st = .next o st1) :
    firstFailure st1.c = firstFailure st.c ∧ firstFailure st1.refC = firstFailure st.refC := by
  obtain ⟨o0, _, hcase⟩ := classify_cases st h
  rcases hcase with ⟨_, he⟩ | ⟨_, he⟩ | ⟨_, _, he⟩
  · rw [he] at hc
    obtain ⟨_, h2, h3⟩ := advanceRight_next _ _ _ _ hc
    subst h3
    exact ⟨rfl, firstFailure_next _ h2⟩
  · rw [he] at hc
    obtain ⟨_, h2, h3⟩ := advanceLeft_next _ _ _ _ hc
    subst h3
    exact ⟨firstFailure_next _ h2, rfl⟩
  · rw [he] at hc
    obtain ⟨_, h2, h3, h4⟩ := advanceBoth_next _ _ _ _ hc
    subst h4
    exact ⟨firstFailure_next _ h2, firstFailure_next _ h3⟩

/-- An error returned by the loop is the error of the context, seen done at a
pass whose count is a multiple of 10,000,000, or the first failure of one of
the two cursors. -/
theorem compareLoop_err (ctx : Context) :
    ∀ (fuel : Nat) (st : LoopState) (e : Error), (compareLoop ctx fuel st).ret = .err e →
      (∃ n, 0 < n ∧ n % 10000000 = 0 ∧ ctx.done n = true ∧ e = ctx.err) ∨
      firstFailure st.c = some e ∨ firstFailure st.refC = some e := by
  intro fuel
  induction fuel with
  | zero =>
    intro st e h
    simp only [compareLoop] at h
    split at h <;> cases h
  | succ fuel ih =>
    intro st e h
    cases hc : (st.k.isSome || st.refK.isSome) with
    | false => simp [compareLoop, hc] at h
    | true =>
      cases hb : loopBody ctx st with
      | stop o e1 =>
        simp only [compareLoop, hc, if_true, hb] at h
        cases h
        rcases loopBody_classify_stop ctx st o e hb with ⟨hp, hd, _, he⟩ | ⟨o2, hcl⟩
        · simp only [LoopState.polls, decide_eq_true_eq] at hp
          exact Or.inl ⟨st.count + 1, by omega, hp, hd, he⟩
        · rcases (classify_stop { st with count := st.count + 1 } o2 e hc hcl).1 with h1 | h1
          · exact Or.inr (Or.inl (firstFailure_of_next_err _ _ h1))
          · exact Or.inr (Or.inr (firstFailure_of_next_err _ _ h1))
      | next o st1 =>
        simp only [compareLoop, hc, if_true, hb] at h
        obtain ⟨o2, hcl⟩ := loopBody_classify_next ctx st st1 o hb
        obtain ⟨f1, f2⟩ := classify_next_failures { st with count := st.count + 1 } st1 o2 hc hcl
        rcases ih st1 e h with h1 | h1 | h1
        · exact Or.inl h1
        · exact Or.inr (Or.inl (by rw [← h1, f1]))
        · exact Or.inr (Or.inr (by rw [← h1, f2]))

theorem advanceLeft_of_err (o : List Report) (st : LoopState) (e : Error)
    (h : st.c.next.1.err = some e) : advanceLeft o st = .stop o e := by
  rcases advanceLeft_cases o st with ⟨e1, h1, h2⟩ | ⟨h1, _⟩
  · rw [h] at h1; cases h1; exact h2
  · rw [h] at h1; cases h1

theorem advanceRight_of_err (o : List Report) (st : LoopState) (e : Error)
    (h : st.refC.next.1.err = some e) : advanceRight o st = .stop o e := by
  rcases advanceRight_cases o st with ⟨e1, h1, h2⟩ | ⟨h1, _⟩
  · rw [h] at h1; cases h1; exact h2
  · rw [h] at h1; cases h1

theorem advanceBoth_of_err (o : List Report) (st : LoopState) (e : Error)
    (h : (match st.c.next.1.err with
          | some e => some e
          | none => st.refC.next.1.err) = some e) : advanceBoth o st = .stop o e := by
  unfold advanceBoth
  rcases advanceLeft_cases o st with ⟨e1, h1, h2⟩ | ⟨h1, h2⟩
  · rw [h1] at h; cases h; rw [h2]
  · rw [h1] at h
    rw [h2]
    exact advanceRight_of_err _ _ e h

theorem advanceLeft_of_ok (o : List Report) (st : LoopState) (h : st.c.next.1.err = none) :
    ∃ st1, advanceLeft o st = .next o st1 := by
  rcases advanceLeft_cases o st with ⟨e1, h1, _⟩ | ⟨_, h2⟩
  · rw [h] at h1; cases h1
  · exact ⟨_, h2⟩

theorem advanceRight_of_ok (o : List Report) (st : LoopState) (h : st.refC.next.1.err = none) :
    ∃ st1, advanceRight o st = .next o st1 := by
  rcases advanceRight_cases o st with ⟨e1, h1, _⟩ | ⟨_, h2⟩
  · rw [h] at h1; cases h1
  · exact ⟨_, h2⟩

theorem advanceBoth_of_ok (o : List Report) (st : LoopState)
    (h : (match st.c.next.1.err with
          | some e => some e
          | none => st.refC.next.1.err) = none) : ∃ st1, advanceBoth o st = .next o st1 := by
  unfold advanceBoth
  rcases advanceLeft_cases o st with ⟨e1, h1, _⟩ | ⟨h1, h2⟩
  · rw [h1] at h; cases h
  · rw [h1] at h
    rw [h2]
    exact advanceRight_of_ok _ _ h

/-- The classification by the call it makes and the lines printed before it. -/
theorem classify_shape (st : LoopState) :
    classify st
      = match st.k, st.refK with
        | none, _ => advanceRight (passReport st) st
        | some _, none => advanceLeft (passReport st) st
        | some k, some refK =>
          if bytesCompare k refK = -1 then advanceLeft (passReport st) st
          else if bytesCompare k refK = 1 then advanceRight (passReport st) st
          else if bytesCompare k refK = 0 then advanceBoth (passReport st) st
          else .next (passReport st) st := by
  unfold classify passReport
  cases hk : st.k with
  | none => rfl
  | some k =>
    cases hr : st.refK with
    | none => rfl
    | some refK =>
      simp only
      rcases bytesCompare_cases k refK with hc | hc | hc
      · simp [hc]
      · simp [hc, advanceBoth]; try rfl
      · simp [hc]

/-- A pass in which a call of `Next` fails returns the error of that call,
having printed what the pass prints before the call, and nothing else. -/
theorem classify_of_passFailure (st : LoopState) (e : Error) (h : passFailure st = some e) :
    classify st = .stop (passReport st) e := by
  rw [classify_shape]
  unfold passFailure at h
  cases hk : st.k with
  | none =>
    rw [hk] at h
    exact advanceRight_of_err _ st e h
  | some k =>
    cases hr : st.refK with
    | none =>
      rw [hk, hr] at h
      exact advanceLeft_of_err _ st e h
    | some refK =>
      rw [hk, hr] at h
      simp only at h ⊢
      rcases bytesCompare_cases k refK with hc | hc | hc
      · simp only [hc, if_true] at h ⊢
        exact advanceLeft_of_err _ st e h
      · have hne1 : ¬ ((0 : Int) = -1) := by decide
        have hne2 : ¬ ((0 : Int) = 1) := by decide
        simp only [hc, hne1, hne2, if_false, if_true] at h ⊢
        exact advanceBoth_of_err _ st e h
      · have hne : ¬ ((1 : Int) = -1) := by decide
        simp only [hc, hne, if_true, if_false] at h ⊢
        exact advanceRight_of_err _ st e h

/-- A pass in which no call of `Next` fails runs to its end, having printed what
the pass prints before its calls. -/
theorem classify_of_no_passFailure (st : LoopState) (h : passFailure st = none) :
    ∃ st1, classify st = .next (passReport st) st1 := by
  rw [classify_shape]
  unfold passFailure at h
  cases hk : st.k with
  | none =>
    rw [hk] at h
    exact advanceRight_of_ok _ st h
  | some k =>
    cases hr : st.refK with
    | none =>
      rw [hk, hr] at h
      exact advanceLeft_of_ok _ st h
    | some refK =>
      rw [hk, hr] at h
      simp only at h ⊢
      rcases bytesCompare_cases k refK with hc | hc | hc
      · simp only [hc, if_true] at h ⊢
        exact advanceLeft_of_ok _ st h
      · have hne1 : ¬ ((0 : Int) = -1) := by decide
        have hne2 : ¬ ((0 : Int) = 1) := by decide
        simp only [hc, hne1, hne2, if_false, if_true] at h ⊢
        exact advanceBoth_of_ok _ st h
      · have hne : ¬ ((1 : Int) = -1) := by decide
        simp only [hc, hne, if_true, if_false] at h ⊢
        exact advanceRight_of_ok _ st h

/-- A pass of the loop in which a call of `Next` fails, and that is not
cancelled, ends the function with the error of the call, the count of the pass
and the lines of the pass printed before the call. -/
theorem compareLoop_of_passFailure (ctx : Context) (fuel : Nat) (st : LoopState) (e : Error)
    (hcond : (st.k.isSome || st.refK.isSome) = true) (h : passFailure st = some e)
    (hd : st.polls = true → ctx.done (st.count + 1) = false) :
    compareLoop ctx (fuel + 1) st
      = ⟨(if st.polls then [.compared (st.count + 1)] else []) ++ passReport st, .err e,
          st.count + 1⟩ := by
  have hpf : passFailure { st with count := st.count + 1 } = some e := h
  have hcl := classify_of_passFailure { st with count := st.count + 1 } e hpf
  have hrep : passReport { st with count := st.count + 1 } = passReport st := rfl
  rw [hrep] at hcl
  cases hp : st.polls with
  | false =>
    simp only [compareLoop, hcond, if_true, loopBody_quiet ctx st hp, hcl]
    simp
  | true =>
    simp only [compareLoop, hcond, if_true, loopBody_progress ctx st hp (hd hp), hcl]
    simp

theorem compareBuckets_total (ctx : Context) (tx refTx : Tx) (b refB : Bytes) :
    (compareBuckets ctx tx b refTx refB).ret ≠ .outOfFuel := by
  rcases compareBuckets_cases ctx tx refTx b refB with ⟨e, _, h⟩ | ⟨c0, e, _, _, h⟩ |
    ⟨c0, e, _, _, _, h⟩ | ⟨c0, refC0, e, _, _, _, _, h⟩ | ⟨c0, refC0, _, _, _, _, h⟩
  · rw [h]; simp
  · rw [h]; simp
  · rw [h]; simp
  · rw [h]; simp
  · rw [h]; exact (compareLoop_total ctx _ _ (remaining_first c0 refC0)).1

theorem firstFailure_uptoStop (c : Cursor) (e : Error) (h : firstFailure (uptoStop c) = some e) :
    firstFailure c = some e := by
  induction c with
  | nil => simp [uptoStop, firstFailure] at h
  | cons s rest ih =>
    cases he : s.err with
    | some e1 =>
      simp only [uptoStop, he, Option.isSome_some, Bool.true_or, if_true, firstFailure] at h ⊢
      exact h
    | none =>
      cases hk : s.k with
      | none => simp [uptoStop, he, hk, firstFailure] at h
      | some k =>
        simp only [uptoStop, he, hk, Option.isSome_none, Option.isNone_some, Bool.or_self,
          Bool.false_eq_true, if_false, firstFailure] at h ⊢
        exact ih h

/-- A cursor whose first call succeeds fails before its first `nil` key only if
what is left of it does. -/
theorem firstFailure_uptoStop_next (c : Cursor) (h : c.next.1.err = none)
    (h2 : c.next.1.k = none ∨ firstFailure (uptoStop c.next.2) = none) :
    firstFailure (uptoStop c) = none := by
  cases c with
  | nil => rfl
  | cons s rest =>
    simp only [Cursor.next] at h h2
    cases hk : s.k with
    | none => simp [uptoStop, h, hk, firstFailure]
    | some k =>
      rw [hk] at h2
      rcases h2 with h2 | h2
      · cases h2
      · simp [uptoStop, h, hk, firstFailure, h2]

/-- What a pass that runs to its end does to each cursor: nothing, or one call
that succeeds. -/
theorem loopBody_next_cursors (ctx : Context) (st st1 : LoopState) (o : List Report)
    (hcond : (st.k.isSome || st.refK.isSome) = true) (hb : loopBody ctx st = .next o st1) :
    ((st1.k = st.k ∧ st1.c = st.c) ∨
      (st.c.next.1.err = none ∧ st1.k = st.c.next.1.k ∧ st1.c = st.c.next.2)) ∧
    ((st1.refK = st.refK ∧ st1.refC = st.refC) ∨
      (st.refC.next.1.err = none ∧ st1.refK = st.refC.next.1.k ∧ st1.refC = st.refC.next.2)) := by
  obtain ⟨o2, hcl⟩ := loopBody_classify_next ctx st st1 o hb
  obtain ⟨o0, _, hcase⟩ := classify_cases { st with count := st.count + 1 } hcond
  rcases hcase with ⟨_, he⟩ | ⟨_, he⟩ | ⟨_, _, he⟩
  · rw [he] at hcl
    obtain ⟨_, h2, h3⟩ := advanceRight_next _ _ _ _ hcl
    subst h3
    exact ⟨Or.inl ⟨rfl, rfl⟩, Or.inr ⟨h2, rfl, rfl⟩⟩
  · rw [he] at hcl
    obtain ⟨_, h2, h3⟩ := advanceLeft_next _ _ _ _ hcl
    subst h3
    exact ⟨Or.inr ⟨h2, rfl, rfl⟩, Or.inl ⟨rfl, rfl⟩⟩
  · rw [he] at hcl
    obtain ⟨_, h2, h3, h4⟩ := advanceBoth_next _ _ _ _ hcl
    subst h4
    exact ⟨Or.inr ⟨h2, rfl, rfl⟩, Or.inr ⟨h3, rfl, rfl⟩⟩

/-- A loop that returns `nil` has met no failing call: neither cursor fails
before its first `nil` key. -/
theorem compareLoop_nil (ctx : Context) :
    ∀ (fuel : Nat) (st : LoopState), (compareLoop ctx fuel st).ret = .nil →
      (st.k = none ∨ firstFailure (uptoStop st.c) = none) ∧
      (st.refK = none ∨ firstFailure (uptoStop st.refC) = none) := by
  intro fuel
  induction fuel with
  | zero =>
    intro st h
    cases hc : (st.k.isSome || st.refK.isSome) with
    | true => simp [compareLoop, hc] at h
    | false =>
      simp only [Bool.or_eq_false_iff] at hc
      exact ⟨Or.inl (by simpa using hc.1), Or.inl (by simpa using hc.2)⟩
  | succ fuel ih =>
    intro st h
    cases hc : (st.k.isSome || st.refK.isSome) with
    | false =>
      simp only [Bool.or_eq_false_iff] at hc
      exact ⟨Or.inl (by simpa using hc.1), Or.inl (by simpa using hc.2)⟩
    | true =>
      cases hb : loopBody ctx st with
      | stop o e => simp [compareLoop, hc, hb] at h
      | next o st1 =>
        simp only [compareLoop, hc, if_true, hb] at h
        obtain ⟨i1, i2⟩ := ih st1 h
        obtain ⟨l, r⟩ := loopBody_next_cursors ctx st st1 o hc hb
        constructor
        · rcases l with ⟨l1, l2⟩ | ⟨l1, l2, l3⟩
          · rw [l1, l2] at i1; exact i1
          · rw [l2, l3] at i1
            exact Or.inr (firstFailure_uptoStop_next st.c l1 i1)
        · rcases r with ⟨r1, r2⟩ | ⟨r1, r2, r3⟩
          · rw [r1, r2] at i2; exact i2
          · rw [r2, r3] at i2
            exact Or.inr (firstFailure_uptoStop_next st.refC r1 i2)

/-- The function returns `nil` only if both cursors were opened and neither
fails before its first `nil` key. -/
theorem compareBuckets_nil (ctx : Context) (tx refTx : Tx) (b refB : Bytes)
    (h : (compareBuckets ctx tx b refTx refB).ret = .nil) :
    ∃ c0 refC0, tx b = .ok c0 ∧ refTx refB = .ok refC0 ∧
      firstFailure (uptoStop c0) = none ∧ firstFailure (uptoStop refC0) = none := by
  rcases compareBuckets_cases ctx tx refTx b refB with ⟨e, _, hr⟩ | ⟨c0, e, _, _, hr⟩ |
    ⟨c0, e, _, _, _, hr⟩ | ⟨c0, refC0, e, _, _, _, _, hr⟩ | ⟨c0, refC0, h1, h2, h3, h4, hr⟩
  · rw [hr] at h; cases h
  · rw [hr] at h; cases h
  · rw [hr] at h; cases h
  · rw [hr] at h; cases h
  · rw [hr] at h
    obtain ⟨i1, i2⟩ := compareLoop_nil ctx _ _ h
    exact ⟨c0, refC0, h1, h3, firstFailure_uptoStop_next c0 h2 i1,
      firstFailure_uptoStop_next refC0 h4 i2⟩

/-- An error the function returns is the error of the context, seen done at a
pass whose count is a multiple of 10,000,000, the error of a call of `Cursor`,
or the first failure of one of the two cursors. -/
theorem compareBuckets_err_any (ctx : Context) (tx refTx : Tx) (b refB : Bytes) (e : Error)
    (hret : (compareBuckets ctx tx b refTx refB).ret = .err e) :
    (∃ n, 0 < n ∧ n % 10000000 = 0 ∧ ctx.done n = true ∧ e = ctx.err) ∨
    tx b = .error e ∨ refTx refB = .error e ∨
    (∃ c0, tx b = .ok c0 ∧ firstFailure c0 = some e) ∨
    (∃ refC0, refTx refB = .ok refC0 ∧ firstFailure refC0 = some e) := by
  rcases compareBuckets_cases ctx tx refTx b refB with ⟨e1, h1, h⟩ | ⟨c0, e1, h1, h2, h⟩ |
    ⟨c0, e1, h1, _, h3, h⟩ | ⟨c0, refC0, e1, _, _, h3, h4, h⟩ | ⟨c0, refC0, h1, h2, h3, h4, h⟩
  · rw [h] at hret; cases hret
    exact Or.inr (Or.inl h1)
  · rw [h] at hret; cases hret
    exact Or.inr (Or.inr (Or.inr (Or.inl ⟨c0, h1, firstFailure_of_next_err _ _ h2⟩)))
  · rw [h] at hret; cases hret
    exact Or.inr (Or.inr (Or.inl h3))
  · rw [h] at hret; cases hret
    exact Or.inr (Or.inr (Or.inr (Or.inr ⟨refC0, h3, firstFailure_of_next_err _ _ h4⟩)))
  · rw [h] at hret
    rcases compareLoop_err ctx _ _ e hret with hc | hc | hc
    · exact Or.inl hc
    · simp only at hc
      rw [firstFailure_next c0 h2] at hc
      exact Or.inr (Or.inr (Or.inr (Or.inl ⟨c0, h1, hc⟩)))
    · simp only at hc
      rw [firstFailure_next refC0 h4] at hc
      exact Or.inr (Or.inr (Or.inr (Or.inr ⟨refC0, h3, hc⟩)))

/-- The same, sharper: the failure is one the cursor meets before its first
`nil` key. -/
theorem compareBuckets_err (ctx : Context) (tx refTx : Tx) (b refB : Bytes) (c0 refC0 : Cursor)
    (h1 : tx b = .ok c0) (h3 : refTx refB = .ok refC0) (e : Error)
    (hret : (compareBuckets ctx tx b refTx refB).ret = .err e) :
    (∃ n, 0 < n ∧ n % 10000000 = 0 ∧ ctx.done n = true ∧ e = ctx.err) ∨
    firstFailure (uptoStop c0) = some e ∨ firstFailure (uptoStop refC0) = some e := by
  rw [compareBuckets_uptoStop ctx tx refTx b refB c0 refC0 h1 h3] at hret
  rcases compareBuckets_err_any ctx _ _ b refB e hret with h | h | h | ⟨c, hc, hf⟩ | ⟨c, hc, hf⟩
  · exact Or.inl h
  · simp [cursorTx] at h
  · simp [cursorTx] at h
  · simp only [cursorTx, Except.ok.injEq] at hc
    subst hc
    exact Or.inr (Or.inl hf)
  · simp only [cursorTx, Except.ok.injEq] at hc
    subst hc
    exact Or.inr (Or.inr hf)

/-- A failure that one cursor meets before its first `nil` key, the other cursor
meeting none and the context not being seen done, is the error the function
returns. -/
theorem compareBuckets_fails (ctx : Context) (tx refTx : Tx) (b refB : Bytes)
    (c0 refC0 : Cursor) (h1 : tx b = .ok c0) (h3 : refTx refB = .ok refC0)
    (hctx : ∀ n, 0 < n → n % 10000000 = 0 → ctx.done n = false) (e : Error)
    (hf : (firstFailure (uptoStop c0) = some e ∧ firstFailure (uptoStop refC0) = none) ∨
      (firstFailure (uptoStop c0) = none ∧ firstFailure (uptoStop refC0) = some e)) :
    (compareBuckets ctx tx b refTx refB).ret = .err e := by
  cases hret : (compareBuckets ctx tx b refTx refB).ret with
  | outOfFuel => exact absurd hret (compareBuckets_total ctx tx refTx b refB)
  | nil =>
    obtain ⟨c, r, g1, g3, f1, f2⟩ := compareBuckets_nil ctx tx refTx b refB hret
    rw [h1] at g1; rw [h3] at g3
    cases g1; cases g3
    rcases hf with ⟨hf, _⟩ | ⟨_, hf⟩
    · rw [f1] at hf; cases hf
    · rw [f2] at hf; cases hf
  | err e1 =>
    rcases compareBuckets_err ctx tx refTx b refB c0 refC0 h1 h3 e1 hret with
      ⟨n, hn, hm, hd, _⟩ | h | h
    · rw [hctx n hn hm] at hd; cases hd
    · rcases hf with ⟨hf, _⟩ | ⟨hf, _⟩
      · rw [hf] at h; cases h; rfl
      · rw [hf] at h; cases h
    · rcases hf with ⟨_, hf⟩ | ⟨_, hf⟩
      · rw [hf] at h; cases h
      · rw [hf] at h; cases h; rfl

/-- Claim C12. A failure of `Cursor`, `First` or `Next`, on either side, ends
`compareBuckets` at that call, with the error of the call.  Each of the four
first calls that fails makes the function return the error of the call with
nothing printed.  In the loop, a pass in which the call of `Next` it makes
fails (`passFailure`: the call on the right cursor when `k` is `nil` or above
`refK`, on the left one when `refK` is `nil` or above `k`, the first of the two
calls to fail when the keys are equal) returns that error from `classify`,
having printed the lines the pass prints before the call (`passReport`) and no
other, and unless the pass is cancelled the function returns with that error,
the count of that pass, and as output of the pass its progress notice, if it is
due, and those lines; a pass in which no call fails runs to its end.  The
second call of `case 0` is not made when the first fails.  Over a whole run:
the function returns `nil` only if both cursors were opened and neither fails
before its first `nil` key; when one cursor fails before its first `nil` key,
the other does not and the context is not seen done, the function returns that
failure; whatever the cursors would return after their first failing call has
no effect on the run; and an error the function returns is the error of the
context, of a failed `Cursor`, or of the first failing call of one of the
cursors, met before the first `nil` key of that cursor. -/
theorem compareBuckets_aborts_on_failure (ctx : Context) (tx refTx : Tx) (b refB : Bytes) :
    (∀ e, tx b = .error e → compareBuckets ctx tx b refTx refB = ⟨[], .err e, 0⟩) ∧
    (∀ c0 e, tx b = .ok c0 → c0.next.1.err = some e →
      compareBuckets ctx tx b refTx refB = ⟨[], .err e, 0⟩) ∧
    (∀ c0 e, tx b = .ok c0 → c0.next.1.err = none → refTx refB = .error e →
      compareBuckets ctx tx b refTx refB = ⟨[], .err e, 0⟩) ∧
    (∀ c0 refC0 e, tx b = .ok c0 → c0.next.1.err = none → refTx refB = .ok refC0 →
      refC0.next.1.err = some e → compareBuckets ctx tx b refTx refB = ⟨[], .err e, 0⟩) ∧
    (∀ (st : LoopState) (e : Error), passFailure st = some e →
      classify st = .stop (passReport st) e) ∧
    (∀ st : LoopState, passFailure st = none →
      ∃ st1, classify st = .next (passReport st) st1) ∧
    (∀ (fuel : Nat) (st : LoopState) (e : Error), (st.k.isSome || st.refK.isSome) = true →
      passFailure st = some e → (st.polls = true → ctx.done (st.count + 1) = false) →
      compareLoop ctx (fuel + 1) st
        = ⟨(if st.polls then [.compared (st.count + 1)] else []) ++ passReport st, .err e,
            st.count + 1⟩) ∧
    (∀ (o : List Report) (st : LoopState) (e : Error), st.c.next.1.err = some e →
      advanceLeft o st = .stop o e ∧ advanceBoth o st = .stop o e) ∧
    (∀ (o : List Report) (st : LoopState) (e : Error), st.refC.next.1.err = some e →
      advanceRight o st = .stop o e ∧
      (st.c.next.1.err = none → advanceBoth o st = .stop o e)) ∧
    (∀ (fuel : Nat) (st : LoopState) (o : List Report) (e : Error),
      (st.k.isSome || st.refK.isSome) = true → loopBody ctx st = .stop o e →
      compareLoop ctx (fuel + 1) st = ⟨o, .err e, st.count + 1⟩) ∧
    ((compareBuckets ctx tx b refTx refB).ret = .nil →
      ∃ c0 refC0, tx b = .ok c0 ∧ refTx refB = .ok refC0 ∧
        firstFailure (uptoStop c0) = none ∧ firstFailure (uptoStop refC0) = none) ∧
    (∀ c0 refC0 e, tx b = .ok c0 → refTx refB = .ok refC0 →
      (∀ n, 0 < n → n % 10000000 = 0 → ctx.done n = false) →
      ((firstFailure (uptoStop c0) = some e ∧ firstFailure (uptoStop refC0) = none) ∨
       (firstFailure (uptoStop c0) = none ∧ firstFailure (uptoStop refC0) = some e)) →
      (compareBuckets ctx tx b refTx refB).ret = .err e) ∧
    (∀ c0 refC0, tx b = .ok c0 → refTx refB = .ok refC0 →
      compareBuckets ctx tx b refTx refB
        = compareBuckets ctx (cursorTx (uptoFirstFailure c0)) b
            (cursorTx (uptoFirstFailure refC0)) refB) ∧
    (∀ e, (compareBuckets ctx tx b refTx refB).ret = .err e →
      (∃ n, 0 < n ∧ n % 10000000 = 0 ∧ ctx.done n = true ∧ e = ctx.err) ∨
      tx b = .error e ∨ refTx refB = .error e ∨
      (∃ c0, tx b = .ok c0 ∧ firstFailure (uptoStop c0) = some e ∧ firstFailure c0 = some e) ∨
      (∃ refC0, refTx refB = .ok refC0 ∧ firstFailure (uptoStop refC0) = some e ∧
        firstFailure refC0 = some e)) := by
  refine ⟨?_, ?_, ?_, ?_, ?_, ?_, ?_, ?_, ?_, ?_, ?_, ?_, ?_, ?_⟩
  · intro e h; simp [compareBuckets, h]
  · intro c0 e h1 h2; simp [compareBuckets, h1, h2]
  · intro c0 e h1 h2 h3; simp [compareBuckets, h1, h2, h3]
  · intro c0 refC0 e h1 h2 h3 h4; simp [compareBuckets, h1, h2, h3, h4]
  · intro st e h
    exact classify_of_passFailure st e h
  · intro st h
    exact classify_of_no_passFailure st h
  · intro fuel st e hc h hd
    exact compareLoop_of_passFailure ctx fuel st e hc h hd
  · intro o st e h
    refine ⟨advanceLeft_of_err o st e h, ?_⟩
    simp only [advanceBoth, advanceLeft_of_err o st e h]
  · intro o st e h
    refine ⟨advanceRight_of_err o st e h, ?_⟩
    intro hl
    rcases advanceLeft_cases o st with ⟨e1, h1, _⟩ | ⟨_, h2⟩
    · rw [hl] at h1; cases h1
    · simp only [advanceBoth, h2]
      exact advanceRight_of_err _ _ e h
  · intro fuel st o e hc hb
    simp only [compareLoop, hc, if_true, hb]
  · intro h
    exact compareBuckets_nil ctx tx refTx b refB h
  · intro c0 refC0 e h1 h3 hctx hf
    exact compareBuckets_fails ctx tx refTx b refB c0 refC0 h1 h3 hctx e hf
  · intro c0 refC0 h1 h3
    exact compareBuckets_uptoFirstFailure ctx tx refTx b refB c0 refC0 h1 h3
  · intro e hret
    rcases compareBuckets_err_any ctx tx refTx b refB e hret with h | h | h | ⟨c0, h1, _⟩ |
      ⟨refC0, h3, _⟩
    · exact Or.inl h
    · exact Or.inr (Or.inl h)
    · exact Or.inr (Or.inr (Or.inl h))
    · cases h3 : refTx refB with
      | error e3 =>
        rcases compareBuckets_cases ctx tx refTx b refB with ⟨e1, g1, g⟩ | ⟨c, e1, g1, g2, g⟩ |
          ⟨c, e1, g1, _, g3, g⟩ | ⟨c, r, e1, _, _, g3, _, _⟩ | ⟨c, r, _, _, g3, _, _⟩
        · rw [h1] at g1; cases g1
        · rw [g] at hret; cases hret
          rw [h1] at g1; cases g1
          have hf := firstFailure_of_next_err c0 e g2
          refine Or.inr (Or.inr (Or.inr (Or.inl ⟨c0, h1, ?_, hf⟩)))
          cases c0 with
          | nil => simp [Cursor.next, Step.eof] at g2
          | cons s rest =>
            simp only [Cursor.next] at g2
            simp [uptoStop, g2, firstFailure]
        · rw [g] at hret; cases hret
          exact Or.inr (Or.inr (Or.inl (h3.symm.trans g3)))
        · rw [h3] at g3; cases g3
        · rw [h3] at g3; cases g3
      | ok refC0 =>
        rcases compareBuckets_err ctx tx refTx b refB c0 refC0 h1 h3 e hret with h | h | h
        · exact Or.inl h
        · exact Or.inr (Or.inr (Or.inr (Or.inl ⟨c0, h1, h, firstFailure_uptoStop c0 e h⟩)))
        · exact Or.inr (Or.inr (Or.inr (Or.inr ⟨refC0, rfl, h, firstFailure_uptoStop refC0 e h⟩)))
    · cases h1 : tx b with
      | error e1 =>
        have := (show compareBuckets ctx tx b refTx refB = ⟨[], .err e1, 0⟩ by
          simp [compareBuckets, h1])
        rw [this] at hret; cases hret
        exact Or.inr (Or.inl rfl)
      | ok c0 =>
        rcases compareBuckets_err ctx tx refTx b refB c0 refC0 h1 h3 e hret with h | h | h
        · exact Or.inl h
        · exact Or.inr (Or.inr (Or.inr (Or.inl ⟨c0, rfl, h, firstFailure_uptoStop c0 e h⟩)))
        · exact Or.inr (Or.inr (Or.inr (Or.inr ⟨refC0, h3, h, firstFailure_uptoStop refC0 e h⟩)))

theorem compareBuckets_aborts_on_failure_witness :
    (compareBuckets ⟨fun _ => false, .canceled⟩
        (tableTx [(str "a", str "1"), (str "c", str "3")]) (str "T")
        (cursorTx [⟨some (str "b"), str "2", none⟩, ⟨none, [], some (.storage 7)⟩,
          ⟨some (str "z"), str "9", none⟩]) (str "T")).ret
      = .err (.storage 7) :=
  (compareBuckets_aborts_on_failure ⟨fun _ => false, .canceled⟩
    (tableTx [(str "a", str "1"), (str "c", str "3")])
    (cursorTx [⟨some (str "b"), str "2", none⟩, ⟨none, [], some (.storage 7)⟩,
      ⟨some (str "z"), str "9", none⟩]) (str "T") (str "T")).2.2.2.2.2.2.2.2.2.2.2.1
    (tableCursor [(str "a", str "1"), (str "c", str "3")])
    [⟨some (str "b"), str "2", none⟩, ⟨none, [], some (.storage 7)⟩,
      ⟨some (str "z"), str "9", none⟩]
    (.storage 7) rfl rfl (fun _ _ _ => rfl) (Or.inr ⟨by decide, by decide⟩)

/-! ## `compareStates` -/

/-- Two tables read without error, under a context not seen done at any pass
that polls it, compare to `nil` with the merge of the tables printed. -/
theorem compareBuckets_table_quiet (ctx : Context)
    (hctx : ∀ n, 0 < n → n % 10000000 = 0 → ctx.done n = false)
    (tx refTx : Tx) (b refB : Bytes) (as bs : List Record)
    (htx : tx b = .ok (tableCursor as)) (href : refTx refB = .ok (tableCursor bs)) :
    (compareBuckets ctx tx b refTx refB).ret = .nil ∧
    divergences (compareBuckets ctx tx b refTx refB).out = mergeReports as bs := by
  have h : compareBuckets ctx tx b refTx refB
      = compareBuckets ⟨fun _ => false, ctx.err⟩ tx b refTx refB :=
    compareBuckets_ctx_congr ctx ⟨fun _ => false, ctx.err⟩ rfl tx refTx b refB
      (fun n hn hpos _ => hctx n hpos hn)
  rw [h]
  exact compareBuckets_table _ (fun _ => rfl) tx refTx b refB as bs htx href

theorem header_map_report (out : List Report) :
    (out.map Line.report).filterMap Line.header = [] := by
  induction out with
  | nil => rfl
  | cons r rs ih => simp [Line.header, ih]

theorem divergence_map_report (out : List Report) :
    (out.map Line.report).filterMap Line.divergence = divergences out := by
  induction out with
  | nil => rfl
  | cons r rs ih =>
    simp only [List.map_cons, divergences, List.filter_cons] at ih ⊢
    cases hr : r.isDivergence with
    | true => simp [List.filterMap_cons, Line.divergence, hr, ih]
    | false => simp [List.filterMap_cons, Line.divergence, hr, ih]

/-- The loop of `compareStates` over tables read without error goes through all
of them. -/
theorem compareTables_ok (ctx : Nat → Context) (tx refTx : Tx) (tbl refTbl : Bytes → List Record)
    (hctx : ∀ i n, 0 < n → n % 10000000 = 0 → (ctx i).done n = false) :
    ∀ (buckets : List Bytes) (i : Nat),
      (∀ b ∈ buckets, tx b = .ok (tableCursor (tbl b))) →
      (∀ b ∈ buckets, refTx b = .ok (tableCursor (refTbl b))) →
      (compareTables ctx tx refTx i buckets).ret = .nil ∧
      (compareTables ctx tx refTx i buckets).out.filterMap Line.header = buckets ∧
      (compareTables ctx tx refTx i buckets).out.filterMap Line.divergence
        = buckets.flatMap (fun b => mergeReports (tbl b) (refTbl b)) := by
  intro buckets
  induction buckets with
  | nil => intro i _ _; simp [compareTables]
  | cons b rest ih =>
    intro i htx href
    obtain ⟨h1, h2⟩ := compareBuckets_table_quiet (ctx i) (hctx i) tx refTx b b (tbl b) (refTbl b)
      (htx b (List.mem_cons_self _ _)) (href b (List.mem_cons_self _ _))
    obtain ⟨i1, i2, i3⟩ := ih (i + 1) (fun x hx => htx x (List.mem_cons_of_mem _ hx))
      (fun x hx => href x (List.mem_cons_of_mem _ hx))
    simp only [compareTables, h1]
    refine ⟨i1, ?_, ?_⟩
    · simp only [List.filterMap_cons, List.filterMap_append, Line.header, header_map_report,
        i2, List.nil_append]
      rfl
    · simp only [List.filterMap_cons, List.filterMap_append, Line.divergence,
        divergence_map_report, i3, h2, List.flatMap_cons]

/-- Claim C13. Divergences are not errors.  Whatever two tables hold, and so
however many lines `Missing in db`, `Missing refDB` and `Different values` are
printed, `compareBuckets` returns `nil` when no cursor call fails and the context
is not seen done at a pass that polls it; and `compareStates` then goes through
every table of the list `stateBuckets` in order, printing the header and the
divergences of each, and returns `nil`. -/
theorem compareStates_completes (stateBuckets : List Bytes) (ctx : Nat → Context)
    (tx refTx : Tx) (tbl refTbl : Bytes → List Record)
    (htx : ∀ b ∈ stateBuckets, tx b = .ok (tableCursor (tbl b)))
    (href : ∀ b ∈ stateBuckets, refTx b = .ok (tableCursor (refTbl b)))
    (hctx : ∀ i n, 0 < n → n % 10000000 = 0 → (ctx i).done n = false) :
    (∀ (i : Nat) (b refB : Bytes) (as bs : List Record),
      tx b = .ok (tableCursor as) → refTx refB = .ok (tableCursor bs) →
      (compareBuckets (ctx i) tx b refTx refB).ret = .nil ∧
      divergences (compareBuckets (ctx i) tx b refTx refB).out = mergeReports as bs) ∧
    (compareStates stateBuckets ctx (.ok tx) (.ok refTx)).ret = .nil ∧
    (compareStates stateBuckets ctx (.ok tx) (.ok refTx)).out.filterMap Line.header
      = stateBuckets ∧
    (compareStates stateBuckets ctx (.ok tx) (.ok refTx)).out.filterMap Line.divergence
      = stateBuckets.flatMap (fun b => mergeReports (tbl b) (refTbl b)) := by
  refine ⟨?_, ?_⟩
  · intro i b refB as bs h1 h2
    exact compareBuckets_table_quiet (ctx i) (hctx i) tx refTx b refB as bs h1 h2
  · exact compareTables_ok ctx tx refTx tbl refTbl hctx stateBuckets 0 htx href

theorem compareStates_completes_witness :
    (compareStates [str "A", str "B"] (fun _ => ⟨fun _ => false, .canceled⟩)
        (.ok (fun b => .ok (tableCursor
          (if b = str "A" then [(str "a", str "1"), (str "c", str "3")] else []))))
        (.ok (fun b => .ok (tableCursor
          (if b = str "A" then [(str "a", str "2")] else [(str "x", str "9")]))))).ret = .nil ∧
    (compareStates [str "A", str "B"] (fun _ => ⟨fun _ => false, .canceled⟩)
        (.ok (fun b => .ok (tableCursor
          (if b = str "A" then [(str "a", str "1"), (str "c", str "3")] else []))))
        (.ok (fun b => .ok (tableCursor
          (if b = str "A" then [(str "a", str "2")] else [(str "x", str "9")]))))).out
      = [.bucket (str "A"),
         .report (.differentValues (str "a") (str "1") (str "2")),
         .report (.missingRefDB (str "c") (str "3")),
         .bucket (str "B"),
         .report (.missingInDb (str "x") (str "9"))] :=
  ⟨(compareStates_completes [str "A", str "B"] (fun _ => ⟨fun _ => false, .canceled⟩)
      (fun b => .ok (tableCursor
        (if b = str "A" then [(str "a", str "1"), (str "c", str "3")] else [])))
      (fun b => .ok (tableCursor
        (if b = str "A" then [(str "a", str "2")] else [(str "x", str "9")])))
      (fun b => if b = str "A" then [(str "a", str "1"), (str "c", str "3")] else [])
      (fun b => if b = str "A" then [(str "a", str "2")] else [(str "x", str "9")])
      (fun _ _ => rfl) (fun _ _ => rfl) (fun _ _ _ _ => rfl)).2.1, by decide⟩

end ReferenceDb
